import Mathlib

/-
Verification of the CLOCK-Pro shard cache (internal/cache/clockpro.go).

The shard state and its operations (Get, Set, Delete, EvictFile, Reserve,
evict / runHandCold / runHandHot / runHandTest, metaAdd / metaDel / metaEvict,
targetSize, checkConsistency) are translated from clockpro.go.

Modelled from the spec: the entry/value helper file (entry ring mechanics) is
not among the sources; per spec section 4.2 and the design notes, all entries
of a shard share one circular doubly-linked list, a ring of exactly one node
links to itself, and a second circular list per file enables bulk eviction.
We realise both rings as lists of keys in cyclic order: `ring` is the shard
clock in cyclic order, and `files` maps a file key to that file's ring,
head first.  `ringNext`/`ringPrev` are the cyclic successor/predecessor
(entry.next/entry.prev), `linkAfter` is entry.link (insert after a node),
erasing from the list is entry.unlink, and the "successor equals the node
itself" singleton test is `ringNext r k = k`.  Each entry's metadata lives in
the association list `entries` (the blocks map), keyed by the cache key.
Reference counting of Values is outside the scope of the claims; a released
value is reported as an explicit result where a claim needs it.

Loops are modelled with explicit fuel; `Res.oof` means the fuel ran out
(the Go loop is still running), `Res.panicked` models the Go panics of
checkConsistency and of the runHandTest cold-count assertion.
-/

namespace Clockpro

/-- Cache key: (id, fileNum, offset), from `key`/`fileKey` in clockpro.go. -/
structure CKey where
  id : Nat
  fileNum : Nat
  offset : Nat
deriving DecidableEq

/-- key.file(): zero the offset, the key used for the shard.files map. -/
def CKey.file (k : CKey) : CKey :=
  { k with offset := 0 }

/-- Entry type tag: hot, cold, or test (ghost). -/
inductive EType where
  | etHot
  | etCold
  | etTest
deriving DecidableEq

/-- A cached value: the byte buffer (bytes as naturals). -/
structure Value where
  buf : List Nat
deriving DecidableEq

/-- Entry metadata: size, type tag, reference bit, and owned value
(`none` for test ghosts).  Ring membership is kept in the shard state. -/
structure Entry where
  size : Int
  ptype : EType
  referenced : Bool
  val : Option Value
deriving DecidableEq

/-- Association list lookup (first match), modelling a Go map get. -/
def lookupKV {α β : Type} [DecidableEq α] : List (α × β) → α → Option β
  | [], _ => none
  | (a, b) :: t, k => if a = k then some b else lookupKV t k

/-- Association list insert/replace, modelling a Go map put. -/
def putKV {α β : Type} [DecidableEq α] : List (α × β) → α → β → List (α × β)
  | [], k, v => [(k, v)]
  | (a, b) :: t, k, v => if a = k then (k, v) :: t else (a, b) :: putKV t k v

/-- Association list delete, modelling a Go map delete. -/
def eraseKV {α β : Type} [DecidableEq α] : List (α × β) → α → List (α × β)
  | [], _ => []
  | (a, b) :: t, k => if a = k then t else (a, b) :: eraseKV t k

/-- Update the binding of a key in place. -/
def updateKV {α β : Type} [DecidableEq α] (f : β → β) : List (α × β) → α → List (α × β)
  | [], _ => []
  | (a, b) :: t, k => if a = k then (a, f b) :: t else (a, b) :: updateKV f t k

/-- Cyclic successor in a ring list (entry.next for a well-linked ring). -/
def ringNext {α : Type} [DecidableEq α] (r : List α) (k : α) : α :=
  if k ∈ r then r.getD ((r.indexOf k + 1) % r.length) k else k

/-- Cyclic predecessor in a ring list (entry.prev). -/
def ringPrev {α : Type} [DecidableEq α] (r : List α) (k : α) : α :=
  ringNext r.reverse k

/-- entry.link: insert `k` immediately after `h` in the ring. -/
def linkAfter {α : Type} [DecidableEq α] : List α → α → α → List α
  | [], _, k => [k]
  | x :: t, h, k => if x = h then x :: k :: t else x :: linkAfter t h k

/-- Rotate a list so that it starts at `k` (used for the file-ring head
update in metaDel: the Go code stores the evicted entry's successor as the
new head pointer). -/
def rotAux {α : Type} [DecidableEq α] : Nat → List α → α → List α
  | 0, l, _ => l
  | n + 1, l, k =>
    match l with
    | [] => []
    | x :: t => if x = k then x :: t else rotAux n (t ++ [x]) k

def rotateTo {α : Type} [DecidableEq α] (l : List α) (k : α) : List α :=
  rotAux l.length l k

/-- linkFile on the stored head: insert `k` right after the head of the
file ring. -/
def linkFileAfterHead (l : List CKey) (k : CKey) : List CKey :=
  match l with
  | [] => [k]
  | h :: t => h :: k :: t

/-- Shard state (the mutable fields of `type shard` in clockpro.go). -/
structure Shard where
  reservedSize : Int
  maxSize : Int
  coldTarget : Int
  entries : List (CKey × Entry)
  ring : List CKey
  files : List (CKey × List CKey)
  handHot : Option CKey
  handCold : Option CKey
  handTest : Option CKey
  sizeHot : Int
  sizeCold : Int
  sizeTest : Int
  countHot : Int
  countCold : Int
  countTest : Int
  hits : Int
  misses : Int
deriving DecidableEq

/-- shard.targetSize(): max(1, maxSize - reservedSize). -/
def targetSize (c : Shard) : Int :=
  if c.maxSize - c.reservedSize < 1 then 1 else c.maxSize - c.reservedSize

/-- shard.checkConsistency() as a boolean (true = no panic). -/
def checkConsistency (c : Shard) : Bool :=
  !(decide (c.sizeHot < 0) || decide (c.sizeCold < 0) || decide (c.sizeTest < 0) ||
    decide (c.countHot < 0) || decide (c.countCold < 0) || decide (c.countTest < 0) ||
    (decide (0 < c.sizeHot) && decide (c.countHot = 0)) ||
    (decide (0 < c.sizeCold) && decide (c.countCold = 0)) ||
    (decide (0 < c.sizeTest) && decide (c.countTest = 0)))

/-- shard.metaDel: remove the entry from the blocks map, move any hand off
the entry (to its predecessor), unlink it from the shard ring (clearing all
hands if it was the last entry) and from its file ring (storing the
successor as the file ring's new head).  Returns the removed value. -/
def metaDel (c : Shard) (k : CKey) : Shard × Option Value :=
  match lookupKV c.entries k with
  | none => (c, none)
  | some e =>
    let entries' := eraseKV c.entries k
    let hh := if c.handHot = some k then some (ringPrev c.ring k) else c.handHot
    let hc := if c.handCold = some k then some (ringPrev c.ring k) else c.handCold
    let ht := if c.handTest = some k then some (ringPrev c.ring k) else c.handTest
    let solo := ringNext c.ring k = k
    let ring' := c.ring.erase k
    let fkey := k.file
    let fl := (lookupKV c.files fkey).getD []
    let fnext := ringNext fl k
    let files' :=
      if fnext = k then eraseKV c.files fkey
      else putKV c.files fkey (rotateTo (fl.erase k) fnext)
    ({ c with
        entries := entries'
        ring := ring'
        handHot := if solo then none else hh
        handCold := if solo then none else hc
        handTest := if solo then none else ht
        files := files' }, e.val)

/-- shard.metaEvict: adjust the counters of the entry's category, then
metaDel (entry memory free is implicit). -/
def metaEvict (c : Shard) (k : CKey) : Shard × Option Value :=
  match lookupKV c.entries k with
  | none => (c, none)
  | some e =>
    let c1 :=
      match e.ptype with
      | .etHot => { c with sizeHot := c.sizeHot - e.size, countHot := c.countHot - 1 }
      | .etCold => { c with sizeCold := c.sizeCold - e.size, countCold := c.countCold - 1 }
      | .etTest => { c with sizeTest := c.sizeTest - e.size, countTest := c.countTest - 1 }
    metaDel c1 k

/-- Result of a fueled run: finished, Go panic, or out of fuel. -/
inductive Res (α : Type) where
  | ok (a : α)
  | panicked
  | oof
deriving DecidableEq

/-- runHandCold second-chance branch: cold and referenced, promote to hot. -/
def promoteCold (c : Shard) (k : CKey) (e : Entry) : Shard :=
  { c with
      entries := updateKV (fun e' => { e' with referenced := false, ptype := .etHot }) c.entries k
      sizeCold := c.sizeCold - e.size
      countCold := c.countCold - 1
      sizeHot := c.sizeHot + e.size
      countHot := c.countHot + 1 }

/-- runHandCold demotion branch: cold and unreferenced, drop the value and
turn the entry into a test ghost. -/
def demoteCold (c : Shard) (k : CKey) (e : Entry) : Shard :=
  { c with
      entries := updateKV (fun e' => { e' with val := none, ptype := .etTest }) c.entries k
      sizeCold := c.sizeCold - e.size
      countCold := c.countCold - 1
      sizeTest := c.sizeTest + e.size
      countTest := c.countTest + 1 }

/-- runHandHot: clear the reference bit of a hot entry. -/
def clearRefHot (c : Shard) (k : CKey) : Shard :=
  { c with entries := updateKV (fun e' => { e' with referenced := false }) c.entries k }

/-- runHandHot demotion branch: hot and unreferenced, demote to cold. -/
def demoteHot (c : Shard) (k : CKey) (e : Entry) : Shard :=
  { c with
      entries := updateKV (fun e' => { e' with ptype := .etCold }) c.entries k
      sizeHot := c.sizeHot - e.size
      countHot := c.countHot - 1
      sizeCold := c.sizeCold + e.size
      countCold := c.countCold + 1 }

/-- runHandTest eviction: adjust test counters, decrement coldTarget by the
entry's size floored at 0, and metaDel the entry. -/
def evictTest (c : Shard) (k : CKey) (e : Entry) : Shard :=
  let c1 :=
    { c with
        sizeTest := c.sizeTest - e.size
        countTest := c.countTest - 1
        coldTarget := if c.coldTarget - e.size < 0 then 0 else c.coldTarget - e.size }
  (metaDel c1 k).1

/-- c.handCold = c.handCold.next() -/
def advanceCold (c : Shard) : Shard :=
  { c with handCold := c.handCold.map (fun k => ringNext c.ring k) }

/-- c.handHot = c.handHot.next() -/
def advanceHot (c : Shard) : Shard :=
  { c with handHot := c.handHot.map (fun k => ringNext c.ring k) }

/-- c.handTest = c.handTest.next() -/
def advanceTest (c : Shard) : Shard :=
  { c with handTest := c.handTest.map (fun k => ringNext c.ring k) }

mutual

/-- shard.evict(): advance the cold hand while the resident size is at
least targetSize and the cold hand exists. -/
def evict : Nat → Shard → Res Shard
  | 0, _ => .oof
  | n + 1, c =>
    if targetSize c ≤ c.sizeHot + c.sizeCold ∧ c.handCold ≠ none then
      match runHandCold n c with
      | .ok c' => evict n c'
      | .panicked => .panicked
      | .oof => .oof
    else .ok c

/-- shard.runHandCold (the debug count/size arguments are omitted: at every
Go call site they are passed the fields themselves, so the mismatch panic
cannot fire). -/
def runHandCold : Nat → Shard → Res Shard
  | 0, _ => .oof
  | n + 1, c =>
    let step : Res Shard :=
      match c.handCold with
      | none => .ok c
      | some k =>
        match lookupKV c.entries k with
        | none => .ok c
        | some e =>
          if e.ptype = .etCold then
            if e.referenced then .ok (promoteCold c k e)
            else testLoop n (demoteCold c k e)
          else .ok c
    match step with
    | .ok c1 =>
      match hotLoop n (advanceCold c1) with
      | .ok c2 => .ok c2
      | .panicked => .panicked
      | .oof => .oof
    | .panicked => .panicked
    | .oof => .oof

/-- The inner loop of runHandCold's demotion branch: advance the test hand
while the test size exceeds targetSize. -/
def testLoop : Nat → Shard → Res Shard
  | 0, _ => .oof
  | n + 1, c =>
    if targetSize c < c.sizeTest ∧ c.handTest ≠ none then
      match runHandTest n c with
      | .ok c' => testLoop n c'
      | .panicked => .panicked
      | .oof => .oof
    else .ok c

/-- The trailing loop of runHandCold: advance the hot hand while the hot
size is at least targetSize - coldTarget. -/
def hotLoop : Nat → Shard → Res Shard
  | 0, _ => .oof
  | n + 1, c =>
    if targetSize c - c.coldTarget ≤ c.sizeHot ∧ c.handHot ≠ none then
      match runHandHot n c with
      | .ok c' => hotLoop n c'
      | .panicked => .panicked
      | .oof => .oof
    else .ok c

/-- shard.runHandHot. -/
def runHandHot : Nat → Shard → Res Shard
  | 0, _ => .oof
  | n + 1, c =>
    let step : Res Shard :=
      if c.handHot = c.handTest ∧ c.handTest ≠ none then runHandTest n c
      else .ok c
    match step with
    | .ok c1 =>
      match c1.handHot with
      | none => .ok c1
      | some k =>
        match lookupKV c1.entries k with
        | none => .ok (advanceHot c1)
        | some e =>
          if e.ptype = .etHot then
            if e.referenced then .ok (advanceHot (clearRefHot c1 k))
            else .ok (advanceHot (demoteHot c1 k e))
          else .ok (advanceHot c1)
    | .panicked => .panicked
    | .oof => .oof

/-- shard.runHandTest. -/
def runHandTest : Nat → Shard → Res Shard
  | 0, _ => .oof
  | n + 1, c =>
    let step : Res Shard :=
      if 0 < c.sizeCold ∧ c.handTest = c.handCold ∧ c.handCold ≠ none then
        if c.countCold = 0 then .panicked
        else runHandCold n c
      else .ok c
    match step with
    | .ok c1 =>
      match c1.handTest with
      | none => .ok c1
      | some k =>
        match lookupKV c1.entries k with
        | none => .ok (advanceTest c1)
        | some e =>
          if e.ptype = .etTest then .ok (advanceTest (evictTest c1 k e))
          else .ok (advanceTest c1)
    | .panicked => .panicked
    | .oof => .oof

end

/-- The insertion part of shard.metaAdd, performed after the eviction sweep
and the size check: put the entry in the blocks map, link it into the shard
ring right after the hot hand (starting a fresh singleton ring with all
three hands on the new entry when the ring is empty), pull the cold hand
back to its predecessor if it coincides with the hot hand, and link the
entry into its file ring after the stored head. -/
def metaInsert (c : Shard) (k : CKey) (e : Entry) : Shard :=
  let handHotN :=
    match c.handHot with
    | none => some k
    | some hh => some hh
  let ringN :=
    match c.handHot with
    | none => [k]
    | some hh => linkAfter c.ring hh k
  let handColdMid :=
    match c.handHot with
    | none => some k
    | some _ => c.handCold
  let handTestN :=
    match c.handHot with
    | none => some k
    | some _ => c.handTest
  let handColdN :=
    if handColdMid = handHotN then handColdMid.map (fun k' => ringPrev ringN k')
    else handColdMid
  let filesN :=
    match lookupKV c.files k.file with
    | none => putKV c.files k.file [k]
    | some l => putKV c.files k.file (linkFileAfterHead l k)
  { c with
      entries := putKV c.entries k e
      ring := ringN
      handHot := handHotN
      handCold := handColdN
      handTest := handTestN
      files := filesN }

/-- shard.metaAdd: evict first, decline if the entry is larger than
targetSize, otherwise insert. -/
def metaAdd (n : Nat) (c0 : Shard) (k : CKey) (e : Entry) : Res (Shard × Bool) :=
  match evict n c0 with
  | .ok c =>
    if targetSize c < e.size then .ok (c, false)
    else .ok (metaInsert c k e, true)
  | .panicked => .panicked
  | .oof => .oof

/-- shard.Get: on a resident entry set the reference bit, count a hit and
return the value; otherwise count a miss and return the invalid handle.
Get never moves the hands. -/
def Get (c : Shard) (k : CKey) : Shard × Option Value :=
  match lookupKV c.entries k with
  | some e =>
    match e.val with
    | some v =>
      ({ c with
          entries := updateKV (fun e' => { e' with referenced := true }) c.entries k
          hits := c.hits + 1 }, some v)
    | none => ({ c with misses := c.misses + 1 }, none)
  | none => ({ c with misses := c.misses + 1 }, none)

/-- shard.Set (the Value refcount-1 precondition panic is outside the
modelled state).  Returns the new state and the handle wrapping the
caller's value. -/
def Set (n : Nat) (c : Shard) (k : CKey) (value : Value) : Res (Shard × Option Value) :=
  match lookupKV c.entries k with
  | none =>
    let e : Entry :=
      { size := (value.buf.length : Int), ptype := .etCold, referenced := false,
        val := some value }
    match metaAdd n c k e with
    | .ok (c1, true) =>
      let c2 := { c1 with sizeCold := c1.sizeCold + e.size, countCold := c1.countCold + 1 }
      if checkConsistency c2 then .ok (c2, some value) else .panicked
    | .ok (c1, false) =>
      if checkConsistency c1 then .ok (c1, some value) else .panicked
    | .panicked => .panicked
    | .oof => .oof
  | some e =>
    if e.val ≠ none then
      let newSize : Int := (value.buf.length : Int)
      let delta := newSize - e.size
      let c1 :=
        { c with
            entries := updateKV
              (fun e' => { e' with val := some value, referenced := true, size := newSize })
              c.entries k }
      let c2 :=
        if e.ptype = .etHot then { c1 with sizeHot := c1.sizeHot + delta }
        else { c1 with sizeCold := c1.sizeCold + delta }
      match evict n c2 with
      | .ok c3 => if checkConsistency c3 then .ok (c3, some value) else .panicked
      | .panicked => .panicked
      | .oof => .oof
    else
      let c1 := { c with sizeTest := c.sizeTest - e.size, countTest := c.countTest - 1 }
      let c2 := (metaDel c1 k).1
      let newSize : Int := (value.buf.length : Int)
      let ct := c2.coldTarget + newSize
      let c3 := { c2 with coldTarget := if targetSize c2 < ct then targetSize c2 else ct }
      let e' : Entry :=
        { size := newSize, ptype := .etHot, referenced := false, val := some value }
      match metaAdd n c3 k e' with
      | .ok (c4, true) =>
        let c5 := { c4 with sizeHot := c4.sizeHot + newSize, countHot := c4.countHot + 1 }
        if checkConsistency c5 then .ok (c5, some value) else .panicked
      | .ok (c4, false) =>
        if checkConsistency c4 then .ok (c4, some value) else .panicked
      | .panicked => .panicked
      | .oof => .oof

/-- shard.Delete: a no-op on an absent key; otherwise metaEvict and report
the removed value (released after the lock is dropped). -/
def Delete (c : Shard) (k : CKey) : Res (Shard × Option Value) :=
  match lookupKV c.entries k with
  | none => .ok (c, none)
  | some _ =>
    let p := metaEvict c k
    if checkConsistency p.1 then .ok (p.1, p.2) else .panicked

/-- The inner loop of shard.evictFileRun: evict up to `batch` entries of the
file ring, following each entry's successor taken before its eviction. -/
def evictFileStep :
    Nat → Shard → CKey → CKey → List (Option Value) → Res (Shard × Bool × List (Option Value))
  | 0, c, _, _, acc => .ok (c, true, acc)
  | batch + 1, c, fkey, b, acc =>
    let l := (lookupKV c.files fkey).getD []
    let n := ringNext l b
    let p := metaEvict c b
    if b = n then
      if checkConsistency p.1 then .ok (p.1, false, acc ++ [p.2]) else .panicked
    else evictFileStep batch p.1 fkey n (acc ++ [p.2])

/-- shard.evictFileRun: one mutex acquisition, at most 5 evictions. -/
def evictFileRun (c : Shard) (fkey : CKey) : Res (Shard × Bool × List (Option Value)) :=
  match lookupKV c.files fkey with
  | none => .ok (c, false, [])
  | some blocks =>
    match blocks with
    | [] => .ok (c, false, [])
    | b :: _ => evictFileStep 5 c fkey b []

/-- The retry loop of shard.EvictFile. -/
def evictFileLoop :
    Nat → Shard → CKey → List (Option Value) → Res (Shard × List (Option Value))
  | 0, _, _, _ => .oof
  | n + 1, c, fkey, acc =>
    match evictFileRun c fkey with
    | .ok (c1, true, vs) => evictFileLoop n c1 fkey (acc ++ vs)
    | .ok (c1, false, vs) => .ok (c1, acc ++ vs)
    | .panicked => .panicked
    | .oof => .oof

/-- shard.EvictFile: run batches until none remain. -/
def EvictFile (n : Nat) (c : Shard) (fkey : CKey) : Res (Shard × List (Option Value)) :=
  evictFileLoop n c fkey []

/-- shard.Reserve: grow reservedSize, clamp coldTarget into [0, targetSize],
evict, check consistency. -/
def Reserve (fuel : Nat) (c : Shard) (n : Int) : Res Shard :=
  let c1 := { c with reservedSize := c.reservedSize + n }
  let c2 :=
    if targetSize c1 < c1.coldTarget then { c1 with coldTarget := targetSize c1 } else c1
  match evict fuel c2 with
  | .ok c3 => if checkConsistency c3 then .ok c3 else .panicked
  | .panicked => .panicked
  | .oof => .oof

/-- A freshly created shard (newShards gives each shard maxSize = coldTarget
= its slice of the cache budget, everything else empty). -/
def initShard (m : Int) : Shard :=
  { reservedSize := 0, maxSize := m, coldTarget := m, entries := [], ring := [], files := [],
    handHot := none, handCold := none, handTest := none,
    sizeHot := 0, sizeCold := 0, sizeTest := 0,
    countHot := 0, countCold := 0, countTest := 0, hits := 0, misses := 0 }

/-- Reachable shard states: the initial state, closed under the completed
shard operations. -/
inductive Reach : Shard → Prop where
  | init (m : Int) : Reach (initShard m)
  | get (s : Shard) (k : CKey) : Reach s → Reach (Get s k).1
  | set (s s' : Shard) (n : Nat) (k : CKey) (v : Value) (h : Option Value) :
      Reach s → Set n s k v = .ok (s', h) → Reach s'
  | del (s s' : Shard) (k : CKey) (v : Option Value) :
      Reach s → Delete s k = .ok (s', v) → Reach s'
  | evictFile (s s' : Shard) (n : Nat) (fk : CKey) (vs : List (Option Value)) :
      Reach s → EvictFile n s fk = .ok (s', vs) → Reach s'
  | reserve (s s' : Shard) (fuel : Nat) (n : Int) :
      Reach s → Reserve fuel s n = .ok s' → Reach s'

/-! ### Per-file ring well-formedness -/

/-- The stored ring of a file (head first); empty when the file is absent
from the files map. -/
def fileRing (c : Shard) (g : CKey) : List CKey :=
  (lookupKV c.files g).getD []

/-- Well-formedness of the per-file rings: every stored ring is a nonempty
duplicate-free list of keys of its file, all present in the blocks map; the
stored file keys are distinct; and every entry of the blocks map sits on its
file's ring. -/
def FileWF (c : Shard) : Prop :=
  (∀ p ∈ c.files,
      p.2 ≠ [] ∧ p.2.Nodup ∧ ∀ k0 ∈ p.2, CKey.file k0 = p.1 ∧ k0 ∈ c.entries.map Prod.fst) ∧
  (c.files.map Prod.fst).Nodup ∧
  (∀ q ∈ c.entries, q.1 ∈ fileRing c (CKey.file q.1))

/-! ### Concrete shard states for the claim analyses -/

/-- A cache key of file (1, 1). -/
def kk (i : Nat) : CKey := ⟨1, 1, i⟩

/-- A cache key of the second file (1, 2). -/
def kf2 (i : Nat) : CKey := ⟨1, 2, i⟩

/-- A value of m bytes. -/
def vN (m : Nat) : Value := ⟨List.replicate m 7⟩

/-- The shard of a completed Set (or Delete), with a default for the other
outcomes. -/
def okShard (r : Res (Shard × Option Value)) (d : Shard) : Shard :=
  match r with
  | .ok (s, _) => s
  | _ => d

/-- The shard of a completed EvictFile, with a default. -/
def okShardF (r : Res (Shard × List (Option Value))) (d : Shard) : Shard :=
  match r with
  | .ok (s, _) => s
  | _ => d

/-- A concrete history of a 10-byte shard: Set k1 (4 bytes), Get k1,
Set k2 (7 bytes), Set k3 (0 bytes), Set k4 (7 bytes), Set k5 (1 byte).
st3 is over budget (resident size 11 > 10); st4 is under budget; st6
holds two test ghosts (k1 of former size 4 and k3 of former size 0)
with coldTarget 3, and its test hand rests on the ghost k1, while st4's
test hand rests on the resident cold entry k1. -/
def st0 : Shard := initShard 10

def st1 : Shard := okShard (Set 30 st0 (kk 1) (vN 4)) st0

def st2 : Shard := (Get st1 (kk 1)).1

def st3 : Shard := okShard (Set 30 st2 (kk 2) (vN 7)) st0

def st4 : Shard := okShard (Set 30 st3 (kk 3) (vN 0)) st0

def st5 : Shard := okShard (Set 30 st4 (kk 4) (vN 7)) st0

def st6 : Shard := okShard (Set 30 st5 (kk 5) (vN 1)) st0

/-- Setting the test ghost k1 (former size 4) of st6 with a 2-byte value. -/
def st7c3 : Shard := okShard (Set 30 st6 (kk 1) (vN 2)) st0

/-- An oversized Set (11 bytes > targetSize 10) issued on the over-budget
state st3. -/
def c5s : Shard := okShard (Set 30 st3 (kk 9) (vN 11)) st0

/-- A Set of a zero-length buffer on a fresh shard. -/
def c2cex : Shard := okShard (Set 5 (initShard 10) (kk 1) (vN 0)) st0

/-- A shard whose counters pass checkConsistency while disagreeing with the
ring contents: the ring holds one hot zero-sized entry, but sizeCold
records 5 phantom resident bytes, so the eviction sweep can never get
under budget and the cold hand can never clear. -/
def cex10 : Shard :=
  { reservedSize := 0, maxSize := 1, coldTarget := 1,
    entries := [(kk 1, { size := 0, ptype := .etHot, referenced := false, val := some (vN 0) })],
    ring := [kk 1], files := [(CKey.file (kk 1), [kk 1])],
    handHot := some (kk 1), handCold := some (kk 1), handTest := some (kk 1),
    sizeHot := 0, sizeCold := 5, sizeTest := 0,
    countHot := 1, countCold := 1, countTest := 0, hits := 0, misses := 0 }

/-- A large shard holding one entry of each of two files. -/
def c8a : Shard := okShard (Set 9 (initShard 100) (kk 1) (vN 3)) st0

def c8b : Shard := okShard (Set 9 c8a (kf2 1) (vN 4)) st0

/-- c8b after evicting the first file. -/
def c8r : Shard := okShardF (EvictFile 3 c8b (CKey.file (kk 1))) st0

/-! ### Association-list lemmas -/

section AssocLemmas

variable {α β : Type} [DecidableEq α]

theorem lookupKV_mem {l : List (α × β)} {k : α} {b : β} (h : lookupKV l k = some b) :
    (k, b) ∈ l := by
  induction l with
  | nil => simp [lookupKV] at h
  | cons p t ih =>
    obtain ⟨a, c⟩ := p
    by_cases hak : a = k
    · subst hak
      simp [lookupKV] at h
      simp [h]
    · simp only [lookupKV, if_neg hak] at h
      exact List.mem_cons_of_mem _ (ih h)

theorem lookupKV_putKV_self {l : List (α × β)} {k : α} {b : β} :
    lookupKV (putKV l k b) k = some b := by
  induction l with
  | nil => simp [putKV, lookupKV]
  | cons p t ih =>
    obtain ⟨a, c⟩ := p
    by_cases hak : a = k
    · subst hak; simp [putKV, lookupKV]
    · simp [putKV, lookupKV, hak, ih]

theorem lookupKV_putKV_ne {l : List (α × β)} {k k' : α} {b : β} (h : k' ≠ k) :
    lookupKV (putKV l k b) k' = lookupKV l k' := by
  induction l with
  | nil => simp [putKV, lookupKV, Ne.symm h]
  | cons p t ih =>
    obtain ⟨a, c⟩ := p
    by_cases hak : a = k
    · subst hak
      simp [putKV, lookupKV, Ne.symm h]
    · simp [putKV, lookupKV, hak, ih]

theorem lookupKV_eraseKV_ne {l : List (α × β)} {k k' : α} (h : k' ≠ k) :
    lookupKV (eraseKV l k) k' = lookupKV l k' := by
  induction l with
  | nil => simp [eraseKV]
  | cons p t ih =>
    obtain ⟨a, c⟩ := p
    by_cases hak : a = k
    · subst hak
      simp [eraseKV, lookupKV, Ne.symm h]
    · simp [eraseKV, lookupKV, hak, ih]

theorem lookupKV_none_iff {l : List (α × β)} {k : α} :
    lookupKV l k = none ↔ k ∉ l.map Prod.fst := by
  induction l with
  | nil => simp [lookupKV]
  | cons p t ih =>
    obtain ⟨a, c⟩ := p
    by_cases hak : a = k
    · subst hak; simp [lookupKV]
    · simp [lookupKV, hak, ih, Ne.symm hak]

theorem map_fst_eraseKV {l : List (α × β)} {k : α} :
    (eraseKV l k).map Prod.fst = (l.map Prod.fst).erase k := by
  induction l with
  | nil => simp [eraseKV]
  | cons p t ih =>
    obtain ⟨a, c⟩ := p
    by_cases hak : a = k
    · subst hak; simp [eraseKV, List.erase_cons_head]
    · have : (a == k) = false := by simp [hak]
      simp [eraseKV, hak, List.erase_cons, this, ih]

theorem lookupKV_eraseKV_self {l : List (α × β)} {k : α}
    (hnd : (l.map Prod.fst).Nodup) : lookupKV (eraseKV l k) k = none := by
  rw [lookupKV_none_iff, map_fst_eraseKV]
  exact hnd.not_mem_erase

theorem mem_eraseKV {l : List (α × β)} {k : α} {p : α × β} (h : p ∈ eraseKV l k) :
    p ∈ l := by
  induction l with
  | nil => simp [eraseKV] at h
  | cons q t ih =>
    obtain ⟨a, c⟩ := q
    by_cases hak : a = k
    · subst hak
      simp only [eraseKV, if_pos rfl] at h
      exact List.mem_cons_of_mem _ h
    · simp only [eraseKV, if_neg hak] at h
      rcases List.mem_cons.mp h with h | h
      · simp [h]
      · exact List.mem_cons_of_mem _ (ih h)

theorem mem_putKV {l : List (α × β)} {k : α} {b : β} {p : α × β} (h : p ∈ putKV l k b) :
    p ∈ l ∨ p = (k, b) := by
  induction l with
  | nil => simp [putKV] at h; simp [h]
  | cons q t ih =>
    obtain ⟨a, c⟩ := q
    by_cases hak : a = k
    · subst hak
      simp only [putKV, if_pos rfl] at h
      rcases List.mem_cons.mp h with h | h
      · right; exact h
      · left; exact List.mem_cons_of_mem _ h
    · simp only [putKV, if_neg hak] at h
      rcases List.mem_cons.mp h with h | h
      · left; simp [h]
      · rcases ih h with h | h
        · left; exact List.mem_cons_of_mem _ h
        · right; exact h

theorem map_fst_putKV_none {l : List (α × β)} {k : α} {b : β} (h : lookupKV l k = none) :
    (putKV l k b).map Prod.fst = l.map Prod.fst ++ [k] := by
  induction l with
  | nil => simp [putKV]
  | cons q t ih =>
    obtain ⟨a, c⟩ := q
    by_cases hak : a = k
    · subst hak; simp [lookupKV] at h
    · simp only [lookupKV, if_neg hak] at h
      simp [putKV, hak, ih h]

end AssocLemmas

section UpdateLemmas

variable {α : Type} [DecidableEq α] {β : Type}

theorem lookupKV_updateKV_self {f : β → β} {l : List (α × β)} {k : α} {b : β}
    (h : lookupKV l k = some b) : lookupKV (updateKV f l k) k = some (f b) := by
  induction l with
  | nil => simp [lookupKV] at h
  | cons q t ih =>
    obtain ⟨a, c⟩ := q
    by_cases hak : a = k
    · subst hak
      simp [lookupKV] at h
      simp [updateKV, lookupKV, h]
    · simp only [lookupKV, if_neg hak] at h
      simp [updateKV, lookupKV, hak, ih h]

theorem lookupKV_updateKV_ne {f : β → β} {l : List (α × β)} {k k' : α} (h : k' ≠ k) :
    lookupKV (updateKV f l k) k' = lookupKV l k' := by
  induction l with
  | nil => simp [updateKV]
  | cons q t ih =>
    obtain ⟨a, c⟩ := q
    by_cases hak : a = k
    · subst hak
      simp [updateKV, lookupKV, Ne.symm h]
    · simp [updateKV, lookupKV, hak, ih]

theorem map_fst_updateKV {f : β → β} {l : List (α × β)} {k : α} :
    (updateKV f l k).map Prod.fst = l.map Prod.fst := by
  induction l with
  | nil => simp [updateKV]
  | cons q t ih =>
    obtain ⟨a, c⟩ := q
    by_cases hak : a = k
    · subst hak; simp [updateKV]
    · simp [updateKV, hak, ih]

theorem mem_updateKV {f : β → β} {l : List (α × β)} {k : α} {p : α × β}
    (h : p ∈ updateKV f l k) : p ∈ l ∨ ∃ b, (k, b) ∈ l ∧ p = (k, f b) := by
  induction l with
  | nil => simp [updateKV] at h
  | cons q t ih =>
    obtain ⟨a, c⟩ := q
    by_cases hak : a = k
    · subst hak
      simp only [updateKV, if_pos rfl] at h
      rcases List.mem_cons.mp h with h | h
      · right; exact ⟨c, List.mem_cons_self _ _, h⟩
      · left; exact List.mem_cons_of_mem _ h
    · simp only [updateKV, if_neg hak] at h
      rcases List.mem_cons.mp h with h | h
      · left; simp [h]
      · rcases ih h with h | ⟨b, hb, hp⟩
        · left; exact List.mem_cons_of_mem _ h
        · right; exact ⟨b, List.mem_cons_of_mem _ hb, hp⟩

end UpdateLemmas

/-! ### Category sums over the blocks map -/

/-- The size contribution of an entry to category `t`. -/
def contrib (t : EType) (e : Entry) : Int :=
  if e.ptype = t then e.size else 0

/-- The count contribution of an entry to category `t`. -/
def contribC (t : EType) (e : Entry) : Int :=
  if e.ptype = t then 1 else 0

/-- Total size of category `t` recomputed from the blocks map. -/
def szOf (t : EType) (l : List (CKey × Entry)) : Int :=
  (l.map (fun p => contrib t p.2)).sum

/-- Total count of category `t` recomputed from the blocks map. -/
def cntOf (t : EType) (l : List (CKey × Entry)) : Int :=
  (l.map (fun p => contribC t p.2)).sum

theorem szOf_eraseKV {l : List (CKey × Entry)} {k : CKey} {e : Entry} (t : EType)
    (h : lookupKV l k = some e) : szOf t (eraseKV l k) = szOf t l - contrib t e := by
  induction l with
  | nil => simp [lookupKV] at h
  | cons q tl ih =>
    obtain ⟨a, c⟩ := q
    by_cases hak : a = k
    · subst hak
      simp [lookupKV] at h
      subst h
      simp [eraseKV, szOf]
    · simp only [lookupKV, if_neg hak] at h
      simp only [eraseKV, if_neg hak, szOf, List.map_cons, List.sum_cons]
      have := ih h
      simp only [szOf] at this
      rw [this]
      ring

theorem cntOf_eraseKV {l : List (CKey × Entry)} {k : CKey} {e : Entry} (t : EType)
    (h : lookupKV l k = some e) : cntOf t (eraseKV l k) = cntOf t l - contribC t e := by
  induction l with
  | nil => simp [lookupKV] at h
  | cons q tl ih =>
    obtain ⟨a, c⟩ := q
    by_cases hak : a = k
    · subst hak
      simp [lookupKV] at h
      subst h
      simp [eraseKV, cntOf]
    · simp only [lookupKV, if_neg hak] at h
      simp only [eraseKV, if_neg hak, cntOf, List.map_cons, List.sum_cons]
      have := ih h
      simp only [cntOf] at this
      rw [this]
      ring

theorem szOf_updateKV {f : Entry → Entry} {l : List (CKey × Entry)} {k : CKey} {e : Entry}
    (t : EType) (h : lookupKV l k = some e) :
    szOf t (updateKV f l k) = szOf t l - contrib t e + contrib t (f e) := by
  induction l with
  | nil => simp [lookupKV] at h
  | cons q tl ih =>
    obtain ⟨a, c⟩ := q
    by_cases hak : a = k
    · subst hak
      simp [lookupKV] at h
      subst h
      simp [updateKV, szOf]
      ring
    · simp only [lookupKV, if_neg hak] at h
      simp only [updateKV, if_neg hak, szOf, List.map_cons, List.sum_cons]
      have := ih h
      simp only [szOf] at this
      rw [this]
      ring

theorem cntOf_updateKV {f : Entry → Entry} {l : List (CKey × Entry)} {k : CKey} {e : Entry}
    (t : EType) (h : lookupKV l k = some e) :
    cntOf t (updateKV f l k) = cntOf t l - contribC t e + contribC t (f e) := by
  induction l with
  | nil => simp [lookupKV] at h
  | cons q tl ih =>
    obtain ⟨a, c⟩ := q
    by_cases hak : a = k
    · subst hak
      simp [lookupKV] at h
      subst h
      simp [updateKV, cntOf]
      ring
    · simp only [lookupKV, if_neg hak] at h
      simp only [updateKV, if_neg hak, cntOf, List.map_cons, List.sum_cons]
      have := ih h
      simp only [cntOf] at this
      rw [this]
      ring

theorem szOf_putKV {l : List (CKey × Entry)} {k : CKey} {e : Entry} (t : EType)
    (h : lookupKV l k = none) : szOf t (putKV l k e) = szOf t l + contrib t e := by
  induction l with
  | nil => simp [putKV, szOf]
  | cons q tl ih =>
    obtain ⟨a, c⟩ := q
    by_cases hak : a = k
    · subst hak; simp [lookupKV] at h
    · simp only [lookupKV, if_neg hak] at h
      simp only [putKV, if_neg hak, szOf, List.map_cons, List.sum_cons]
      have := ih h
      simp only [szOf] at this
      rw [this]
      ring

theorem cntOf_putKV {l : List (CKey × Entry)} {k : CKey} {e : Entry} (t : EType)
    (h : lookupKV l k = none) : cntOf t (putKV l k e) = cntOf t l + contribC t e := by
  induction l with
  | nil => simp [putKV, cntOf]
  | cons q tl ih =>
    obtain ⟨a, c⟩ := q
    by_cases hak : a = k
    · subst hak; simp [lookupKV] at h
    · simp only [lookupKV, if_neg hak] at h
      simp only [putKV, if_neg hak, cntOf, List.map_cons, List.sum_cons]
      have := ih h
      simp only [cntOf] at this
      rw [this]
      ring

/-- If the recomputed count of a category is zero and all sizes are
non-negative, the recomputed size of that category is zero. -/
theorem szOf_eq_zero_of_cntOf_eq_zero {t : EType} {l : List (CKey × Entry)}
    (hnn : ∀ p ∈ l, 0 ≤ p.2.size) (h : cntOf t l = 0) : szOf t l = 0 := by
  induction l with
  | nil => simp [szOf]
  | cons q tl ih =>
    have hc : contribC t q.2 = 0 ∨ contribC t q.2 = 1 := by
      unfold contribC
      by_cases hq : q.2.ptype = t <;> simp [hq]
    have hrest : (0 : Int) ≤ cntOf t tl := by
      unfold cntOf
      apply List.sum_nonneg
      intro x hx
      simp only [List.mem_map] at hx
      obtain ⟨p, _, rfl⟩ := hx
      unfold contribC
      by_cases hq : p.2.ptype = t <;> simp [hq]
    simp only [cntOf, List.map_cons, List.sum_cons] at h
    rcases hc with hc | hc
    · have hq : ¬(q.2.ptype = t) := by
        by_contra hq
        simp [contribC, hq] at hc
      have : cntOf t tl = 0 := by
        simp only [cntOf]
        have := h
        rw [hc] at this
        omega
      simp only [szOf, List.map_cons, List.sum_cons]
      have hq0 : contrib t q.2 = 0 := by simp [contrib, hq]
      have hrec := ih (fun p hp => hnn p (List.mem_cons_of_mem _ hp)) this
      simp only [szOf] at hrec
      omega
    · exfalso
      rw [hc] at h
      simp only [cntOf] at hrest
      omega

theorem cntOf_nonneg (t : EType) (l : List (CKey × Entry)) : 0 ≤ cntOf t l := by
  unfold cntOf
  apply List.sum_nonneg
  intro x hx
  simp only [List.mem_map] at hx
  obtain ⟨p, _, rfl⟩ := hx
  unfold contribC
  by_cases hq : p.2.ptype = t <;> simp [hq]

theorem szOf_nonneg {t : EType} {l : List (CKey × Entry)}
    (hnn : ∀ p ∈ l, 0 ≤ p.2.size) : 0 ≤ szOf t l := by
  unfold szOf
  apply List.sum_nonneg
  intro x hx
  simp only [List.mem_map] at hx
  obtain ⟨p, hp, rfl⟩ := hx
  unfold contrib
  by_cases hq : p.2.ptype = t
  · simp only [if_pos hq]
    exact hnn p hp
  · simp [hq]

/-! ### Ring lemmas -/

section RingLemmas

variable {α : Type} [DecidableEq α]

theorem ringNext_mem {r : List α} {k : α} (h : k ∈ r) : ringNext r k ∈ r := by
  unfold ringNext
  rw [if_pos h]
  have hlen : 0 < r.length := List.length_pos.mpr (by rintro rfl; simp at h)
  have hidx : (r.indexOf k + 1) % r.length < r.length := Nat.mod_lt _ hlen
  rw [List.getD_eq_get _ _ hidx]
  exact List.get_mem _ _ _

theorem ringNext_singleton (k : α) : ringNext [k] k = k := by
  simp [ringNext]

theorem ringNext_eq_self_iff {r : List α} {k : α} (hnd : r.Nodup) (h : k ∈ r) :
    ringNext r k = k ↔ r = [k] := by
  constructor
  · intro he
    have hlen : 0 < r.length := List.length_pos.mpr (by rintro rfl; simp at h)
    have hi : r.indexOf k < r.length := List.indexOf_lt_length.mpr h
    have hj : (r.indexOf k + 1) % r.length < r.length := Nat.mod_lt _ hlen
    have hg : r.get ⟨(r.indexOf k + 1) % r.length, hj⟩ = k := by
      rw [← List.getD_eq_get r k hj]
      unfold ringNext at he
      rw [if_pos h] at he
      exact he
    have hg2 : r.get ⟨r.indexOf k, hi⟩ = k := List.indexOf_get hi
    have hij : (⟨(r.indexOf k + 1) % r.length, hj⟩ : Fin r.length) = ⟨r.indexOf k, hi⟩ :=
      (hnd.get_inj_iff).mp (by rw [hg, hg2])
    have hij' : (r.indexOf k + 1) % r.length = r.indexOf k := congrArg Fin.val hij
    have hn1 : r.length = 1 := by
      by_cases hc : r.indexOf k + 1 < r.length
      · rw [Nat.mod_eq_of_lt hc] at hij'
        omega
      · have hin : r.indexOf k + 1 = r.length := by omega
        rw [← hin, Nat.mod_self] at hij'
        omega
    obtain ⟨a, ha⟩ := List.length_eq_one.mp hn1
    subst ha
    simp at h
    subst h
    rfl
  · rintro rfl
    exact ringNext_singleton k

theorem ringPrev_mem {r : List α} {k : α} (h : k ∈ r) : ringPrev r k ∈ r := by
  have := ringNext_mem (r := r.reverse) (k := k) (by simpa using h)
  unfold ringPrev
  simpa using this

theorem ringPrev_eq_self_iff {r : List α} {k : α} (hnd : r.Nodup) (h : k ∈ r) :
    ringPrev r k = k ↔ r = [k] := by
  unfold ringPrev
  rw [ringNext_eq_self_iff (by simpa using List.nodup_reverse.mpr hnd) (by simpa using h)]
  constructor
  · intro hr
    have : r = List.reverse [k] := by rw [← hr]; simp
    simpa using this
  · rintro rfl
    rfl

theorem linkAfter_perm (r : List α) (h k : α) : (linkAfter r h k).Perm (k :: r) := by
  induction r with
  | nil => simp [linkAfter]
  | cons x t ih =>
    by_cases hx : x = h
    · simp only [linkAfter, if_pos hx]
      exact List.Perm.swap k x t
    · simp only [linkAfter, if_neg hx]
      exact (ih.cons x).trans (List.Perm.swap k x t)

theorem rotateTo_cons_self (x : α) (t : List α) : rotateTo (x :: t) x = x :: t := by
  simp [rotateTo, rotAux]

theorem erase_ne_nil_of_ne_singleton {r : List α} {k : α} (h : k ∈ r) (hne : r ≠ [k]) :
    r.erase k ≠ [] := by
  intro hnil
  have hlen := List.length_erase_of_mem h
  rw [hnil] at hlen
  have hpos : 0 < r.length := List.length_pos.mpr (by rintro rfl; simp at h)
  have hone : r.length = 1 := by simp at hlen; omega
  obtain ⟨a, ha⟩ := List.length_eq_one.mp hone
  subst ha
  simp at h
  subst h
  exact hne rfl

end RingLemmas

/-! ### The shard invariant -/

/-- Structural part of the shard invariant: sizes non-negative, ghosts are
exactly the valueless entries, the ring is a duplicate-free enumeration of
the blocks map's keys, and the hands are nil exactly on an empty ring and
otherwise point into the ring. -/
structure SINV (s : Shard) : Prop where
  nonneg : ∀ p ∈ s.entries, 0 ≤ p.2.size
  ghost : ∀ p ∈ s.entries, p.2.val = none ↔ p.2.ptype = .etTest
  perm : s.ring.Perm (s.entries.map Prod.fst)
  nodup : s.ring.Nodup
  hotNone : s.handHot = none ↔ s.ring = []
  coldNone : s.handCold = none ↔ s.ring = []
  testNone : s.handTest = none ↔ s.ring = []
  hotMem : ∀ k, s.handHot = some k → k ∈ s.ring
  coldMem : ∀ k, s.handCold = some k → k ∈ s.ring
  testMem : ∀ k, s.handTest = some k → k ∈ s.ring

/-- The full shard invariant: the structural part plus agreement of the
size/count counters with a recount of the blocks map. -/
structure INV (s : Shard) extends SINV s : Prop where
  cHot : s.countHot = cntOf .etHot s.entries
  cCold : s.countCold = cntOf .etCold s.entries
  cTest : s.countTest = cntOf .etTest s.entries
  sHot : s.sizeHot = szOf .etHot s.entries
  sCold : s.sizeCold = szOf .etCold s.entries
  sTest : s.sizeTest = szOf .etTest s.entries

theorem INV.keysNodup {s : Shard} (h : INV s) : (s.entries.map Prod.fst).Nodup :=
  h.perm.nodup h.nodup

/-- Under the invariant, the consistency check passes (the Go panic cannot
fire). -/
theorem checkConsistency_of_INV {s : Shard} (h : INV s) : checkConsistency s = true := by
  unfold checkConsistency
  have n1 : decide (s.sizeHot < 0) = false :=
    decide_eq_false (by rw [h.sHot]; exact not_lt.mpr (szOf_nonneg h.nonneg))
  have n2 : decide (s.sizeCold < 0) = false :=
    decide_eq_false (by rw [h.sCold]; exact not_lt.mpr (szOf_nonneg h.nonneg))
  have n3 : decide (s.sizeTest < 0) = false :=
    decide_eq_false (by rw [h.sTest]; exact not_lt.mpr (szOf_nonneg h.nonneg))
  have n4 : decide (s.countHot < 0) = false :=
    decide_eq_false (by rw [h.cHot]; exact not_lt.mpr (cntOf_nonneg _ _))
  have n5 : decide (s.countCold < 0) = false :=
    decide_eq_false (by rw [h.cCold]; exact not_lt.mpr (cntOf_nonneg _ _))
  have n6 : decide (s.countTest < 0) = false :=
    decide_eq_false (by rw [h.cTest]; exact not_lt.mpr (cntOf_nonneg _ _))
  have m1 : (decide (0 < s.sizeHot) && decide (s.countHot = 0)) = false := by
    by_cases hz : s.countHot = 0
    · have hs : s.sizeHot = 0 := by
        rw [h.sHot]
        exact szOf_eq_zero_of_cntOf_eq_zero h.nonneg (by rw [← h.cHot]; exact hz)
      simp [hs]
    · simp [hz]
  have m2 : (decide (0 < s.sizeCold) && decide (s.countCold = 0)) = false := by
    by_cases hz : s.countCold = 0
    · have hs : s.sizeCold = 0 := by
        rw [h.sCold]
        exact szOf_eq_zero_of_cntOf_eq_zero h.nonneg (by rw [← h.cCold]; exact hz)
      simp [hs]
    · simp [hz]
  have m3 : (decide (0 < s.sizeTest) && decide (s.countTest = 0)) = false := by
    by_cases hz : s.countTest = 0
    · have hs : s.sizeTest = 0 := by
        rw [h.sTest]
        exact szOf_eq_zero_of_cntOf_eq_zero h.nonneg (by rw [← h.cTest]; exact hz)
      simp [hs]
    · simp [hz]
  rw [n1, n2, n3, n4, n5, n6, m1, m2, m3]
  rfl

/-- The structural invariant only depends on the structural fields. -/
theorem SINV_congr {a b : Shard} (he : b.entries = a.entries) (hr : b.ring = a.ring)
    (h1 : b.handHot = a.handHot) (h2 : b.handCold = a.handCold)
    (h3 : b.handTest = a.handTest) (h : SINV a) : SINV b where
  nonneg := by rw [he]; exact h.nonneg
  ghost := by rw [he]; exact h.ghost
  perm := by rw [he, hr]; exact h.perm
  nodup := by rw [hr]; exact h.nodup
  hotNone := by rw [h1, hr]; exact h.hotNone
  coldNone := by rw [h2, hr]; exact h.coldNone
  testNone := by rw [h3, hr]; exact h.testNone
  hotMem := by rw [h1, hr]; exact h.hotMem
  coldMem := by rw [h2, hr]; exact h.coldMem
  testMem := by rw [h3, hr]; exact h.testMem

/-- Value flow ordering: the eviction machinery never installs or changes a
value, it can only drop one.  Any resident value after the run was already
there before it. -/
def valLe (c c' : Shard) : Prop :=
  ∀ k e', lookupKV c'.entries k = some e' → e'.val ≠ none →
    ∃ e, lookupKV c.entries k = some e ∧ e.val = e'.val

theorem valLe_refl (c : Shard) : valLe c c :=
  fun _ e' h _ => ⟨e', h, rfl⟩

theorem valLe_trans {a b c : Shard} (h1 : valLe a b) (h2 : valLe b c) : valLe a c := by
  intro k e' hl hv
  obtain ⟨e2, hl2, hv2⟩ := h2 k e' hl hv
  obtain ⟨e1, hl1, hv1⟩ := h1 k e2 hl2 (by rw [hv2]; exact hv)
  exact ⟨e1, hl1, hv1.trans hv2⟩

theorem valLe_of_entries_eq {a b : Shard} (h : b.entries = a.entries) : valLe a b := by
  intro k e' hl hv
  rw [h] at hl
  exact ⟨e', hl, rfl⟩

/-- updateKV on an absent key is the identity. -/
theorem lookupKV_updateKV_none {α β : Type} [DecidableEq α] {f : β → β}
    {l : List (α × β)} {k : α} (h : lookupKV l k = none) : updateKV f l k = l := by
  induction l with
  | nil => simp [updateKV]
  | cons q t ih =>
    obtain ⟨a, c⟩ := q
    by_cases hak : a = k
    · subst hak; simp [lookupKV] at h
    · simp only [lookupKV, if_neg hak] at h
      simp [updateKV, hak, ih h]

/-- valLe for an in-place update that keeps or drops the value. -/
theorem valLe_updateKV {c : Shard} {b : Shard} {k : CKey} {f : Entry → Entry}
    (hb : b.entries = updateKV f c.entries k)
    (hf : ∀ e, (f e).val = e.val ∨ (f e).val = none) : valLe c b := by
  intro k' e' hl hv
  rw [hb] at hl
  by_cases hk : k' = k
  · subst hk
    cases hle : lookupKV c.entries k' with
    | none =>
      rw [lookupKV_updateKV_none hle] at hl
      rw [hle] at hl
      exact absurd hl (by simp)
    | some e0 =>
      rw [lookupKV_updateKV_self hle] at hl
      obtain rfl : f e0 = e' := by injection hl
      rcases hf e0 with hsame | hnone
      · exact ⟨e0, rfl, hsame.symm⟩
      · exact absurd hnone hv
  · rw [lookupKV_updateKV_ne hk] at hl
    exact ⟨e', hl, rfl⟩

/-- valLe for metaDel (requires duplicate-free keys). -/
theorem valLe_metaDel {c : Shard} {k : CKey}
    (hnd : (c.entries.map Prod.fst).Nodup) : valLe c (metaDel c k).1 := by
  cases hle : lookupKV c.entries k with
  | none =>
    intro k' e' hl hv
    simp only [metaDel, hle] at hl
    exact ⟨e', hl, rfl⟩
  | some e =>
    intro k' e' hl hv
    simp only [metaDel, hle] at hl
    by_cases hk : k' = k
    · subst hk
      rw [lookupKV_eraseKV_self hnd] at hl
      exact absurd hl (by simp)
    · rw [lookupKV_eraseKV_ne hk] at hl
      exact ⟨e', hl, rfl⟩

/-- With duplicate-free keys, any binding of `k` present in the list is the
one returned by lookup. -/
theorem mem_eq_of_lookup_nodup {l : List (CKey × Entry)} {k : CKey} {e e0 : Entry}
    (hnd : (l.map Prod.fst).Nodup) (hl : lookupKV l k = some e) (hm : (k, e0) ∈ l) :
    e0 = e := by
  induction l with
  | nil => simp at hm
  | cons q t ih =>
    obtain ⟨a, b⟩ := q
    simp only [List.map_cons, List.nodup_cons] at hnd
    by_cases hak : a = k
    · subst hak
      simp only [lookupKV, if_pos rfl] at hl
      obtain rfl : b = e := by injection hl
      rcases List.mem_cons.mp hm with hm | hm
      · exact congrArg Prod.snd hm
      · exact absurd (List.mem_map.mpr ⟨(a, e0), hm, rfl⟩) hnd.1
    · simp only [lookupKV, if_neg hak] at hl
      rcases List.mem_cons.mp hm with hm | hm
      · exact absurd (congrArg Prod.fst hm).symm hak
      · exact ih hnd.2 hl hm

/-- Structural invariant is preserved by an in-place entry update that
keeps the size non-negative and the ghost property. -/
theorem SINV_update {c b : Shard} {k : CKey} {e : Entry} {f : Entry → Entry}
    (h : SINV c) (hnd : (c.entries.map Prod.fst).Nodup)
    (hl : lookupKV c.entries k = some e)
    (he : b.entries = updateKV f c.entries k)
    (hr : b.ring = c.ring) (h1 : b.handHot = c.handHot) (h2 : b.handCold = c.handCold)
    (h3 : b.handTest = c.handTest)
    (hsz : 0 ≤ e.size → 0 ≤ (f e).size)
    (hgh : (e.val = none ↔ e.ptype = .etTest) →
      ((f e).val = none ↔ (f e).ptype = .etTest)) : SINV b where
  nonneg := by
    rw [he]
    intro p hp
    rcases mem_updateKV hp with hp | ⟨e0, he0, rfl⟩
    · exact h.nonneg p hp
    · obtain rfl : e0 = e := mem_eq_of_lookup_nodup hnd hl he0
      exact hsz (h.nonneg _ (lookupKV_mem hl))
  ghost := by
    rw [he]
    intro p hp
    rcases mem_updateKV hp with hp | ⟨e0, he0, rfl⟩
    · exact h.ghost p hp
    · obtain rfl : e0 = e := mem_eq_of_lookup_nodup hnd hl he0
      exact hgh (h.ghost _ (lookupKV_mem hl))
  perm := by rw [he, hr, map_fst_updateKV]; exact h.perm
  nodup := by rw [hr]; exact h.nodup
  hotNone := by rw [h1, hr]; exact h.hotNone
  coldNone := by rw [h2, hr]; exact h.coldNone
  testNone := by rw [h3, hr]; exact h.testNone
  hotMem := by rw [h1, hr]; exact h.hotMem
  coldMem := by rw [h2, hr]; exact h.coldMem
  testMem := by rw [h3, hr]; exact h.testMem

/-- Explicit characterisation of metaDel on a present key. -/
theorem metaDel_eq {c : Shard} {k : CKey} {e : Entry} (hl : lookupKV c.entries k = some e) :
    metaDel c k =
      ({ c with
          entries := eraseKV c.entries k
          ring := c.ring.erase k
          handHot := if ringNext c.ring k = k then none
            else if c.handHot = some k then some (ringPrev c.ring k) else c.handHot
          handCold := if ringNext c.ring k = k then none
            else if c.handCold = some k then some (ringPrev c.ring k) else c.handCold
          handTest := if ringNext c.ring k = k then none
            else if c.handTest = some k then some (ringPrev c.ring k) else c.handTest
          files :=
            if ringNext ((lookupKV c.files k.file).getD []) k = k then
              eraseKV c.files k.file
            else
              putKV c.files k.file
                (rotateTo (((lookupKV c.files k.file).getD []).erase k)
                  (ringNext ((lookupKV c.files k.file).getD []) k)) }, e.val) := by
  simp only [metaDel, hl]

/-- Structural invariant is preserved by metaDel. -/
theorem SINV_metaDel {c : Shard} {k : CKey} {e : Entry} (h : SINV c)
    (hnd : (c.entries.map Prod.fst).Nodup)
    (hl : lookupKV c.entries k = some e) : SINV (metaDel c k).1 := by
  have hkmem : k ∈ c.ring :=
    h.perm.mem_iff.mpr (List.mem_map.mpr ⟨(k, e), lookupKV_mem hl, rfl⟩)
  have hringne : c.ring ≠ [] := by
    intro hh
    rw [hh] at hkmem
    simp at hkmem
  have hDent : (metaDel c k).1.entries = eraseKV c.entries k := by rw [metaDel_eq hl]
  have hDring : (metaDel c k).1.ring = c.ring.erase k := by rw [metaDel_eq hl]
  have hDhot : (metaDel c k).1.handHot = (if ringNext c.ring k = k then none
      else if c.handHot = some k then some (ringPrev c.ring k) else c.handHot) := by
    rw [metaDel_eq hl]
  have hDcold : (metaDel c k).1.handCold = (if ringNext c.ring k = k then none
      else if c.handCold = some k then some (ringPrev c.ring k) else c.handCold) := by
    rw [metaDel_eq hl]
  have hDtest : (metaDel c k).1.handTest = (if ringNext c.ring k = k then none
      else if c.handTest = some k then some (ringPrev c.ring k) else c.handTest) := by
    rw [metaDel_eq hl]
  have hperm : ((metaDel c k).1.ring).Perm ((metaDel c k).1.entries.map Prod.fst) := by
    rw [hDent, hDring, map_fst_eraseKV]
    exact h.perm.erase k
  have hnodup : (metaDel c k).1.ring.Nodup := by
    rw [hDring]
    exact h.nodup.erase k
  have hnn : ∀ p ∈ (metaDel c k).1.entries, 0 ≤ p.2.size := by
    rw [hDent]
    intro p hp
    exact h.nonneg p (mem_eraseKV hp)
  have hgh : ∀ p ∈ (metaDel c k).1.entries, p.2.val = none ↔ p.2.ptype = .etTest := by
    rw [hDent]
    intro p hp
    exact h.ghost p (mem_eraseKV hp)
  by_cases hsolo : ringNext c.ring k = k
  · have hring : c.ring = [k] := (ringNext_eq_self_iff h.nodup hkmem).mp hsolo
    have herase : c.ring.erase k = [] := by rw [hring]; simp
    refine ⟨hnn, hgh, hperm, hnodup, ?_, ?_, ?_, ?_, ?_, ?_⟩
    · rw [hDhot, hDring, if_pos hsolo, herase]
      simp
    · rw [hDcold, hDring, if_pos hsolo, herase]
      simp
    · rw [hDtest, hDring, if_pos hsolo, herase]
      simp
    · intro k0 hk0
      rw [hDhot, if_pos hsolo] at hk0
      exact absurd hk0 (by simp)
    · intro k0 hk0
      rw [hDcold, if_pos hsolo] at hk0
      exact absurd hk0 (by simp)
    · intro k0 hk0
      rw [hDtest, if_pos hsolo] at hk0
      exact absurd hk0 (by simp)
  · have hringk : c.ring ≠ [k] := by
      intro hh
      rw [hh] at hsolo
      exact hsolo (ringNext_singleton k)
    have herasene : c.ring.erase k ≠ [] := erase_ne_nil_of_ne_singleton hkmem hringk
    have hprevne : ringPrev c.ring k ≠ k := by
      intro hp
      exact hringk ((ringPrev_eq_self_iff h.nodup hkmem).mp hp)
    have hadj : ∀ (hand : Option CKey), (hand = none ↔ c.ring = []) →
        (∀ k0, hand = some k0 → k0 ∈ c.ring) →
        (((if hand = some k then some (ringPrev c.ring k) else hand) = none ↔
            c.ring.erase k = []) ∧
          (∀ k0, (if hand = some k then some (ringPrev c.ring k) else hand) = some k0 →
            k0 ∈ c.ring.erase k)) := by
      intro hand hNone hMem
      constructor
      · constructor
        · intro hno
          by_cases hh : hand = some k
          · rw [if_pos hh] at hno
            exact absurd hno (by simp)
          · rw [if_neg hh] at hno
            exact absurd (hNone.mp hno) hringne
        · intro hnil
          exact absurd hnil herasene
      · intro k0 hk0
        by_cases hh : hand = some k
        · rw [if_pos hh] at hk0
          obtain rfl : ringPrev c.ring k = k0 := by injection hk0
          exact (List.mem_erase_of_ne hprevne).mpr (ringPrev_mem hkmem)
        · rw [if_neg hh] at hk0
          have hk0r := hMem k0 hk0
          have hk0ne : k0 ≠ k := by
            rintro rfl
            exact hh hk0
          exact (List.mem_erase_of_ne hk0ne).mpr hk0r
    obtain ⟨hhN, hhM⟩ := hadj c.handHot h.hotNone h.hotMem
    obtain ⟨hcN, hcM⟩ := hadj c.handCold h.coldNone h.coldMem
    obtain ⟨htN, htM⟩ := hadj c.handTest h.testNone h.testMem
    refine ⟨hnn, hgh, hperm, hnodup, ?_, ?_, ?_, ?_, ?_, ?_⟩
    · rw [hDhot, hDring, if_neg hsolo]
      exact hhN
    · rw [hDcold, hDring, if_neg hsolo]
      exact hcN
    · rw [hDtest, hDring, if_neg hsolo]
      exact htN
    · intro k0 hk0
      rw [hDhot, if_neg hsolo] at hk0
      rw [hDring]
      exact hhM k0 hk0
    · intro k0 hk0
      rw [hDcold, if_neg hsolo] at hk0
      rw [hDring]
      exact hcM k0 hk0
    · intro k0 hk0
      rw [hDtest, if_neg hsolo] at hk0
      rw [hDring]
      exact htM k0 hk0

theorem INV_promoteCold {c : Shard} {k : CKey} {e : Entry} (h : INV c)
    (hl : lookupKV c.entries k = some e) (hc : e.ptype = .etCold) :
    INV (promoteCold c k e) := by
  refine ⟨SINV_update h.toSINV h.keysNodup hl rfl rfl rfl rfl rfl (fun hs => hs) ?_,
    ?_, ?_, ?_, ?_, ?_, ?_⟩
  · intro hg
    show e.val = none ↔ EType.etHot = EType.etTest
    constructor
    · intro hv
      have ht := hg.mp hv
      rw [hc] at ht
      exact absurd ht (by decide)
    · intro hh
      exact absurd hh (by decide)
  · show c.countHot + 1 = cntOf .etHot
      (updateKV (fun e' => { e' with referenced := false, ptype := EType.etHot }) c.entries k)
    rw [cntOf_updateKV .etHot hl]
    have h1 : contribC .etHot e = 0 := by simp [contribC, hc]
    have h2 : contribC .etHot ({ e with referenced := false, ptype := EType.etHot }) = 1 := by
      simp [contribC]
    rw [h1, h2, ← h.cHot]
    omega
  · show c.countCold - 1 = cntOf .etCold
      (updateKV (fun e' => { e' with referenced := false, ptype := EType.etHot }) c.entries k)
    rw [cntOf_updateKV .etCold hl]
    have h1 : contribC .etCold e = 1 := by simp [contribC, hc]
    have h2 : contribC .etCold ({ e with referenced := false, ptype := EType.etHot }) = 0 := by
      simp [contribC]
    rw [h1, h2, ← h.cCold]
    omega
  · show c.countTest = cntOf .etTest
      (updateKV (fun e' => { e' with referenced := false, ptype := EType.etHot }) c.entries k)
    rw [cntOf_updateKV .etTest hl]
    have h1 : contribC .etTest e = 0 := by simp [contribC, hc]
    have h2 : contribC .etTest ({ e with referenced := false, ptype := EType.etHot }) = 0 := by
      simp [contribC]
    rw [h1, h2, ← h.cTest]
    omega
  · show c.sizeHot + e.size = szOf .etHot
      (updateKV (fun e' => { e' with referenced := false, ptype := EType.etHot }) c.entries k)
    rw [szOf_updateKV .etHot hl]
    have h1 : contrib .etHot e = 0 := by simp [contrib, hc]
    have h2 : contrib .etHot ({ e with referenced := false, ptype := EType.etHot }) = e.size := by
      simp [contrib]
    rw [h1, h2, ← h.sHot]
    omega
  · show c.sizeCold - e.size = szOf .etCold
      (updateKV (fun e' => { e' with referenced := false, ptype := EType.etHot }) c.entries k)
    rw [szOf_updateKV .etCold hl]
    have h1 : contrib .etCold e = e.size := by simp [contrib, hc]
    have h2 : contrib .etCold ({ e with referenced := false, ptype := EType.etHot }) = 0 := by
      simp [contrib]
    rw [h1, h2, ← h.sCold]
    omega
  · show c.sizeTest = szOf .etTest
      (updateKV (fun e' => { e' with referenced := false, ptype := EType.etHot }) c.entries k)
    rw [szOf_updateKV .etTest hl]
    have h1 : contrib .etTest e = 0 := by simp [contrib, hc]
    have h2 : contrib .etTest ({ e with referenced := false, ptype := EType.etHot }) = 0 := by
      simp [contrib]
    rw [h1, h2, ← h.sTest]
    omega

theorem INV_demoteCold {c : Shard} {k : CKey} {e : Entry} (h : INV c)
    (hl : lookupKV c.entries k = some e) (hc : e.ptype = .etCold) :
    INV (demoteCold c k e) := by
  refine ⟨SINV_update h.toSINV h.keysNodup hl rfl rfl rfl rfl rfl (fun hs => hs) ?_,
    ?_, ?_, ?_, ?_, ?_, ?_⟩
  · intro hg
    show (none : Option Value) = none ↔ EType.etTest = EType.etTest
    simp
  · show c.countHot = cntOf .etHot
      (updateKV (fun e' => { e' with val := none, ptype := EType.etTest }) c.entries k)
    rw [cntOf_updateKV .etHot hl]
    have h1 : contribC .etHot e = 0 := by simp [contribC, hc]
    have h2 : contribC .etHot ({ e with val := none, ptype := EType.etTest }) = 0 := by
      simp [contribC]
    rw [h1, h2, ← h.cHot]
    omega
  · show c.countCold - 1 = cntOf .etCold
      (updateKV (fun e' => { e' with val := none, ptype := EType.etTest }) c.entries k)
    rw [cntOf_updateKV .etCold hl]
    have h1 : contribC .etCold e = 1 := by simp [contribC, hc]
    have h2 : contribC .etCold ({ e with val := none, ptype := EType.etTest }) = 0 := by
      simp [contribC]
    rw [h1, h2, ← h.cCold]
    omega
  · show c.countTest + 1 = cntOf .etTest
      (updateKV (fun e' => { e' with val := none, ptype := EType.etTest }) c.entries k)
    rw [cntOf_updateKV .etTest hl]
    have h1 : contribC .etTest e = 0 := by simp [contribC, hc]
    have h2 : contribC .etTest ({ e with val := none, ptype := EType.etTest }) = 1 := by
      simp [contribC]
    rw [h1, h2, ← h.cTest]
    omega
  · show c.sizeHot = szOf .etHot
      (updateKV (fun e' => { e' with val := none, ptype := EType.etTest }) c.entries k)
    rw [szOf_updateKV .etHot hl]
    have h1 : contrib .etHot e = 0 := by simp [contrib, hc]
    have h2 : contrib .etHot ({ e with val := none, ptype := EType.etTest }) = 0 := by
      simp [contrib]
    rw [h1, h2, ← h.sHot]
    omega
  · show c.sizeCold - e.size = szOf .etCold
      (updateKV (fun e' => { e' with val := none, ptype := EType.etTest }) c.entries k)
    rw [szOf_updateKV .etCold hl]
    have h1 : contrib .etCold e = e.size := by simp [contrib, hc]
    have h2 : contrib .etCold ({ e with val := none, ptype := EType.etTest }) = 0 := by
      simp [contrib]
    rw [h1, h2, ← h.sCold]
    omega
  · show c.sizeTest + e.size = szOf .etTest
      (updateKV (fun e' => { e' with val := none, ptype := EType.etTest }) c.entries k)
    rw [szOf_updateKV .etTest hl]
    have h1 : contrib .etTest e = 0 := by simp [contrib, hc]
    have h2 : contrib .etTest ({ e with val := none, ptype := EType.etTest }) = e.size := by
      simp [contrib]
    rw [h1, h2, ← h.sTest]
    omega

theorem INV_clearRefHot {c : Shard} {k : CKey} {e : Entry} (h : INV c)
    (hl : lookupKV c.entries k = some e) : INV (clearRefHot c k) := by
  have hq : ∀ t, contribC t ({ e with referenced := false }) = contribC t e := by
    intro t
    simp [contribC]
  have hq2 : ∀ t, contrib t ({ e with referenced := false }) = contrib t e := by
    intro t
    simp [contrib]
  refine ⟨SINV_update h.toSINV h.keysNodup hl rfl rfl rfl rfl rfl (fun hs => hs) ?_,
    ?_, ?_, ?_, ?_, ?_, ?_⟩
  · intro hg
    exact hg
  · show c.countHot = cntOf .etHot (updateKV (fun e' => { e' with referenced := false }) c.entries k)
    rw [cntOf_updateKV .etHot hl, hq, ← h.cHot]
    omega
  · show c.countCold = cntOf .etCold (updateKV (fun e' => { e' with referenced := false }) c.entries k)
    rw [cntOf_updateKV .etCold hl, hq, ← h.cCold]
    omega
  · show c.countTest = cntOf .etTest (updateKV (fun e' => { e' with referenced := false }) c.entries k)
    rw [cntOf_updateKV .etTest hl, hq, ← h.cTest]
    omega
  · show c.sizeHot = szOf .etHot (updateKV (fun e' => { e' with referenced := false }) c.entries k)
    rw [szOf_updateKV .etHot hl, hq2, ← h.sHot]
    omega
  · show c.sizeCold = szOf .etCold (updateKV (fun e' => { e' with referenced := false }) c.entries k)
    rw [szOf_updateKV .etCold hl, hq2, ← h.sCold]
    omega
  · show c.sizeTest = szOf .etTest (updateKV (fun e' => { e' with referenced := false }) c.entries k)
    rw [szOf_updateKV .etTest hl, hq2, ← h.sTest]
    omega

theorem INV_demoteHot {c : Shard} {k : CKey} {e : Entry} (h : INV c)
    (hl : lookupKV c.entries k = some e) (hc : e.ptype = .etHot) :
    INV (demoteHot c k e) := by
  refine ⟨SINV_update h.toSINV h.keysNodup hl rfl rfl rfl rfl rfl (fun hs => hs) ?_,
    ?_, ?_, ?_, ?_, ?_, ?_⟩
  · intro hg
    show e.val = none ↔ EType.etCold = EType.etTest
    constructor
    · intro hv
      have ht := hg.mp hv
      rw [hc] at ht
      exact absurd ht (by decide)
    · intro hh
      exact absurd hh (by decide)
  · show c.countHot - 1 = cntOf .etHot
      (updateKV (fun e' => { e' with ptype := EType.etCold }) c.entries k)
    rw [cntOf_updateKV .etHot hl]
    have h1 : contribC .etHot e = 1 := by simp [contribC, hc]
    have h2 : contribC .etHot ({ e with ptype := EType.etCold }) = 0 := by simp [contribC]
    rw [h1, h2, ← h.cHot]
    omega
  · show c.countCold + 1 = cntOf .etCold
      (updateKV (fun e' => { e' with ptype := EType.etCold }) c.entries k)
    rw [cntOf_updateKV .etCold hl]
    have h1 : contribC .etCold e = 0 := by simp [contribC, hc]
    have h2 : contribC .etCold ({ e with ptype := EType.etCold }) = 1 := by simp [contribC]
    rw [h1, h2, ← h.cCold]
    omega
  · show c.countTest = cntOf .etTest
      (updateKV (fun e' => { e' with ptype := EType.etCold }) c.entries k)
    rw [cntOf_updateKV .etTest hl]
    have h1 : contribC .etTest e = 0 := by simp [contribC, hc]
    have h2 : contribC .etTest ({ e with ptype := EType.etCold }) = 0 := by simp [contribC]
    rw [h1, h2, ← h.cTest]
    omega
  · show c.sizeHot - e.size = szOf .etHot
      (updateKV (fun e' => { e' with ptype := EType.etCold }) c.entries k)
    rw [szOf_updateKV .etHot hl]
    have h1 : contrib .etHot e = e.size := by simp [contrib, hc]
    have h2 : contrib .etHot ({ e with ptype := EType.etCold }) = 0 := by simp [contrib]
    rw [h1, h2, ← h.sHot]
    omega
  · show c.sizeCold + e.size = szOf .etCold
      (updateKV (fun e' => { e' with ptype := EType.etCold }) c.entries k)
    rw [szOf_updateKV .etCold hl]
    have h1 : contrib .etCold e = 0 := by simp [contrib, hc]
    have h2 : contrib .etCold ({ e with ptype := EType.etCold }) = e.size := by simp [contrib]
    rw [h1, h2, ← h.sCold]
    omega
  · show c.sizeTest = szOf .etTest
      (updateKV (fun e' => { e' with ptype := EType.etCold }) c.entries k)
    rw [szOf_updateKV .etTest hl]
    have h1 : contrib .etTest e = 0 := by simp [contrib, hc]
    have h2 : contrib .etTest ({ e with ptype := EType.etCold }) = 0 := by simp [contrib]
    rw [h1, h2, ← h.sTest]
    omega

theorem INV_advanceCold {c : Shard} (h : INV c) : INV (advanceCold c) := by
  refine ⟨⟨h.nonneg, h.ghost, h.perm, h.nodup, h.hotNone, ?_, h.testNone,
    h.hotMem, ?_, h.testMem⟩, h.cHot, h.cCold, h.cTest, h.sHot, h.sCold, h.sTest⟩
  · show c.handCold.map (fun k => ringNext c.ring k) = none ↔ c.ring = []
    constructor
    · intro hn
      cases hcc : c.handCold with
      | none => exact h.coldNone.mp hcc
      | some kk =>
        rw [hcc] at hn
        exact absurd hn (by simp)
    · intro hr
      rw [h.coldNone.mpr hr]
      rfl
  · intro k0 hk0
    have hk0' : c.handCold.map (fun k => ringNext c.ring k) = some k0 := hk0
    cases hcc : c.handCold with
    | none =>
      rw [hcc] at hk0'
      exact absurd hk0' (by simp)
    | some kk =>
      rw [hcc] at hk0'
      simp only [Option.map_some'] at hk0'
      obtain rfl : ringNext c.ring kk = k0 := by injection hk0'
      exact ringNext_mem (h.coldMem kk hcc)

theorem INV_advanceHot {c : Shard} (h : INV c) : INV (advanceHot c) := by
  refine ⟨⟨h.nonneg, h.ghost, h.perm, h.nodup, ?_, h.coldNone, h.testNone,
    ?_, h.coldMem, h.testMem⟩, h.cHot, h.cCold, h.cTest, h.sHot, h.sCold, h.sTest⟩
  · show c.handHot.map (fun k => ringNext c.ring k) = none ↔ c.ring = []
    constructor
    · intro hn
      cases hcc : c.handHot with
      | none => exact h.hotNone.mp hcc
      | some kk =>
        rw [hcc] at hn
        exact absurd hn (by simp)
    · intro hr
      rw [h.hotNone.mpr hr]
      rfl
  · intro k0 hk0
    have hk0' : c.handHot.map (fun k => ringNext c.ring k) = some k0 := hk0
    cases hcc : c.handHot with
    | none =>
      rw [hcc] at hk0'
      exact absurd hk0' (by simp)
    | some kk =>
      rw [hcc] at hk0'
      simp only [Option.map_some'] at hk0'
      obtain rfl : ringNext c.ring kk = k0 := by injection hk0'
      exact ringNext_mem (h.hotMem kk hcc)

theorem INV_advanceTest {c : Shard} (h : INV c) : INV (advanceTest c) := by
  refine ⟨⟨h.nonneg, h.ghost, h.perm, h.nodup, h.hotNone, h.coldNone, ?_,
    h.hotMem, h.coldMem, ?_⟩, h.cHot, h.cCold, h.cTest, h.sHot, h.sCold, h.sTest⟩
  · show c.handTest.map (fun k => ringNext c.ring k) = none ↔ c.ring = []
    constructor
    · intro hn
      cases hcc : c.handTest with
      | none => exact h.testNone.mp hcc
      | some kk =>
        rw [hcc] at hn
        exact absurd hn (by simp)
    · intro hr
      rw [h.testNone.mpr hr]
      rfl
  · intro k0 hk0
    have hk0' : c.handTest.map (fun k => ringNext c.ring k) = some k0 := hk0
    cases hcc : c.handTest with
    | none =>
      rw [hcc] at hk0'
      exact absurd hk0' (by simp)
    | some kk =>
      rw [hcc] at hk0'
      simp only [Option.map_some'] at hk0'
      obtain rfl : ringNext c.ring kk = k0 := by injection hk0'
      exact ringNext_mem (h.testMem kk hcc)

/-- The counter adjustment of metaEvict for a hot entry. -/
def dropHot (c : Shard) (e : Entry) : Shard :=
  { c with sizeHot := c.sizeHot - e.size, countHot := c.countHot - 1 }

/-- The counter adjustment of metaEvict for a cold entry. -/
def dropCold (c : Shard) (e : Entry) : Shard :=
  { c with sizeCold := c.sizeCold - e.size, countCold := c.countCold - 1 }

/-- The counter adjustment of metaEvict for a test entry. -/
def dropTest (c : Shard) (e : Entry) : Shard :=
  { c with sizeTest := c.sizeTest - e.size, countTest := c.countTest - 1 }

theorem INV_metaEvict {c : Shard} (k : CKey) (h : INV c) : INV (metaEvict c k).1 := by
  cases hl : lookupKV c.entries k with
  | none =>
    simp only [metaEvict, hl]
    exact h
  | some e =>
    cases hty : e.ptype with
    | etHot =>
      have hred : (metaEvict c k).1 = (metaDel (dropHot c e) k).1 := by
        simp only [metaEvict, dropHot, hl, hty]
      have hl1 : lookupKV (dropHot c e).entries k = some e := hl
      have hS : SINV (metaDel (dropHot c e) k).1 :=
        SINV_metaDel (@SINV_congr c _ rfl rfl rfl rfl rfl h.toSINV) h.keysNodup hl1
      have hEnt : (metaDel (dropHot c e) k).1.entries = eraseKV c.entries k := by
        rw [metaDel_eq hl1]; rfl
      have hCH : (metaDel (dropHot c e) k).1.countHot = c.countHot - 1 := by
        rw [metaDel_eq hl1]; rfl
      have hCC : (metaDel (dropHot c e) k).1.countCold = c.countCold := by
        rw [metaDel_eq hl1]; rfl
      have hCT : (metaDel (dropHot c e) k).1.countTest = c.countTest := by
        rw [metaDel_eq hl1]; rfl
      have hSH : (metaDel (dropHot c e) k).1.sizeHot = c.sizeHot - e.size := by
        rw [metaDel_eq hl1]; rfl
      have hSC : (metaDel (dropHot c e) k).1.sizeCold = c.sizeCold := by
        rw [metaDel_eq hl1]; rfl
      have hST : (metaDel (dropHot c e) k).1.sizeTest = c.sizeTest := by
        rw [metaDel_eq hl1]; rfl
      rw [hred]
      refine ⟨hS, ?_, ?_, ?_, ?_, ?_, ?_⟩
      · rw [hCH, hEnt, cntOf_eraseKV .etHot hl, (by simp [contribC, hty] :
          contribC .etHot e = 1), ← h.cHot]
      · rw [hCC, hEnt, cntOf_eraseKV .etCold hl, (by simp [contribC, hty] :
          contribC .etCold e = 0), ← h.cCold]
        omega
      · rw [hCT, hEnt, cntOf_eraseKV .etTest hl, (by simp [contribC, hty] :
          contribC .etTest e = 0), ← h.cTest]
        omega
      · rw [hSH, hEnt, szOf_eraseKV .etHot hl, (by simp [contrib, hty] :
          contrib .etHot e = e.size), ← h.sHot]
      · rw [hSC, hEnt, szOf_eraseKV .etCold hl, (by simp [contrib, hty] :
          contrib .etCold e = 0), ← h.sCold]
        omega
      · rw [hST, hEnt, szOf_eraseKV .etTest hl, (by simp [contrib, hty] :
          contrib .etTest e = 0), ← h.sTest]
        omega
    | etCold =>
      have hred : (metaEvict c k).1 = (metaDel (dropCold c e) k).1 := by
        simp only [metaEvict, dropCold, hl, hty]
      have hl1 : lookupKV (dropCold c e).entries k = some e := hl
      have hS : SINV (metaDel (dropCold c e) k).1 :=
        SINV_metaDel (@SINV_congr c _ rfl rfl rfl rfl rfl h.toSINV) h.keysNodup hl1
      have hEnt : (metaDel (dropCold c e) k).1.entries = eraseKV c.entries k := by
        rw [metaDel_eq hl1]; rfl
      have hCH : (metaDel (dropCold c e) k).1.countHot = c.countHot := by
        rw [metaDel_eq hl1]; rfl
      have hCC : (metaDel (dropCold c e) k).1.countCold = c.countCold - 1 := by
        rw [metaDel_eq hl1]; rfl
      have hCT : (metaDel (dropCold c e) k).1.countTest = c.countTest := by
        rw [metaDel_eq hl1]; rfl
      have hSH : (metaDel (dropCold c e) k).1.sizeHot = c.sizeHot := by
        rw [metaDel_eq hl1]; rfl
      have hSC : (metaDel (dropCold c e) k).1.sizeCold = c.sizeCold - e.size := by
        rw [metaDel_eq hl1]; rfl
      have hST : (metaDel (dropCold c e) k).1.sizeTest = c.sizeTest := by
        rw [metaDel_eq hl1]; rfl
      rw [hred]
      refine ⟨hS, ?_, ?_, ?_, ?_, ?_, ?_⟩
      · rw [hCH, hEnt, cntOf_eraseKV .etHot hl, (by simp [contribC, hty] :
          contribC .etHot e = 0), ← h.cHot]
        omega
      · rw [hCC, hEnt, cntOf_eraseKV .etCold hl, (by simp [contribC, hty] :
          contribC .etCold e = 1), ← h.cCold]
      · rw [hCT, hEnt, cntOf_eraseKV .etTest hl, (by simp [contribC, hty] :
          contribC .etTest e = 0), ← h.cTest]
        omega
      · rw [hSH, hEnt, szOf_eraseKV .etHot hl, (by simp [contrib, hty] :
          contrib .etHot e = 0), ← h.sHot]
        omega
      · rw [hSC, hEnt, szOf_eraseKV .etCold hl, (by simp [contrib, hty] :
          contrib .etCold e = e.size), ← h.sCold]
      · rw [hST, hEnt, szOf_eraseKV .etTest hl, (by simp [contrib, hty] :
          contrib .etTest e = 0), ← h.sTest]
        omega
    | etTest =>
      have hred : (metaEvict c k).1 = (metaDel (dropTest c e) k).1 := by
        simp only [metaEvict, dropTest, hl, hty]
      have hl1 : lookupKV (dropTest c e).entries k = some e := hl
      have hS : SINV (metaDel (dropTest c e) k).1 :=
        SINV_metaDel (@SINV_congr c _ rfl rfl rfl rfl rfl h.toSINV) h.keysNodup hl1
      have hEnt : (metaDel (dropTest c e) k).1.entries = eraseKV c.entries k := by
        rw [metaDel_eq hl1]; rfl
      have hCH : (metaDel (dropTest c e) k).1.countHot = c.countHot := by
        rw [metaDel_eq hl1]; rfl
      have hCC : (metaDel (dropTest c e) k).1.countCold = c.countCold := by
        rw [metaDel_eq hl1]; rfl
      have hCT : (metaDel (dropTest c e) k).1.countTest = c.countTest - 1 := by
        rw [metaDel_eq hl1]; rfl
      have hSH : (metaDel (dropTest c e) k).1.sizeHot = c.sizeHot := by
        rw [metaDel_eq hl1]; rfl
      have hSC : (metaDel (dropTest c e) k).1.sizeCold = c.sizeCold := by
        rw [metaDel_eq hl1]; rfl
      have hST : (metaDel (dropTest c e) k).1.sizeTest = c.sizeTest - e.size := by
        rw [metaDel_eq hl1]; rfl
      rw [hred]
      refine ⟨hS, ?_, ?_, ?_, ?_, ?_, ?_⟩
      · rw [hCH, hEnt, cntOf_eraseKV .etHot hl, (by simp [contribC, hty] :
          contribC .etHot e = 0), ← h.cHot]
        omega
      · rw [hCC, hEnt, cntOf_eraseKV .etCold hl, (by simp [contribC, hty] :
          contribC .etCold e = 0), ← h.cCold]
        omega
      · rw [hCT, hEnt, cntOf_eraseKV .etTest hl, (by simp [contribC, hty] :
          contribC .etTest e = 1), ← h.cTest]
      · rw [hSH, hEnt, szOf_eraseKV .etHot hl, (by simp [contrib, hty] :
          contrib .etHot e = 0), ← h.sHot]
        omega
      · rw [hSC, hEnt, szOf_eraseKV .etCold hl, (by simp [contrib, hty] :
          contrib .etCold e = 0), ← h.sCold]
        omega
      · rw [hST, hEnt, szOf_eraseKV .etTest hl, (by simp [contrib, hty] :
          contrib .etTest e = e.size), ← h.sTest]

/-- The intermediate state of a test-hand eviction (test counters and
coldTarget adjusted, before metaDel). -/
def dropTestCT (c : Shard) (e : Entry) : Shard :=
  { dropTest c e with
      coldTarget := if c.coldTarget - e.size < 0 then 0 else c.coldTarget - e.size }

theorem evictTest_eq_metaDel (c : Shard) (k : CKey) (e : Entry) :
    evictTest c k e = (metaDel (dropTestCT c e) k).1 := by
  simp only [evictTest, dropTestCT, dropTest]

theorem INV_evictTest {c : Shard} {k : CKey} {e : Entry} (h : INV c)
    (hl : lookupKV c.entries k = some e) (hty : e.ptype = .etTest) :
    INV (evictTest c k e) := by
  rw [evictTest_eq_metaDel]
  have hl1 : lookupKV (dropTestCT c e).entries k = some e := hl
  have hS : SINV (metaDel (dropTestCT c e) k).1 :=
    SINV_metaDel (@SINV_congr c _ rfl rfl rfl rfl rfl h.toSINV) h.keysNodup hl1
  have hEnt : (metaDel (dropTestCT c e) k).1.entries = eraseKV c.entries k := by
    rw [metaDel_eq hl1]; rfl
  have hCH : (metaDel (dropTestCT c e) k).1.countHot = c.countHot := by
    rw [metaDel_eq hl1]; rfl
  have hCC : (metaDel (dropTestCT c e) k).1.countCold = c.countCold := by
    rw [metaDel_eq hl1]; rfl
  have hCT : (metaDel (dropTestCT c e) k).1.countTest = c.countTest - 1 := by
    rw [metaDel_eq hl1]; rfl
  have hSH : (metaDel (dropTestCT c e) k).1.sizeHot = c.sizeHot := by
    rw [metaDel_eq hl1]; rfl
  have hSC : (metaDel (dropTestCT c e) k).1.sizeCold = c.sizeCold := by
    rw [metaDel_eq hl1]; rfl
  have hST : (metaDel (dropTestCT c e) k).1.sizeTest = c.sizeTest - e.size := by
    rw [metaDel_eq hl1]; rfl
  refine ⟨hS, ?_, ?_, ?_, ?_, ?_, ?_⟩
  · rw [hCH, hEnt, cntOf_eraseKV .etHot hl, (by simp [contribC, hty] :
      contribC .etHot e = 0), ← h.cHot]
    omega
  · rw [hCC, hEnt, cntOf_eraseKV .etCold hl, (by simp [contribC, hty] :
      contribC .etCold e = 0), ← h.cCold]
    omega
  · rw [hCT, hEnt, cntOf_eraseKV .etTest hl, (by simp [contribC, hty] :
      contribC .etTest e = 1), ← h.cTest]
  · rw [hSH, hEnt, szOf_eraseKV .etHot hl, (by simp [contrib, hty] :
      contrib .etHot e = 0), ← h.sHot]
    omega
  · rw [hSC, hEnt, szOf_eraseKV .etCold hl, (by simp [contrib, hty] :
      contrib .etCold e = 0), ← h.sCold]
    omega
  · rw [hST, hEnt, szOf_eraseKV .etTest hl, (by simp [contrib, hty] :
      contrib .etTest e = e.size), ← h.sTest]

/-! ### Unfolding lemmas for the fueled clock functions -/

theorem evict_succ (n : Nat) (c : Shard) :
    evict (n + 1) c =
      (if targetSize c ≤ c.sizeHot + c.sizeCold ∧ c.handCold ≠ none then
        match runHandCold n c with
        | .ok c1 => evict n c1
        | .panicked => .panicked
        | .oof => .oof
      else .ok c) := by
  rw [evict]

theorem runHandCold_succ (n : Nat) (c : Shard) :
    runHandCold (n + 1) c =
      (match (match c.handCold with
        | none => Res.ok c
        | some k =>
          match lookupKV c.entries k with
          | none => Res.ok c
          | some e =>
            if e.ptype = EType.etCold then
              if e.referenced then Res.ok (promoteCold c k e)
              else testLoop n (demoteCold c k e)
            else Res.ok c) with
      | .ok c1 =>
        match hotLoop n (advanceCold c1) with
        | .ok c2 => Res.ok c2
        | .panicked => Res.panicked
        | .oof => Res.oof
      | .panicked => Res.panicked
      | .oof => Res.oof) := by
  rw [runHandCold]

theorem testLoop_succ (n : Nat) (c : Shard) :
    testLoop (n + 1) c =
      (if targetSize c < c.sizeTest ∧ c.handTest ≠ none then
        match runHandTest n c with
        | .ok c1 => testLoop n c1
        | .panicked => .panicked
        | .oof => .oof
      else .ok c) := by
  rw [testLoop]

theorem hotLoop_succ (n : Nat) (c : Shard) :
    hotLoop (n + 1) c =
      (if targetSize c - c.coldTarget ≤ c.sizeHot ∧ c.handHot ≠ none then
        match runHandHot n c with
        | .ok c1 => hotLoop n c1
        | .panicked => .panicked
        | .oof => .oof
      else .ok c) := by
  rw [hotLoop]

theorem runHandHot_succ (n : Nat) (c : Shard) :
    runHandHot (n + 1) c =
      (match (if c.handHot = c.handTest ∧ c.handTest ≠ none then runHandTest n c
        else Res.ok c) with
      | .ok c1 =>
        (match c1.handHot with
        | none => Res.ok c1
        | some k =>
          match lookupKV c1.entries k with
          | none => Res.ok (advanceHot c1)
          | some e =>
            if e.ptype = EType.etHot then
              if e.referenced then Res.ok (advanceHot (clearRefHot c1 k))
              else Res.ok (advanceHot (demoteHot c1 k e))
            else Res.ok (advanceHot c1))
      | .panicked => Res.panicked
      | .oof => Res.oof) := by
  rw [runHandHot]

theorem runHandTest_succ (n : Nat) (c : Shard) :
    runHandTest (n + 1) c =
      (match (if 0 < c.sizeCold ∧ c.handTest = c.handCold ∧ c.handCold ≠ none then
          if c.countCold = 0 then Res.panicked else runHandCold n c
        else Res.ok c) with
      | .ok c1 =>
        (match c1.handTest with
        | none => Res.ok c1
        | some k =>
          match lookupKV c1.entries k with
          | none => Res.ok (advanceTest c1)
          | some e =>
            if e.ptype = EType.etTest then Res.ok (advanceTest (evictTest c1 k e))
            else Res.ok (advanceTest c1))
      | .panicked => Res.panicked
      | .oof => Res.oof) := by
  rw [runHandTest]

/-- The clock machinery never adds keys to the blocks map. -/
def keysLe (c c' : Shard) : Prop :=
  ∀ k0, lookupKV c.entries k0 = none → lookupKV c'.entries k0 = none

theorem keysLe_refl (c : Shard) : keysLe c c :=
  fun _ h => h

theorem keysLe_trans {a b c : Shard} (h1 : keysLe a b) (h2 : keysLe b c) : keysLe a c :=
  fun k0 h => h2 k0 (h1 k0 h)

theorem keysLe_of_entries_eq {a b : Shard} (h : b.entries = a.entries) : keysLe a b := by
  intro k0 hk
  rw [h]
  exact hk

theorem keysLe_updateKV {c b : Shard} {k : CKey} {f : Entry → Entry}
    (hb : b.entries = updateKV f c.entries k) : keysLe c b := by
  intro k0 hk
  rw [hb, lookupKV_none_iff, map_fst_updateKV]
  rw [lookupKV_none_iff] at hk
  exact hk

theorem keysLe_metaDel {c : Shard} {k : CKey} : keysLe c (metaDel c k).1 := by
  intro k0 hk
  cases hl : lookupKV c.entries k with
  | none =>
    simp only [metaDel, hl]
    exact hk
  | some e =>
    have : (metaDel c k).1.entries = eraseKV c.entries k := by rw [metaDel_eq hl]
    rw [this, lookupKV_none_iff, map_fst_eraseKV]
    rw [lookupKV_none_iff] at hk
    intro hmem
    exact hk (List.mem_of_mem_erase hmem)

/-! ### Invariant preservation and value flow through the clock machinery -/

theorem INV_run (n : Nat) :
    (∀ c c', evict n c = .ok c' → INV c → INV c' ∧ valLe c c' ∧ keysLe c c') ∧
    (∀ c c', runHandCold n c = .ok c' → INV c → INV c' ∧ valLe c c' ∧ keysLe c c') ∧
    (∀ c c', testLoop n c = .ok c' → INV c → INV c' ∧ valLe c c' ∧ keysLe c c') ∧
    (∀ c c', hotLoop n c = .ok c' → INV c → INV c' ∧ valLe c c' ∧ keysLe c c') ∧
    (∀ c c', runHandHot n c = .ok c' → INV c → INV c' ∧ valLe c c' ∧ keysLe c c') ∧
    (∀ c c', runHandTest n c = .ok c' → INV c → INV c' ∧ valLe c c' ∧ keysLe c c') := by
  induction n with
  | zero =>
    refine ⟨?_, ?_, ?_, ?_, ?_, ?_⟩ <;>
      · intro c c' h hi
        simp [evict, runHandCold, testLoop, hotLoop, runHandHot, runHandTest] at h
  | succ n ih =>
    obtain ⟨ihE, ihC, ihT, ihH, ihHH, ihHT⟩ := ih
    refine ⟨?_, ?_, ?_, ?_, ?_, ?_⟩
    · -- evict
      intro c c' h hi
      rw [evict_succ] at h
      by_cases hg : targetSize c ≤ c.sizeHot + c.sizeCold ∧ c.handCold ≠ none
      · rw [if_pos hg] at h
        cases hrc : runHandCold n c with
        | ok c1 =>
          rw [hrc] at h
          simp only [] at h
          obtain ⟨h1, v1, k1⟩ := ihC c c1 hrc hi
          obtain ⟨h2, v2, k2⟩ := ihE c1 c' h h1
          exact ⟨h2, valLe_trans v1 v2, keysLe_trans k1 k2⟩
        | panicked => rw [hrc] at h; simp at h
        | oof => rw [hrc] at h; simp at h
      · rw [if_neg hg] at h
        obtain rfl : c = c' := by injection h
        exact ⟨hi, valLe_refl c, keysLe_refl c⟩
    · -- runHandCold
      intro c c' h hi
      rw [runHandCold_succ] at h
      have finishCold : ∀ c1, INV c1 → valLe c c1 → keysLe c c1 →
          ((match hotLoop n (advanceCold c1) with
            | .ok c2 => Res.ok c2
            | .panicked => Res.panicked
            | .oof => Res.oof) = Res.ok c') → INV c' ∧ valLe c c' ∧ keysLe c c' := by
        intro c1 h1 v1 k1 hm
        cases hHL : hotLoop n (advanceCold c1) with
        | ok c2 =>
          rw [hHL] at hm
          simp only [] at hm
          obtain rfl : c2 = c' := by injection hm
          obtain ⟨h2, v2, k2⟩ := ihH (advanceCold c1) c2 hHL (INV_advanceCold h1)
          exact ⟨h2, valLe_trans v1 (valLe_trans (valLe_of_entries_eq rfl) v2),
            keysLe_trans k1 (keysLe_trans (keysLe_of_entries_eq rfl) k2)⟩
        | panicked => rw [hHL] at hm; simp at hm
        | oof => rw [hHL] at hm; simp at hm
      cases hHC : c.handCold with
      | none =>
        rw [hHC] at h
        simp only [] at h
        exact finishCold c hi (valLe_refl c) (keysLe_refl c) h
      | some k =>
        rw [hHC] at h
        simp only [] at h
        cases hLK : lookupKV c.entries k with
        | none =>
          rw [hLK] at h
          simp only [] at h
          exact finishCold c hi (valLe_refl c) (keysLe_refl c) h
        | some e =>
          rw [hLK] at h
          simp only [] at h
          by_cases hCold : e.ptype = .etCold
          · rw [if_pos hCold] at h
            by_cases hRef : e.referenced = true
            · rw [if_pos hRef] at h
              simp only [] at h
              exact finishCold (promoteCold c k e) (INV_promoteCold hi hLK hCold)
                (valLe_updateKV rfl (fun e0 => Or.inl rfl)) (keysLe_updateKV rfl) h
            · rw [if_neg hRef] at h
              cases hTL : testLoop n (demoteCold c k e) with
              | ok c1 =>
                rw [hTL] at h
                obtain ⟨h1, v1, k1⟩ := ihT (demoteCold c k e) c1 hTL (INV_demoteCold hi hLK hCold)
                exact finishCold c1 h1
                  (valLe_trans (valLe_updateKV rfl (fun e0 => Or.inr rfl)) v1)
                  (keysLe_trans (keysLe_updateKV rfl) k1) h
              | panicked => rw [hTL] at h; simp at h
              | oof => rw [hTL] at h; simp at h
          · rw [if_neg hCold] at h
            exact finishCold c hi (valLe_refl c) (keysLe_refl c) h
    · -- testLoop
      intro c c' h hi
      rw [testLoop_succ] at h
      by_cases hg : targetSize c < c.sizeTest ∧ c.handTest ≠ none
      · rw [if_pos hg] at h
        cases hrc : runHandTest n c with
        | ok c1 =>
          rw [hrc] at h
          simp only [] at h
          obtain ⟨h1, v1, k1⟩ := ihHT c c1 hrc hi
          obtain ⟨h2, v2, k2⟩ := ihT c1 c' h h1
          exact ⟨h2, valLe_trans v1 v2, keysLe_trans k1 k2⟩
        | panicked => rw [hrc] at h; simp at h
        | oof => rw [hrc] at h; simp at h
      · rw [if_neg hg] at h
        obtain rfl : c = c' := by injection h
        exact ⟨hi, valLe_refl c, keysLe_refl c⟩
    · -- hotLoop
      intro c c' h hi
      rw [hotLoop_succ] at h
      by_cases hg : targetSize c - c.coldTarget ≤ c.sizeHot ∧ c.handHot ≠ none
      · rw [if_pos hg] at h
        cases hrc : runHandHot n c with
        | ok c1 =>
          rw [hrc] at h
          simp only [] at h
          obtain ⟨h1, v1, k1⟩ := ihHH c c1 hrc hi
          obtain ⟨h2, v2, k2⟩ := ihH c1 c' h h1
          exact ⟨h2, valLe_trans v1 v2, keysLe_trans k1 k2⟩
        | panicked => rw [hrc] at h; simp at h
        | oof => rw [hrc] at h; simp at h
      · rw [if_neg hg] at h
        obtain rfl : c = c' := by injection h
        exact ⟨hi, valLe_refl c, keysLe_refl c⟩
    · -- runHandHot
      intro c c' h hi
      rw [runHandHot_succ] at h
      have finishHot : ∀ c1, INV c1 → valLe c c1 → keysLe c c1 →
          ((match c1.handHot with
            | none => Res.ok c1
            | some k =>
              match lookupKV c1.entries k with
              | none => Res.ok (advanceHot c1)
              | some e =>
                if e.ptype = EType.etHot then
                  if e.referenced then Res.ok (advanceHot (clearRefHot c1 k))
                  else Res.ok (advanceHot (demoteHot c1 k e))
                else Res.ok (advanceHot c1)) = Res.ok c') →
          INV c' ∧ valLe c c' ∧ keysLe c c' := by
        intro c1 h1 v1 k1 hm
        cases hHH : c1.handHot with
        | none =>
          rw [hHH] at hm
          simp only [] at hm
          obtain rfl : c1 = c' := by injection hm
          exact ⟨h1, v1, k1⟩
        | some k =>
          rw [hHH] at hm
          simp only [] at hm
          cases hLK : lookupKV c1.entries k with
          | none =>
            rw [hLK] at hm
            simp only [] at hm
            obtain rfl : advanceHot c1 = c' := by injection hm
            exact ⟨INV_advanceHot h1, valLe_trans v1 (valLe_of_entries_eq rfl),
              keysLe_trans k1 (keysLe_of_entries_eq rfl)⟩
          | some e =>
            rw [hLK] at hm
            simp only [] at hm
            by_cases hHot : e.ptype = .etHot
            · rw [if_pos hHot] at hm
              by_cases hRef : e.referenced = true
              · rw [if_pos hRef] at hm
                obtain rfl : advanceHot (clearRefHot c1 k) = c' := by injection hm
                refine ⟨INV_advanceHot (INV_clearRefHot h1 hLK), ?_, ?_⟩
                · refine valLe_trans v1 (valLe_trans ?_ (valLe_of_entries_eq
                    (rfl : (advanceHot (clearRefHot c1 k)).entries = (clearRefHot c1 k).entries)))
                  exact @valLe_updateKV c1 (clearRefHot c1 k) k
                    (fun e' => { e' with referenced := false }) rfl (fun e0 => Or.inl rfl)
                · refine keysLe_trans k1 ?_
                  exact @keysLe_updateKV c1 (advanceHot (clearRefHot c1 k)) k
                    (fun e' => { e' with referenced := false }) rfl
              · rw [if_neg hRef] at hm
                obtain rfl : advanceHot (demoteHot c1 k e) = c' := by injection hm
                refine ⟨INV_advanceHot (INV_demoteHot h1 hLK hHot), ?_, ?_⟩
                · refine valLe_trans v1 (valLe_trans ?_ (valLe_of_entries_eq
                    (rfl : (advanceHot (demoteHot c1 k e)).entries = (demoteHot c1 k e).entries)))
                  exact @valLe_updateKV c1 (demoteHot c1 k e) k
                    (fun e' => { e' with ptype := EType.etCold }) rfl (fun e0 => Or.inl rfl)
                · refine keysLe_trans k1 ?_
                  exact @keysLe_updateKV c1 (advanceHot (demoteHot c1 k e)) k
                    (fun e' => { e' with ptype := EType.etCold }) rfl
            · rw [if_neg hHot] at hm
              obtain rfl : advanceHot c1 = c' := by injection hm
              exact ⟨INV_advanceHot h1, valLe_trans v1 (valLe_of_entries_eq rfl),
                keysLe_trans k1 (keysLe_of_entries_eq rfl)⟩
      by_cases hg : c.handHot = c.handTest ∧ c.handTest ≠ none
      · rw [if_pos hg] at h
        cases hrt : runHandTest n c with
        | ok c1 =>
          rw [hrt] at h
          simp only [] at h
          obtain ⟨h1, v1, k1⟩ := ihHT c c1 hrt hi
          exact finishHot c1 h1 v1 k1 h
        | panicked => rw [hrt] at h; simp at h
        | oof => rw [hrt] at h; simp at h
      · rw [if_neg hg] at h
        simp only [] at h
        exact finishHot c hi (valLe_refl c) (keysLe_refl c) h
    · -- runHandTest
      intro c c' h hi
      rw [runHandTest_succ] at h
      have finishTest : ∀ c1, INV c1 → valLe c c1 → keysLe c c1 →
          ((match c1.handTest with
            | none => Res.ok c1
            | some k =>
              match lookupKV c1.entries k with
              | none => Res.ok (advanceTest c1)
              | some e =>
                if e.ptype = EType.etTest then Res.ok (advanceTest (evictTest c1 k e))
                else Res.ok (advanceTest c1)) = Res.ok c') →
          INV c' ∧ valLe c c' ∧ keysLe c c' := by
        intro c1 h1 v1 k1 hm
        cases hHT : c1.handTest with
        | none =>
          rw [hHT] at hm
          simp only [] at hm
          obtain rfl : c1 = c' := by injection hm
          exact ⟨h1, v1, k1⟩
        | some k =>
          rw [hHT] at hm
          simp only [] at hm
          cases hLK : lookupKV c1.entries k with
          | none =>
            rw [hLK] at hm
            simp only [] at hm
            obtain rfl : advanceTest c1 = c' := by injection hm
            exact ⟨INV_advanceTest h1, valLe_trans v1 (valLe_of_entries_eq rfl),
              keysLe_trans k1 (keysLe_of_entries_eq rfl)⟩
          | some e =>
            rw [hLK] at hm
            simp only [] at hm
            by_cases hTy : e.ptype = .etTest
            · rw [if_pos hTy] at hm
              obtain rfl : advanceTest (evictTest c1 k e) = c' := by injection hm
              refine ⟨INV_advanceTest (INV_evictTest h1 hLK hTy), ?_, ?_⟩
              · refine valLe_trans v1 (valLe_trans ?_ (valLe_of_entries_eq rfl))
                rw [evictTest_eq_metaDel]
                exact valLe_trans (valLe_of_entries_eq rfl) (valLe_metaDel h1.keysNodup)
              · refine keysLe_trans k1 ?_
                rw [evictTest_eq_metaDel]
                refine keysLe_trans (keysLe_trans (keysLe_of_entries_eq
                  (rfl : (dropTestCT c1 e).entries = c1.entries))
                  (@keysLe_metaDel (dropTestCT c1 e) k)) (keysLe_of_entries_eq rfl)
            · rw [if_neg hTy] at hm
              obtain rfl : advanceTest c1 = c' := by injection hm
              exact ⟨INV_advanceTest h1, valLe_trans v1 (valLe_of_entries_eq rfl),
                keysLe_trans k1 (keysLe_of_entries_eq rfl)⟩
      by_cases hg : 0 < c.sizeCold ∧ c.handTest = c.handCold ∧ c.handCold ≠ none
      · rw [if_pos hg] at h
        by_cases hz : c.countCold = 0
        · rw [if_pos hz] at h
          simp at h
        · rw [if_neg hz] at h
          cases hrc : runHandCold n c with
          | ok c1 =>
            rw [hrc] at h
            simp only [] at h
            obtain ⟨h1, v1, k1⟩ := ihC c c1 hrc hi
            exact finishTest c1 h1 v1 k1 h
          | panicked => rw [hrc] at h; simp at h
          | oof => rw [hrc] at h; simp at h
      · rw [if_neg hg] at h
        simp only [] at h
        exact finishTest c hi (valLe_refl c) (keysLe_refl c) h

theorem INV_evict {n : Nat} {c c' : Shard} (h : evict n c = .ok c') (hi : INV c) :
    INV c' :=
  ((INV_run n).1 c c' h hi).1

theorem valLe_evict {n : Nat} {c c' : Shard} (h : evict n c = .ok c') (hi : INV c) :
    valLe c c' :=
  ((INV_run n).1 c c' h hi).2.1

theorem keysLe_evict {n : Nat} {c c' : Shard} (h : evict n c = .ok c') (hi : INV c) :
    keysLe c c' :=
  ((INV_run n).1 c c' h hi).2.2

/-- A completed eviction sweep ends under budget or with a cleared cold
hand: the loop guard is false on exit. -/
theorem evict_exit {n : Nat} {c c' : Shard} (h : evict n c = .ok c') :
    c'.sizeHot + c'.sizeCold < targetSize c' ∨ c'.handCold = none := by
  induction n generalizing c with
  | zero => simp [evict] at h
  | succ n ih =>
    rw [evict_succ] at h
    by_cases hg : targetSize c ≤ c.sizeHot + c.sizeCold ∧ c.handCold ≠ none
    · rw [if_pos hg] at h
      cases hrc : runHandCold n c with
      | ok c1 =>
        rw [hrc] at h
        simp only [] at h
        exact ih h
      | panicked => rw [hrc] at h; simp at h
      | oof => rw [hrc] at h; simp at h
    · rw [if_neg hg] at h
      obtain rfl : c = c' := by injection h
      push_neg at hg
      by_cases hc : c.handCold = none
      · exact Or.inr hc
      · left
        by_contra hlt
        push_neg at hlt
        exact hc (hg hlt)

/-- Under the invariant, a nil cold hand means the shard is empty: every
size and count is zero. -/
theorem zero_of_handCold_none {c : Shard} (h : INV c) (hn : c.handCold = none) :
    c.sizeHot = 0 ∧ c.sizeCold = 0 ∧ c.sizeTest = 0 ∧
      c.countHot = 0 ∧ c.countCold = 0 ∧ c.countTest = 0 := by
  have hring := h.coldNone.mp hn
  have hmap : c.entries.map Prod.fst = [] := by
    have hperm := h.perm
    rw [hring] at hperm
    exact (hperm.symm).eq_nil
  have hent : c.entries = [] := List.map_eq_nil.mp hmap
  refine ⟨?_, ?_, ?_, ?_, ?_, ?_⟩
  · rw [h.sHot, hent]; rfl
  · rw [h.sCold, hent]; rfl
  · rw [h.sTest, hent]; rfl
  · rw [h.cHot, hent]; rfl
  · rw [h.cCold, hent]; rfl
  · rw [h.cTest, hent]; rfl

/-- After a completed eviction sweep from an invariant state, the resident
size is at most targetSize (strictly below it unless the ring is empty). -/
theorem evict_post {n : Nat} {c c' : Shard} (h : evict n c = .ok c') (hi : INV c) :
    c'.sizeHot + c'.sizeCold ≤ targetSize c' := by
  rcases evict_exit h with hlt | hnone
  · omega
  · obtain ⟨h1, h2, -, -, -, -⟩ := zero_of_handCold_none (INV_evict h hi) hnone
    have : 1 ≤ targetSize c' := by
      unfold targetSize
      by_cases hc : c'.maxSize - c'.reservedSize < 1
      · rw [if_pos hc]
      · rw [if_neg hc]; omega
    omega

theorem metaAdd_eq {n : Nat} {c0 c1 : Shard} (k : CKey) (e : Entry)
    (hev : evict n c0 = .ok c1) :
    metaAdd n c0 k e =
      (if targetSize c1 < e.size then .ok (c1, false)
       else .ok (metaInsert c1 k e, true)) := by
  simp only [metaAdd, hev]

theorem ringPrev_singleton {α : Type} [DecidableEq α] (k : α) : ringPrev [k] k = k := by
  show ringNext [k].reverse k = k
  rw [List.reverse_singleton]
  exact ringNext_singleton k

theorem SINV_metaInsert {c : Shard} {k : CKey} {e : Entry} (h : SINV c)
    (habs : lookupKV c.entries k = none)
    (hsz : 0 ≤ e.size) (hghost : e.val = none ↔ e.ptype = .etTest) :
    SINV (metaInsert c k e) := by
  have hknotmap : k ∉ c.entries.map Prod.fst := lookupKV_none_iff.mp habs
  have hknotring : k ∉ c.ring := fun hk => hknotmap (h.perm.subset hk)
  have hEnt : (metaInsert c k e).entries = putKV c.entries k e := rfl
  have hnn : ∀ p ∈ (metaInsert c k e).entries, 0 ≤ p.2.size := by
    rw [hEnt]
    intro p hp
    rcases mem_putKV hp with hp | hp
    · exact h.nonneg p hp
    · rw [hp]
      exact hsz
  have hgh : ∀ p ∈ (metaInsert c k e).entries, p.2.val = none ↔ p.2.ptype = .etTest := by
    rw [hEnt]
    intro p hp
    rcases mem_putKV hp with hp | hp
    · exact h.ghost p hp
    · rw [hp]
      exact hghost
  cases hH : c.handHot with
  | none =>
    have hring : c.ring = [] := h.hotNone.mp hH
    have hentnil : c.entries = [] := by
      have hperm := h.perm
      rw [hring] at hperm
      exact List.map_eq_nil.mp hperm.symm.eq_nil
    have hR : (metaInsert c k e).ring = [k] := by
      simp only [metaInsert, hH]
    have hHp : (metaInsert c k e).handHot = some k := by
      simp only [metaInsert, hH]
    have hCp : (metaInsert c k e).handCold = some k := by
      simp only [metaInsert, hH]
      simp [ringPrev_singleton]
    have hTp : (metaInsert c k e).handTest = some k := by
      simp only [metaInsert, hH]
    refine ⟨hnn, hgh, ?_, ?_, ?_, ?_, ?_, ?_, ?_, ?_⟩
    · rw [hR, hEnt, hentnil]
      show [k].Perm ((putKV [] k e).map Prod.fst)
      simp [putKV]
    · rw [hR]
      simp
    · rw [hHp, hR]
      simp
    · rw [hCp, hR]
      simp
    · rw [hTp, hR]
      simp
    · intro k0 hk0
      rw [hHp] at hk0
      obtain rfl : k = k0 := by injection hk0
      rw [hR]
      simp
    · intro k0 hk0
      rw [hCp] at hk0
      obtain rfl : k = k0 := by injection hk0
      rw [hR]
      simp
    · intro k0 hk0
      rw [hTp] at hk0
      obtain rfl : k = k0 := by injection hk0
      rw [hR]
      simp
  | some hh =>
    have hringne : c.ring ≠ [] := by
      intro h0
      have := h.hotNone.mpr h0
      rw [hH] at this
      exact absurd this (by simp)
    have hR : (metaInsert c k e).ring = linkAfter c.ring hh k := by
      simp only [metaInsert, hH]
    have hHp : (metaInsert c k e).handHot = some hh := by
      simp only [metaInsert, hH]
    have hTp : (metaInsert c k e).handTest = c.handTest := by
      simp only [metaInsert, hH]
    have hCp : (metaInsert c k e).handCold =
        (if c.handCold = some hh then
          c.handCold.map (fun k' => ringPrev (linkAfter c.ring hh k) k')
        else c.handCold) := by
      simp only [metaInsert, hH]
    have hpermR : (linkAfter c.ring hh k).Perm (k :: c.ring) := linkAfter_perm c.ring hh k
    have hRne : linkAfter c.ring hh k ≠ [] := by
      intro h0
      have hlen := hpermR.length_eq
      rw [h0] at hlen
      simp at hlen
    have hmemR : ∀ k0, k0 ∈ c.ring → k0 ∈ linkAfter c.ring hh k := by
      intro k0 hk0
      exact hpermR.mem_iff.mpr (List.mem_cons_of_mem _ hk0)
    refine ⟨hnn, hgh, ?_, ?_, ?_, ?_, ?_, ?_, ?_, ?_⟩
    · rw [hR, hEnt, map_fst_putKV_none habs]
      exact hpermR.trans ((h.perm.cons k).trans (List.perm_append_singleton k _).symm)
    · rw [hR]
      exact hpermR.symm.nodup (List.nodup_cons.mpr ⟨hknotring, h.nodup⟩)
    · rw [hHp, hR]
      constructor
      · intro h0
        exact absurd h0 (by simp)
      · intro h0
        exact absurd h0 hRne
    · rw [hCp, hR]
      constructor
      · intro h0
        by_cases hC : c.handCold = some hh
        · rw [if_pos hC, hC] at h0
          exact absurd h0 (by simp)
        · rw [if_neg hC] at h0
          exact absurd (h.coldNone.mp h0) hringne
      · intro h0
        exact absurd h0 hRne
    · rw [hTp, hR]
      constructor
      · intro h0
        exact absurd (h.testNone.mp h0) hringne
      · intro h0
        exact absurd h0 hRne
    · intro k0 hk0
      rw [hHp] at hk0
      obtain rfl : hh = k0 := by injection hk0
      rw [hR]
      exact hmemR hh (h.hotMem hh hH)
    · intro k0 hk0
      rw [hCp] at hk0
      rw [hR]
      by_cases hC : c.handCold = some hh
      · rw [if_pos hC, hC] at hk0
        simp only [Option.map_some'] at hk0
        obtain rfl : ringPrev (linkAfter c.ring hh k) hh = k0 := by injection hk0
        exact ringPrev_mem (hmemR hh (h.hotMem hh hH))
      · rw [if_neg hC] at hk0
        exact hmemR k0 (h.coldMem k0 hk0)
    · intro k0 hk0
      rw [hTp] at hk0
      rw [hR]
      exact hmemR k0 (h.testMem k0 hk0)

/-- The invariant after a cold insertion (metaAdd accepted a new cold entry
and Set bumped the cold counters). -/
theorem INV_insert_cold {c : Shard} {k : CKey} {e : Entry} (h : INV c)
    (habs : lookupKV c.entries k = none) (hsz : 0 ≤ e.size)
    (hty : e.ptype = .etCold) (hval : e.val ≠ none) :
    INV { metaInsert c k e with
        sizeCold := (metaInsert c k e).sizeCold + e.size
        countCold := (metaInsert c k e).countCold + 1 } := by
  have hghost : e.val = none ↔ e.ptype = .etTest := by
    constructor
    · intro hv
      exact absurd hv hval
    · intro ht
      rw [hty] at ht
      exact absurd ht (by decide)
  have hS := SINV_metaInsert h.toSINV habs hsz hghost
  refine ⟨@SINV_congr (metaInsert c k e) _ rfl rfl rfl rfl rfl hS, ?_, ?_, ?_, ?_, ?_, ?_⟩
  · show c.countHot = cntOf .etHot (putKV c.entries k e)
    rw [cntOf_putKV .etHot habs, (by simp [contribC, hty] : contribC .etHot e = 0), ← h.cHot]
    omega
  · show c.countCold + 1 = cntOf .etCold (putKV c.entries k e)
    rw [cntOf_putKV .etCold habs, (by simp [contribC, hty] : contribC .etCold e = 1), ← h.cCold]
  · show c.countTest = cntOf .etTest (putKV c.entries k e)
    rw [cntOf_putKV .etTest habs, (by simp [contribC, hty] : contribC .etTest e = 0), ← h.cTest]
    omega
  · show c.sizeHot = szOf .etHot (putKV c.entries k e)
    rw [szOf_putKV .etHot habs, (by simp [contrib, hty] : contrib .etHot e = 0), ← h.sHot]
    omega
  · show c.sizeCold + e.size = szOf .etCold (putKV c.entries k e)
    rw [szOf_putKV .etCold habs, (by simp [contrib, hty] : contrib .etCold e = e.size), ← h.sCold]
  · show c.sizeTest = szOf .etTest (putKV c.entries k e)
    rw [szOf_putKV .etTest habs, (by simp [contrib, hty] : contrib .etTest e = 0), ← h.sTest]
    omega

/-- The invariant after a hot insertion (Set on a test-page hit re-adds the
entry as hot and bumps the hot counters). -/
theorem INV_insert_hot {c : Shard} {k : CKey} {e : Entry} (h : INV c)
    (habs : lookupKV c.entries k = none) (hsz : 0 ≤ e.size)
    (hty : e.ptype = .etHot) (hval : e.val ≠ none) :
    INV { metaInsert c k e with
        sizeHot := (metaInsert c k e).sizeHot + e.size
        countHot := (metaInsert c k e).countHot + 1 } := by
  have hghost : e.val = none ↔ e.ptype = .etTest := by
    constructor
    · intro hv
      exact absurd hv hval
    · intro ht
      rw [hty] at ht
      exact absurd ht (by decide)
  have hS := SINV_metaInsert h.toSINV habs hsz hghost
  refine ⟨@SINV_congr (metaInsert c k e) _ rfl rfl rfl rfl rfl hS, ?_, ?_, ?_, ?_, ?_, ?_⟩
  · show c.countHot + 1 = cntOf .etHot (putKV c.entries k e)
    rw [cntOf_putKV .etHot habs, (by simp [contribC, hty] : contribC .etHot e = 1), ← h.cHot]
  · show c.countCold = cntOf .etCold (putKV c.entries k e)
    rw [cntOf_putKV .etCold habs, (by simp [contribC, hty] : contribC .etCold e = 0), ← h.cCold]
    omega
  · show c.countTest = cntOf .etTest (putKV c.entries k e)
    rw [cntOf_putKV .etTest habs, (by simp [contribC, hty] : contribC .etTest e = 0), ← h.cTest]
    omega
  · show c.sizeHot + e.size = szOf .etHot (putKV c.entries k e)
    rw [szOf_putKV .etHot habs, (by simp [contrib, hty] : contrib .etHot e = e.size), ← h.sHot]
  · show c.sizeCold = szOf .etCold (putKV c.entries k e)
    rw [szOf_putKV .etCold habs, (by simp [contrib, hty] : contrib .etCold e = 0), ← h.sCold]
    omega
  · show c.sizeTest = szOf .etTest (putKV c.entries k e)
    rw [szOf_putKV .etTest habs, (by simp [contrib, hty] : contrib .etTest e = 0), ← h.sTest]
    omega

/-- The invariant only constrains the map, ring, hands and counters. -/
theorem INV_frame {c b : Shard} (he : b.entries = c.entries) (hr : b.ring = c.ring)
    (h1 : b.handHot = c.handHot) (h2 : b.handCold = c.handCold)
    (h3 : b.handTest = c.handTest)
    (q1 : b.countHot = c.countHot) (q2 : b.countCold = c.countCold)
    (q3 : b.countTest = c.countTest) (q4 : b.sizeHot = c.sizeHot)
    (q5 : b.sizeCold = c.sizeCold) (q6 : b.sizeTest = c.sizeTest)
    (h : INV c) : INV b := by
  refine ⟨SINV_congr he hr h1 h2 h3 h.toSINV, ?_, ?_, ?_, ?_, ?_, ?_⟩
  · rw [q1, he]; exact h.cHot
  · rw [q2, he]; exact h.cCold
  · rw [q3, he]; exact h.cTest
  · rw [q4, he]; exact h.sHot
  · rw [q5, he]; exact h.sCold
  · rw [q6, he]; exact h.sTest

theorem INV_Get {c : Shard} (k : CKey) (h : INV c) : INV (Get c k).1 := by
  cases hl : lookupKV c.entries k with
  | none =>
    simp only [Get, hl]
    exact @INV_frame c _ rfl rfl rfl rfl rfl rfl rfl rfl rfl rfl rfl h
  | some e =>
    cases hv : e.val with
    | none =>
      simp only [Get, hl, hv]
      exact @INV_frame c _ rfl rfl rfl rfl rfl rfl rfl rfl rfl rfl rfl h
    | some v =>
      simp only [Get, hl, hv]
      have hq : ∀ t, contribC t ({ e with referenced := true }) = contribC t e := by
        intro t
        simp [contribC]
      have hq2 : ∀ t, contrib t ({ e with referenced := true }) = contrib t e := by
        intro t
        simp [contrib]
      refine ⟨SINV_update h.toSINV h.keysNodup hl rfl rfl rfl rfl rfl (fun hs => hs)
        (fun hg => hg), ?_, ?_, ?_, ?_, ?_, ?_⟩
      · show c.countHot = cntOf .etHot (updateKV (fun e' => { e' with referenced := true }) c.entries k)
        rw [cntOf_updateKV .etHot hl, hq, ← h.cHot]
        omega
      · show c.countCold = cntOf .etCold (updateKV (fun e' => { e' with referenced := true }) c.entries k)
        rw [cntOf_updateKV .etCold hl, hq, ← h.cCold]
        omega
      · show c.countTest = cntOf .etTest (updateKV (fun e' => { e' with referenced := true }) c.entries k)
        rw [cntOf_updateKV .etTest hl, hq, ← h.cTest]
        omega
      · show c.sizeHot = szOf .etHot (updateKV (fun e' => { e' with referenced := true }) c.entries k)
        rw [szOf_updateKV .etHot hl, hq2, ← h.sHot]
        omega
      · show c.sizeCold = szOf .etCold (updateKV (fun e' => { e' with referenced := true }) c.entries k)
        rw [szOf_updateKV .etCold hl, hq2, ← h.sCold]
        omega
      · show c.sizeTest = szOf .etTest (updateKV (fun e' => { e' with referenced := true }) c.entries k)
        rw [szOf_updateKV .etTest hl, hq2, ← h.sTest]
        omega

/-- The resident-page branch of Set: replace the value, set the reference
bit, update the size, and compensate the counters of the entry's category. -/
theorem INV_setResident {c : Shard} {k : CKey} {e : Entry} {v : Value} (h : INV c)
    (hl : lookupKV c.entries k = some e) (hval : e.val ≠ none) :
    INV (if e.ptype = .etHot then
          { c with
              entries := updateKV (fun e' =>
                { e' with val := some v, referenced := true, size := (v.buf.length : Int) })
                c.entries k
              sizeHot := c.sizeHot + ((v.buf.length : Int) - e.size) }
        else
          { c with
              entries := updateKV (fun e' =>
                { e' with val := some v, referenced := true, size := (v.buf.length : Int) })
                c.entries k
              sizeCold := c.sizeCold + ((v.buf.length : Int) - e.size) }) := by
  have hnt : e.ptype ≠ .etTest := by
    intro ht
    exact hval ((h.ghost _ (lookupKV_mem hl)).mpr ht)
  have hgh : (e.val = none ↔ e.ptype = .etTest) →
      ((some v : Option Value) = none ↔ e.ptype = .etTest) := by
    intro _
    constructor
    · intro hh
      exact absurd hh (by simp)
    · intro hh
      exact absurd hh hnt
  have hsz : 0 ≤ e.size → 0 ≤ ((v.buf.length : Int)) := by
    intro _
    exact Int.ofNat_nonneg _
  by_cases hty : e.ptype = .etHot
  · rw [if_pos hty]
    refine ⟨SINV_update h.toSINV h.keysNodup hl rfl rfl rfl rfl rfl hsz hgh,
      ?_, ?_, ?_, ?_, ?_, ?_⟩
    · show c.countHot = cntOf .etHot _
      rw [cntOf_updateKV .etHot hl, (by simp [contribC, hty] : contribC .etHot e = 1),
        (by simp [contribC, hty] : contribC .etHot
          ({ e with val := some v, referenced := true, size := (v.buf.length : Int) }) = 1),
        ← h.cHot]
      omega
    · show c.countCold = cntOf .etCold _
      rw [cntOf_updateKV .etCold hl, (by simp [contribC, hty] : contribC .etCold e = 0),
        (by simp [contribC, hty] : contribC .etCold
          ({ e with val := some v, referenced := true, size := (v.buf.length : Int) }) = 0),
        ← h.cCold]
      omega
    · show c.countTest = cntOf .etTest _
      rw [cntOf_updateKV .etTest hl, (by simp [contribC, hty] : contribC .etTest e = 0),
        (by simp [contribC, hty] : contribC .etTest
          ({ e with val := some v, referenced := true, size := (v.buf.length : Int) }) = 0),
        ← h.cTest]
      omega
    · show c.sizeHot + ((v.buf.length : Int) - e.size) = szOf .etHot _
      rw [szOf_updateKV .etHot hl, (by simp [contrib, hty] : contrib .etHot e = e.size),
        (by simp [contrib, hty] : contrib .etHot
          ({ e with val := some v, referenced := true, size := (v.buf.length : Int) }) =
          (v.buf.length : Int)),
        ← h.sHot]
      omega
    · show c.sizeCold = szOf .etCold _
      rw [szOf_updateKV .etCold hl, (by simp [contrib, hty] : contrib .etCold e = 0),
        (by simp [contrib, hty] : contrib .etCold
          ({ e with val := some v, referenced := true, size := (v.buf.length : Int) }) = 0),
        ← h.sCold]
      omega
    · show c.sizeTest = szOf .etTest _
      rw [szOf_updateKV .etTest hl, (by simp [contrib, hty] : contrib .etTest e = 0),
        (by simp [contrib, hty] : contrib .etTest
          ({ e with val := some v, referenced := true, size := (v.buf.length : Int) }) = 0),
        ← h.sTest]
      omega
  · rw [if_neg hty]
    have hcold : e.ptype = .etCold := by
      cases hp : e.ptype
      · exact absurd hp hty
      · rfl
      · exact absurd hp hnt
    refine ⟨SINV_update h.toSINV h.keysNodup hl rfl rfl rfl rfl rfl hsz hgh,
      ?_, ?_, ?_, ?_, ?_, ?_⟩
    · show c.countHot = cntOf .etHot _
      rw [cntOf_updateKV .etHot hl, (by simp [contribC, hcold] : contribC .etHot e = 0),
        (by simp [contribC, hcold] : contribC .etHot
          ({ e with val := some v, referenced := true, size := (v.buf.length : Int) }) = 0),
        ← h.cHot]
      omega
    · show c.countCold = cntOf .etCold _
      rw [cntOf_updateKV .etCold hl, (by simp [contribC, hcold] : contribC .etCold e = 1),
        (by simp [contribC, hcold] : contribC .etCold
          ({ e with val := some v, referenced := true, size := (v.buf.length : Int) }) = 1),
        ← h.cCold]
      omega
    · show c.countTest = cntOf .etTest _
      rw [cntOf_updateKV .etTest hl, (by simp [contribC, hcold] : contribC .etTest e = 0),
        (by simp [contribC, hcold] : contribC .etTest
          ({ e with val := some v, referenced := true, size := (v.buf.length : Int) }) = 0),
        ← h.cTest]
      omega
    · show c.sizeHot = szOf .etHot _
      rw [szOf_updateKV .etHot hl, (by simp [contrib, hcold] : contrib .etHot e = 0),
        (by simp [contrib, hcold] : contrib .etHot
          ({ e with val := some v, referenced := true, size := (v.buf.length : Int) }) = 0),
        ← h.sHot]
      omega
    · show c.sizeCold + ((v.buf.length : Int) - e.size) = szOf .etCold _
      rw [szOf_updateKV .etCold hl, (by simp [contrib, hcold] : contrib .etCold e = e.size),
        (by simp [contrib, hcold] : contrib .etCold
          ({ e with val := some v, referenced := true, size := (v.buf.length : Int) }) =
          (v.buf.length : Int)),
        ← h.sCold]
      omega
    · show c.sizeTest = szOf .etTest _
      rw [szOf_updateKV .etTest hl, (by simp [contrib, hcold] : contrib .etTest e = 0),
        (by simp [contrib, hcold] : contrib .etTest
          ({ e with val := some v, referenced := true, size := (v.buf.length : Int) }) = 0),
        ← h.sTest]
      omega

/-- After metaDel, the deleted key is gone. -/
theorem lookup_metaDel_self {c : Shard} {k : CKey}
    (hnd : (c.entries.map Prod.fst).Nodup) :
    lookupKV (metaDel c k).1.entries k = none := by
  cases hl : lookupKV c.entries k with
  | none => simp only [metaDel, hl]
  | some e =>
    have : (metaDel c k).1.entries = eraseKV c.entries k := by rw [metaDel_eq hl]
    rw [this]
    exact lookupKV_eraseKV_self hnd

/-- Shared specification of a completed Set: the invariant is preserved, the
returned handle wraps the caller's value, the resident size exceeds
targetSize by at most the set value's size, and the key's entry (if it
still has a value) holds the caller's value. -/
theorem Set_spec {n : Nat} {c c' : Shard} {k : CKey} {v : Value} {hd : Option Value}
    (hs : Set n c k v = .ok (c', hd)) (hi : INV c) :
    INV c' ∧ hd = some v ∧
      c'.sizeHot + c'.sizeCold ≤ targetSize c' + (v.buf.length : Int) ∧
      (∀ e', lookupKV c'.entries k = some e' → e'.val ≠ none → e'.val = some v) := by
  have hlen : (0 : Int) ≤ (v.buf.length : Int) := Int.ofNat_nonneg _
  cases hl : lookupKV c.entries k with
  | none =>
    simp only [Set, hl] at hs
    split at hs
    · -- metaAdd accepted a new cold entry
      rename_i c1 heq
      cases hev : evict n c with
      | ok cE =>
        have hiE : INV cE := INV_evict hev hi
        have habsE : lookupKV cE.entries k = none := keysLe_evict hev hi k hl
        rw [metaAdd_eq k _ hev] at heq
        split at heq
        · simp at heq
        · injection heq with h1
          injection h1 with ha hb
          subst ha
          split at hs
          · rename_i hcc
            injection hs with h2
            injection h2 with hc hh
            subst hc
            subst hh
            refine ⟨INV_insert_cold hiE habsE hlen rfl (by simp), rfl, ?_, ?_⟩
            · show cE.sizeHot + (cE.sizeCold + (v.buf.length : Int)) ≤
                targetSize cE + (v.buf.length : Int)
              have hsum := evict_post hev hi
              omega
            · intro e' hle' hv'
              have hle2 : lookupKV (putKV cE.entries k
                  ({ size := (v.buf.length : Int), ptype := .etCold, referenced := false, val := some v } : Entry)) k = some e' := hle'
              rw [lookupKV_putKV_self] at hle2
              injection hle2 with h0
              rw [← h0]
          · simp at hs
      | panicked =>
        have hx : metaAdd n c k ({ size := (v.buf.length : Int), ptype := .etCold, referenced := false, val := some v } : Entry) = .panicked := by
          simp only [metaAdd, hev]
        rw [hx] at heq
        simp at heq
      | oof =>
        have hx : metaAdd n c k ({ size := (v.buf.length : Int), ptype := .etCold, referenced := false, val := some v } : Entry) = .oof := by
          simp only [metaAdd, hev]
        rw [hx] at heq
        simp at heq
    · -- metaAdd declined the oversized entry
      rename_i c1 heq
      cases hev : evict n c with
      | ok cE =>
        have hiE : INV cE := INV_evict hev hi
        have habsE : lookupKV cE.entries k = none := keysLe_evict hev hi k hl
        rw [metaAdd_eq k _ hev] at heq
        split at heq
        · injection heq with h1
          injection h1 with ha hb
          subst ha
          split at hs
          · rename_i hcc
            injection hs with h2
            injection h2 with hc hh
            subst hc
            subst hh
            have hsum := evict_post hev hi
            refine ⟨hiE, rfl, by omega, ?_⟩
            intro e' hle' hv'
            rw [habsE] at hle'
            exact absurd hle' (by simp)
          · simp at hs
        · simp at heq
      | panicked =>
        have hx : metaAdd n c k ({ size := (v.buf.length : Int), ptype := .etCold, referenced := false, val := some v } : Entry) = .panicked := by
          simp only [metaAdd, hev]
        rw [hx] at heq
        simp at heq
      | oof =>
        have hx : metaAdd n c k ({ size := (v.buf.length : Int), ptype := .etCold, referenced := false, val := some v } : Entry) = .oof := by
          simp only [metaAdd, hev]
        rw [hx] at heq
        simp at heq
    · simp at hs
    · simp at hs
  | some e =>
    simp only [Set, hl] at hs
    by_cases hveq : e.val = none
    · -- test (ghost) page
      rw [if_neg (fun hC => hC hveq)] at hs
      have hty : e.ptype = .etTest := (hi.ghost _ (lookupKV_mem hl)).mp hveq
      have hi2 : INV ((metaDel (dropTest c e) k).1) := by
        have hh : (metaDel (dropTest c e) k).1 = (metaEvict c k).1 := by
          simp only [metaEvict, hl, hty, dropTest]
        rw [hh]
        exact INV_metaEvict k hi
      have habs2 : lookupKV ((metaDel (dropTest c e) k).1).entries k = none :=
        lookup_metaDel_self hi.keysNodup
      split at hs
      · -- metaAdd accepted the hot re-insert
        rename_i c1 heq
        simp only [metaAdd] at heq
        split at heq
        · rename_i cE hev
          have hi3 : INV cE :=
            INV_evict hev (@INV_frame ((metaDel (dropTest c e) k).1) _ rfl rfl rfl rfl rfl rfl rfl rfl rfl rfl rfl hi2)
          have habsE : lookupKV cE.entries k = none :=
            keysLe_evict hev (@INV_frame ((metaDel (dropTest c e) k).1) _ rfl rfl rfl rfl rfl rfl rfl rfl rfl rfl rfl hi2)
              k habs2
          split at heq
          · simp at heq
          · injection heq with h1
            injection h1 with ha hb
            subst ha
            split at hs
            · rename_i hcc
              injection hs with h2
              injection h2 with hc hh
              subst hc
              subst hh
              refine ⟨INV_insert_hot hi3 habsE hlen rfl (by simp), rfl, ?_, ?_⟩
              · show cE.sizeHot + (v.buf.length : Int) + cE.sizeCold ≤
                  targetSize cE + (v.buf.length : Int)
                have hsum := evict_post hev
                  (@INV_frame ((metaDel (dropTest c e) k).1) _ rfl rfl rfl rfl rfl rfl rfl rfl rfl rfl rfl hi2)
                omega
              · intro e' hle' hv'
                have hle2 : lookupKV (putKV cE.entries k
                    ({ size := (v.buf.length : Int), ptype := .etHot, referenced := false, val := some v } : Entry)) k = some e' := hle'
                rw [lookupKV_putKV_self] at hle2
                injection hle2 with h0
                rw [← h0]
            · simp at hs
        · simp at heq
        · simp at heq
      · -- metaAdd declined the hot re-insert
        rename_i c1 heq
        simp only [metaAdd] at heq
        split at heq
        · rename_i cE hev
          have hi3 : INV cE :=
            INV_evict hev (@INV_frame ((metaDel (dropTest c e) k).1) _ rfl rfl rfl rfl rfl rfl rfl rfl rfl rfl rfl hi2)
          have habsE : lookupKV cE.entries k = none :=
            keysLe_evict hev (@INV_frame ((metaDel (dropTest c e) k).1) _ rfl rfl rfl rfl rfl rfl rfl rfl rfl rfl rfl hi2)
              k habs2
          split at heq
          · injection heq with h1
            injection h1 with ha hb
            subst ha
            split at hs
            · rename_i hcc
              injection hs with h2
              injection h2 with hc hh
              subst hc
              subst hh
              have hsum := evict_post hev
                (@INV_frame ((metaDel (dropTest c e) k).1) _ rfl rfl rfl rfl rfl rfl rfl rfl rfl rfl rfl hi2)
              refine ⟨hi3, rfl, by omega, ?_⟩
              intro e' hle' hv'
              rw [habsE] at hle'
              exact absurd hle' (by simp)
            · simp at hs
          · simp at heq
        · simp at heq
        · simp at heq
      · simp at hs
      · simp at hs
    · -- resident (hot or cold) page
      rw [if_pos hveq] at hs
      split at hs
      · rename_i c3 hev
        have hiR : INV c3 := INV_evict hev (INV_setResident hi hl hveq)
        have hvl : valLe _ c3 := valLe_evict hev (INV_setResident hi hl hveq)
        split at hs
        · rename_i hcc
          injection hs with h2
          injection h2 with hc hh
          subst hc
          subst hh
          refine ⟨hiR, rfl, ?_, ?_⟩
          · have hsum := evict_post hev (INV_setResident hi hl hveq)
            omega
          · intro e' hle' hv'
            obtain ⟨e0, hle0, hval0⟩ := hvl k e' hle' hv'
            by_cases hty : e.ptype = .etHot
            · have hle1 : lookupKV (updateKV (fun e1 =>
                  { e1 with val := some v, referenced := true, size := (v.buf.length : Int) })
                  c.entries k) k = some e0 := by
                rw [if_pos hty] at hle0
                exact hle0
              rw [lookupKV_updateKV_self hl] at hle1
              injection hle1 with h0
              rw [← hval0, ← h0]
            · have hle1 : lookupKV (updateKV (fun e1 =>
                  { e1 with val := some v, referenced := true, size := (v.buf.length : Int) })
                  c.entries k) k = some e0 := by
                rw [if_neg hty] at hle0
                exact hle0
              rw [lookupKV_updateKV_self hl] at hle1
              injection hle1 with h0
              rw [← hval0, ← h0]
        · simp at hs
      · simp at hs
      · simp at hs

/-- metaEvict never increases the resident size and never changes the
budget fields. -/
theorem metaEvict_sums {c : Shard} (k : CKey) (hi : INV c) :
    (metaEvict c k).1.sizeHot + (metaEvict c k).1.sizeCold ≤ c.sizeHot + c.sizeCold ∧
      targetSize (metaEvict c k).1 = targetSize c := by
  cases hl : lookupKV c.entries k with
  | none =>
    simp only [metaEvict, hl]
    exact ⟨le_refl _, by trivial⟩
  | some e =>
    have hsz : 0 ≤ e.size := hi.nonneg _ (lookupKV_mem hl)
    cases hty : e.ptype with
    | etHot =>
      have hred : (metaEvict c k).1 = (metaDel (dropHot c e) k).1 := by
        simp only [metaEvict, dropHot, hl, hty]
      have hl1 : lookupKV (dropHot c e).entries k = some e := hl
      have h1 : (metaDel (dropHot c e) k).1.sizeHot = c.sizeHot - e.size := by
        rw [metaDel_eq hl1]; rfl
      have h2 : (metaDel (dropHot c e) k).1.sizeCold = c.sizeCold := by
        rw [metaDel_eq hl1]; rfl
      have h3 : (metaDel (dropHot c e) k).1.maxSize = c.maxSize := by
        rw [metaDel_eq hl1]; rfl
      have h4 : (metaDel (dropHot c e) k).1.reservedSize = c.reservedSize := by
        rw [metaDel_eq hl1]; rfl
      rw [hred]
      constructor
      · rw [h1, h2]
        omega
      · unfold targetSize
        rw [h3, h4]
    | etCold =>
      have hred : (metaEvict c k).1 = (metaDel (dropCold c e) k).1 := by
        simp only [metaEvict, dropCold, hl, hty]
      have hl1 : lookupKV (dropCold c e).entries k = some e := hl
      have h1 : (metaDel (dropCold c e) k).1.sizeHot = c.sizeHot := by
        rw [metaDel_eq hl1]; rfl
      have h2 : (metaDel (dropCold c e) k).1.sizeCold = c.sizeCold - e.size := by
        rw [metaDel_eq hl1]; rfl
      have h3 : (metaDel (dropCold c e) k).1.maxSize = c.maxSize := by
        rw [metaDel_eq hl1]; rfl
      have h4 : (metaDel (dropCold c e) k).1.reservedSize = c.reservedSize := by
        rw [metaDel_eq hl1]; rfl
      rw [hred]
      constructor
      · rw [h1, h2]
        omega
      · unfold targetSize
        rw [h3, h4]
    | etTest =>
      have hred : (metaEvict c k).1 = (metaDel (dropTest c e) k).1 := by
        simp only [metaEvict, dropTest, hl, hty]
      have hl1 : lookupKV (dropTest c e).entries k = some e := hl
      have h1 : (metaDel (dropTest c e) k).1.sizeHot = c.sizeHot := by
        rw [metaDel_eq hl1]; rfl
      have h2 : (metaDel (dropTest c e) k).1.sizeCold = c.sizeCold := by
        rw [metaDel_eq hl1]; rfl
      have h3 : (metaDel (dropTest c e) k).1.maxSize = c.maxSize := by
        rw [metaDel_eq hl1]; rfl
      have h4 : (metaDel (dropTest c e) k).1.reservedSize = c.reservedSize := by
        rw [metaDel_eq hl1]; rfl
      rw [hred]
      constructor
      · rw [h1, h2]
      · unfold targetSize
        rw [h3, h4]

theorem Delete_spec {c c' : Shard} {k : CKey} {dv : Option Value}
    (hs : Delete c k = .ok (c', dv)) (hi : INV c) :
    INV c' ∧ c'.sizeHot + c'.sizeCold ≤ c.sizeHot + c.sizeCold ∧
      targetSize c' = targetSize c := by
  cases hl : lookupKV c.entries k with
  | none =>
    simp only [Delete, hl] at hs
    injection hs with h1
    injection h1 with hc hd
    subst hc
    exact ⟨hi, le_refl _, rfl⟩
  | some e =>
    simp only [Delete, hl] at hs
    split at hs
    · injection hs with h1
      injection h1 with hc hd
      subst hc
      exact ⟨INV_metaEvict k hi, (metaEvict_sums k hi).1, (metaEvict_sums k hi).2⟩
    · simp at hs

theorem evictFileStep_spec :
    ∀ (batch : Nat) (c : Shard) (fkey b : CKey) (acc : List (Option Value))
      (r : Shard × Bool × List (Option Value)),
      evictFileStep batch c fkey b acc = .ok r → INV c →
      INV r.1 ∧ r.1.sizeHot + r.1.sizeCold ≤ c.sizeHot + c.sizeCold ∧
        targetSize r.1 = targetSize c := by
  intro batch
  induction batch with
  | zero =>
    intro c fkey b acc r hs hi
    simp only [evictFileStep] at hs
    injection hs with h1
    rw [← h1]
    exact ⟨hi, le_refl _, rfl⟩
  | succ m ih =>
    intro c fkey b acc r hs hi
    rw [evictFileStep] at hs
    split at hs
    · split at hs
      · injection hs with h1
        rw [← h1]
        exact ⟨INV_metaEvict b hi, (metaEvict_sums b hi).1, (metaEvict_sums b hi).2⟩
      · simp at hs
    · obtain ⟨h1, h2, h3⟩ := ih _ _ _ _ _ hs (INV_metaEvict b hi)
      refine ⟨h1, le_trans h2 (metaEvict_sums b hi).1, h3.trans (metaEvict_sums b hi).2⟩

theorem evictFileRun_spec {c : Shard} {fkey : CKey} {r : Shard × Bool × List (Option Value)}
    (hs : evictFileRun c fkey = .ok r) (hi : INV c) :
    INV r.1 ∧ r.1.sizeHot + r.1.sizeCold ≤ c.sizeHot + c.sizeCold ∧
      targetSize r.1 = targetSize c := by
  unfold evictFileRun at hs
  split at hs
  · injection hs with h1
    rw [← h1]
    exact ⟨hi, le_refl _, rfl⟩
  · split at hs
    · injection hs with h1
      rw [← h1]
      exact ⟨hi, le_refl _, rfl⟩
    · exact evictFileStep_spec 5 c fkey _ [] r hs hi

theorem evictFileLoop_spec :
    ∀ (n : Nat) (c : Shard) (fkey : CKey) (acc : List (Option Value))
      (r : Shard × List (Option Value)),
      evictFileLoop n c fkey acc = .ok r → INV c →
      INV r.1 ∧ r.1.sizeHot + r.1.sizeCold ≤ c.sizeHot + c.sizeCold ∧
        targetSize r.1 = targetSize c := by
  intro n
  induction n with
  | zero =>
    intro c fkey acc r hs hi
    simp [evictFileLoop] at hs
  | succ m ih =>
    intro c fkey acc r hs hi
    rw [evictFileLoop] at hs
    split at hs
    · rename_i c1 vs heq
      obtain ⟨h1, h2, h3⟩ := ih _ _ _ _ hs (evictFileRun_spec heq hi).1
      exact ⟨h1, le_trans h2 (evictFileRun_spec heq hi).2.1,
        h3.trans (evictFileRun_spec heq hi).2.2⟩
    · rename_i c1 vs heq
      injection hs with h1
      rw [← h1]
      exact ⟨(evictFileRun_spec heq hi).1, (evictFileRun_spec heq hi).2.1,
        (evictFileRun_spec heq hi).2.2⟩
    · simp at hs
    · simp at hs

theorem EvictFile_spec {n : Nat} {c c' : Shard} {fkey : CKey} {vs : List (Option Value)}
    (hs : EvictFile n c fkey = .ok (c', vs)) (hi : INV c) :
    INV c' ∧ c'.sizeHot + c'.sizeCold ≤ c.sizeHot + c.sizeCold ∧
      targetSize c' = targetSize c :=
  evictFileLoop_spec n c fkey [] (c', vs) hs hi

theorem Reserve_spec {fuel : Nat} {c c' : Shard} {m : Int}
    (hs : Reserve fuel c m = .ok c') (hi : INV c) :
    INV c' ∧ c'.sizeHot + c'.sizeCold ≤ targetSize c' := by
  simp only [Reserve] at hs
  split at hs
  · rename_i c3 hev
    have hi2 : INV c3 := by
      refine INV_evict hev ?_
      split
      · exact @INV_frame c _ rfl rfl rfl rfl rfl rfl rfl rfl rfl rfl rfl hi
      · exact @INV_frame c _ rfl rfl rfl rfl rfl rfl rfl rfl rfl rfl rfl hi
    split at hs
    · injection hs with h1
      subst h1
      refine ⟨hi2, evict_post hev ?_⟩
      split
      · exact @INV_frame c _ rfl rfl rfl rfl rfl rfl rfl rfl rfl rfl rfl hi
      · exact @INV_frame c _ rfl rfl rfl rfl rfl rfl rfl rfl rfl rfl rfl hi
    · simp at hs
  · simp at hs
  · simp at hs

theorem INV_init (m : Int) : INV (initShard m) := by
  refine ⟨⟨?_, ?_, ?_, ?_, ?_, ?_, ?_, ?_, ?_, ?_⟩, ?_, ?_, ?_, ?_, ?_, ?_⟩
  · intro p hp
    simp [initShard] at hp
  · intro p hp
    simp [initShard] at hp
  · show ([] : List CKey).Perm (([] : List (CKey × Entry)).map Prod.fst)
    simp
  · show ([] : List CKey).Nodup
    simp
  · show (none : Option CKey) = none ↔ ([] : List CKey) = []
    simp
  · show (none : Option CKey) = none ↔ ([] : List CKey) = []
    simp
  · show (none : Option CKey) = none ↔ ([] : List CKey) = []
    simp
  · intro k0 hk0
    exact absurd hk0 (by simp [initShard])
  · intro k0 hk0
    exact absurd hk0 (by simp [initShard])
  · intro k0 hk0
    exact absurd hk0 (by simp [initShard])
  · rfl
  · rfl
  · rfl
  · rfl
  · rfl
  · rfl

/-- Every reachable shard state satisfies the invariant. -/
theorem Reach_INV {s : Shard} (h : Reach s) : INV s := by
  induction h with
  | init m => exact INV_init m
  | get s k hr ih => exact INV_Get k ih
  | set s s' n k v hd hr hs ih => exact (Set_spec hs ih).1
  | del s s' k v hr hs ih => exact (Delete_spec hs ih).1
  | evictFile s s' n fk vs hr hs ih => exact (EvictFile_spec hs ih).1
  | reserve s s' fuel n hr hs ih => exact (Reserve_spec hs ih).1

/-! ### C10 divergence helper -/

/-- On the counter-divergent state cex10 the sweep makes no progress: every
fuel bound runs out in the cycle runHandCold, hotLoop, runHandHot,
runHandTest, runHandCold. -/
theorem cex10_oof : ∀ n : Nat,
    evict n cex10 = .oof ∧ runHandCold n cex10 = .oof ∧ hotLoop n cex10 = .oof ∧
    runHandHot n cex10 = .oof ∧ runHandTest n cex10 = .oof := by
  intro n
  induction n with
  | zero => exact ⟨rfl, rfl, rfl, rfl, rfl⟩
  | succ m ih =>
    obtain ⟨ihe, ihc, ihl, ihh, iht⟩ := ih
    refine ⟨?_, ?_, ?_, ?_, ?_⟩
    · rw [evict_succ,
        if_pos (by decide :
          targetSize cex10 ≤ cex10.sizeHot + cex10.sizeCold ∧ cex10.handCold ≠ none),
        ihc]
    · rw [runHandCold_succ]
      have hstep : (match cex10.handCold with
          | none => Res.ok cex10
          | some k =>
            match lookupKV cex10.entries k with
            | none => Res.ok cex10
            | some e =>
              if e.ptype = EType.etCold then
                if e.referenced then Res.ok (promoteCold cex10 k e)
                else testLoop m (demoteCold cex10 k e)
              else Res.ok cex10) = Res.ok cex10 := rfl
      rw [hstep]
      change (match hotLoop m (advanceCold cex10) with
        | .ok c2 => Res.ok c2
        | .panicked => Res.panicked
        | .oof => Res.oof) = Res.oof
      rw [show advanceCold cex10 = cex10 from by decide, ihl]
    · rw [hotLoop_succ,
        if_pos (by decide :
          targetSize cex10 - cex10.coldTarget ≤ cex10.sizeHot ∧ cex10.handHot ≠ none),
        ihh]
    · rw [runHandHot_succ,
        if_pos (by decide : cex10.handHot = cex10.handTest ∧ cex10.handTest ≠ none),
        iht]
    · rw [runHandTest_succ,
        if_pos (by decide :
          0 < cex10.sizeCold ∧ cex10.handTest = cex10.handCold ∧ cex10.handCold ≠ none),
        if_neg (by decide : ¬cex10.countCold = 0),
        ihc]
/-! ### Small helpers for the claim theorems -/

/-- An under-budget shard makes the eviction sweep an immediate no-op. -/
theorem evict_noop {m : Nat} {c : Shard} (h : c.sizeHot + c.sizeCold < targetSize c) :
    evict (m + 1) c = .ok c := by
  rw [evict_succ, if_neg]
  intro hg
  exact absurd hg.1 (not_le.mpr h)

/-! ### The claims -/

/-- C1 (amended): the budget bound `sizeHot + sizeCold ≤ targetSize` is
re-established by Reserve and by every completed eviction sweep, and the
other operations cannot break it by more than the inserted value: a
completed Set exceeds the budget by at most the set value's size, while
Get, Delete and EvictFile never increase the resident size or change the
target.  It is not an invariant of every quiescent point as claimed: see
the counterexample, a reachable state whose resident size exceeds the
target after a completed Set. -/
theorem C1_budget :
    (∀ (fuel : Nat) (c c' : Shard) (m : Int), Reserve fuel c m = .ok c' → INV c →
        c'.sizeHot + c'.sizeCold ≤ targetSize c') ∧
    (∀ (n : Nat) (c c' : Shard), evict n c = .ok c' → INV c →
        c'.sizeHot + c'.sizeCold ≤ targetSize c') ∧
    (∀ (n : Nat) (c c' : Shard) (k : CKey) (v : Value) (hd : Option Value),
        Set n c k v = .ok (c', hd) → INV c →
        c'.sizeHot + c'.sizeCold ≤ targetSize c' + (v.buf.length : Int)) ∧
    (∀ (c : Shard) (k : CKey),
        (Get c k).1.sizeHot + (Get c k).1.sizeCold = c.sizeHot + c.sizeCold ∧
        targetSize (Get c k).1 = targetSize c) ∧
    (∀ (c c' : Shard) (k : CKey) (dv : Option Value), Delete c k = .ok (c', dv) → INV c →
        c'.sizeHot + c'.sizeCold ≤ c.sizeHot + c.sizeCold ∧ targetSize c' = targetSize c) ∧
    (∀ (n : Nat) (c c' : Shard) (fk : CKey) (vs : List (Option Value)),
        EvictFile n c fk = .ok (c', vs) → INV c →
        c'.sizeHot + c'.sizeCold ≤ c.sizeHot + c.sizeCold ∧ targetSize c' = targetSize c) := by
  refine ⟨?_, ?_, ?_, ?_, ?_, ?_⟩
  · intro fuel c c' m hs hi
    exact (Reserve_spec hs hi).2
  · intro n c c' hs hi
    exact evict_post hs hi
  · intro n c c' k v hd hs hi
    exact (Set_spec hs hi).2.2.1
  · intro c k
    cases hl : lookupKV c.entries k with
    | none =>
      simp only [Get, hl]
      exact ⟨by trivial, by trivial⟩
    | some e =>
      cases hv : e.val with
      | none =>
        simp only [Get, hl, hv]
        exact ⟨by trivial, by trivial⟩
      | some v =>
        simp only [Get, hl, hv]
        exact ⟨by trivial, by trivial⟩
  · intro c c' k dv hs hi
    exact ⟨(Delete_spec hs hi).2.1, (Delete_spec hs hi).2.2⟩
  · intro n c c' fk vs hs hi
    exact ⟨(EvictFile_spec hs hi).2.1, (EvictFile_spec hs hi).2.2⟩

/-- C1 counterexample: st3 is reachable (two completed Sets and a Get on a
fresh 10-byte shard) yet holds 11 resident bytes, over its target size 10:
the claimed invariant fails at a quiescent point after a completed Set. -/
theorem C1_budget_cex :
    Reach st3 ∧ targetSize st3 < st3.sizeHot + st3.sizeCold := by
  constructor
  · refine Reach.set st2 st3 30 (kk 2) (vN 7) (some (vN 7)) ?_ (by decide)
    refine Reach.get st1 (kk 1) ?_
    exact Reach.set st0 st1 30 (kk 1) (vN 4) (some (vN 4)) (Reach.init 10) (by decide)
  · decide

/-- C2 (amended): on every reachable state, for each category a positive
size implies a positive count, and sizes are nonnegative.  The claimed
converse (a positive count implies a positive size) fails for zero-length
buffers: see the counterexample. -/
theorem C2_size_count (s : Shard) (h : Reach s) :
    (0 < s.sizeHot → 0 < s.countHot) ∧ (0 < s.sizeCold → 0 < s.countCold) ∧
    (0 < s.sizeTest → 0 < s.countTest) ∧
    0 ≤ s.sizeHot ∧ 0 ≤ s.sizeCold ∧ 0 ≤ s.sizeTest := by
  have hi := Reach_INV h
  have hnn := hi.nonneg
  refine ⟨?_, ?_, ?_, ?_, ?_, ?_⟩
  · intro hpos
    by_contra hng
    have h1 := cntOf_nonneg EType.etHot s.entries
    have h2 : ¬0 < cntOf EType.etHot s.entries := by
      rw [← hi.cHot]
      exact hng
    have hc0 : cntOf EType.etHot s.entries = 0 := by omega
    have hs0 : s.sizeHot = 0 := by
      rw [hi.sHot]
      exact szOf_eq_zero_of_cntOf_eq_zero hnn hc0
    omega
  · intro hpos
    by_contra hng
    have h1 := cntOf_nonneg EType.etCold s.entries
    have h2 : ¬0 < cntOf EType.etCold s.entries := by
      rw [← hi.cCold]
      exact hng
    have hc0 : cntOf EType.etCold s.entries = 0 := by omega
    have hs0 : s.sizeCold = 0 := by
      rw [hi.sCold]
      exact szOf_eq_zero_of_cntOf_eq_zero hnn hc0
    omega
  · intro hpos
    by_contra hng
    have h1 := cntOf_nonneg EType.etTest s.entries
    have h2 : ¬0 < cntOf EType.etTest s.entries := by
      rw [← hi.cTest]
      exact hng
    have hc0 : cntOf EType.etTest s.entries = 0 := by omega
    have hs0 : s.sizeTest = 0 := by
      rw [hi.sTest]
      exact szOf_eq_zero_of_cntOf_eq_zero hnn hc0
    omega
  · rw [hi.sHot]
    exact szOf_nonneg hnn
  · rw [hi.sCold]
    exact szOf_nonneg hnn
  · rw [hi.sTest]
    exact szOf_nonneg hnn

/-- C2 witness: on the reachable state st1 (one 4-byte cold entry) the
positive cold size forces a positive cold count. -/
theorem C2_size_count_witness : 0 < st1.countCold :=
  (C2_size_count st1
    (Reach.set st0 st1 30 (kk 1) (vN 4) (some (vN 4)) (Reach.init 10) (by decide))).2.1
    (by decide)

/-- C2 counterexample: Set of a zero-length buffer yields a reachable state
with countCold = 1 but sizeCold = 0, refuting sizeCold > 0 ↔ countCold > 0. -/
theorem C2_size_count_cex :
    Reach c2cex ∧ 0 < c2cex.countCold ∧ ¬0 < c2cex.sizeCold := by
  refine ⟨Reach.set (initShard 10) c2cex 5 (kk 1) (vN 0) (some (vN 0))
    (Reach.init 10) (by decide), by decide, by decide⟩

/-- C6: a value admitted by Set and still resident (its entry still holds a
value) is returned by an immediately following Get. -/
theorem C6_set_get_roundtrip {n : Nat} {c c' : Shard} {k : CKey} {v : Value}
    {hd : Option Value} {e : Entry}
    (hs : Set n c k v = .ok (c', hd)) (hi : INV c)
    (hl : lookupKV c'.entries k = some e) (hres : e.val ≠ none) :
    (Get c' k).2 = some v := by
  have hv : e.val = some v := (Set_spec hs hi).2.2.2 e hl hres
  simp only [Get, hl, hv]

/-- C6 witness: on a fresh 10-byte shard, Set k1 with a 4-byte value then
Get k1 returns exactly that value. -/
theorem C6_set_get_roundtrip_witness : (Get st1 (kk 1)).2 = some (vN 4) :=
  @C6_set_get_roundtrip 30 st0 st1 (kk 1) (vN 4) (some (vN 4))
    { size := 4, ptype := .etCold, referenced := false, val := some (vN 4) }
    (by decide) (INV_init 10) (by decide) (by decide)

/-- C7: Delete of an absent key is a no-op: the shard state is returned
unchanged (maps, rings, hands, counters) and no value is released. -/
theorem C7_delete_absent_noop {c : Shard} {k : CKey}
    (habs : lookupKV c.entries k = none) :
    Delete c k = .ok (c, none) := by
  simp only [Delete, habs]

/-- C7 witness: deleting from a fresh shard. -/
theorem C7_delete_absent_noop_witness :
    Delete (initShard 10) (kk 1) = .ok (initShard 10, none) :=
  C7_delete_absent_noop rfl

/-- C9: Get moves no hand, edits no ring and changes no size or count
counter; it touches at most the reference bit of the looked-up entry.  On a
resident entry it sets that bit, counts a hit and returns the value; on an
absent key or a valueless test ghost it counts a miss and returns the
invalid handle with the blocks map untouched. -/
theorem C9_get_frame (c : Shard) (k : CKey) :
    (Get c k).1.handHot = c.handHot ∧ (Get c k).1.handCold = c.handCold ∧
    (Get c k).1.handTest = c.handTest ∧ (Get c k).1.ring = c.ring ∧
    (Get c k).1.files = c.files ∧
    (Get c k).1.sizeHot = c.sizeHot ∧ (Get c k).1.sizeCold = c.sizeCold ∧
    (Get c k).1.sizeTest = c.sizeTest ∧ (Get c k).1.countHot = c.countHot ∧
    (Get c k).1.countCold = c.countCold ∧ (Get c k).1.countTest = c.countTest ∧
    (∀ k0 e0, lookupKV c.entries k0 = some e0 → k0 ≠ k →
        lookupKV (Get c k).1.entries k0 = some e0) ∧
    (∀ e, lookupKV c.entries k = some e → e.val ≠ none →
        (Get c k).2 = e.val ∧ (Get c k).1.hits = c.hits + 1 ∧
        (Get c k).1.misses = c.misses ∧
        lookupKV (Get c k).1.entries k = some { e with referenced := true }) ∧
    (lookupKV c.entries k = none →
        (Get c k).2 = none ∧ (Get c k).1.misses = c.misses + 1 ∧
        (Get c k).1.hits = c.hits ∧ (Get c k).1.entries = c.entries) ∧
    (∀ e, lookupKV c.entries k = some e → e.val = none →
        (Get c k).2 = none ∧ (Get c k).1.misses = c.misses + 1 ∧
        (Get c k).1.hits = c.hits ∧ (Get c k).1.entries = c.entries) := by
  cases hl : lookupKV c.entries k with
  | none =>
    simp only [Get, hl]
    refine ⟨by trivial, by trivial, by trivial, by trivial, by trivial, by trivial,
      by trivial, by trivial, by trivial, by trivial, by trivial, ?_, ?_, ?_, ?_⟩
    · intro k0 e0 h0 _
      exact h0
    · intro e1 he1
      cases he1
    · intro _
      exact ⟨by trivial, by trivial, by trivial, by trivial⟩
    · intro e1 he1
      cases he1
  | some e =>
    cases hv : e.val with
    | none =>
      simp only [Get, hl, hv]
      refine ⟨by trivial, by trivial, by trivial, by trivial, by trivial, by trivial,
        by trivial, by trivial, by trivial, by trivial, by trivial, ?_, ?_, ?_, ?_⟩
      · intro k0 e0 h0 _
        exact h0
      · intro e1 he1 hne
        injection he1 with h2
        rw [← h2] at hne
        exact absurd hv hne
      · intro h0
        cases h0
      · intro e1 he1 _
        exact ⟨by trivial, by trivial, by trivial, by trivial⟩
    | some v =>
      simp only [Get, hl, hv]
      refine ⟨by trivial, by trivial, by trivial, by trivial, by trivial, by trivial,
        by trivial, by trivial, by trivial, by trivial, by trivial, ?_, ?_, ?_, ?_⟩
      · intro k0 e0 h0 hne
        rw [lookupKV_updateKV_ne hne]
        exact h0
      · intro e1 he1 hne
        injection he1 with h2
        refine ⟨?_, by trivial, by trivial, ?_⟩
        · rw [← h2, hv]
        · rw [← h2]
          exact lookupKV_updateKV_self hl
      · intro h0
        cases h0
      · intro e1 he1 hnone
        injection he1 with h2
        rw [← h2] at hnone
        rw [hv] at hnone
        cases hnone

/-- C10 (amended): targetSize is always at least 1, and a completed
eviction sweep always exits under budget or with a cleared cold hand.  The
claimed termination does not follow from the counter-level consistency
conditions alone: see the counterexample, a consistent-looking state on
which the sweep runs forever. -/
theorem C10_sweep :
    (∀ c : Shard, 1 ≤ targetSize c) ∧
    (∀ (n : Nat) (c c' : Shard), evict n c = .ok c' →
        c'.sizeHot + c'.sizeCold < targetSize c' ∨ c'.handCold = none) := by
  constructor
  · intro c
    unfold targetSize
    split <;> omega
  · intro n c c' h
    exact evict_exit h

/-- C10 counterexample: cex10 has nonnegative sizes and counts and passes
the size/count consistency conditions of checkConsistency, yet the eviction
sweep never terminates on it: every fuel bound runs out in the hand cycle. -/
theorem C10_sweep_cex :
    checkConsistency cex10 = true ∧
    0 ≤ cex10.sizeHot ∧ 0 ≤ cex10.sizeCold ∧ 0 ≤ cex10.sizeTest ∧
    0 ≤ cex10.countHot ∧ 0 ≤ cex10.countCold ∧ 0 ≤ cex10.countTest ∧
    (0 < cex10.sizeHot → 0 < cex10.countHot) ∧
    (0 < cex10.sizeCold → 0 < cex10.countCold) ∧
    (0 < cex10.sizeTest → 0 < cex10.countTest) ∧
    (∀ n : Nat, evict n cex10 = .oof) :=
  ⟨by decide, by decide, by decide, by decide, by decide, by decide, by decide,
    by decide, by decide, by decide, fun n => (cex10_oof n).1⟩
/-- A no-op sweep pins down the sweep's result state. -/
theorem evict_noop_eq {m : Nat} {c c' : Shard} (h : evict (m + 1) c = .ok c')
    (hb : c.sizeHot + c.sizeCold < targetSize c) : c' = c := by
  rw [evict_noop hb] at h
  injection h with h1
  exact h1.symm

/-- C4 (amended): a test-hand step (with the cold-hand deferral guard off)
evicts the entry under the hand only when its type tag is test: that
eviction removes it from the blocks map and the shard ring and lowers
coldTarget by its size floored at zero, while an entry of any other type is
left untouched and the hand only advances.  The claimed unconditional
eviction regardless of the type tag fails: see the counterexample. -/
theorem C4_test_hand {n : Nat} {c : Shard} {k : CKey} {e : Entry}
    (hht : c.handTest = some k) (hl : lookupKV c.entries k = some e)
    (hguard : ¬(0 < c.sizeCold ∧ c.handTest = c.handCold ∧ c.handCold ≠ none))
    (hnd : (c.entries.map Prod.fst).Nodup) :
    (e.ptype = .etTest →
        runHandTest (n + 1) c = .ok (advanceTest (evictTest c k e)) ∧
        (evictTest c k e).coldTarget =
          (if c.coldTarget - e.size < 0 then 0 else c.coldTarget - e.size) ∧
        lookupKV (evictTest c k e).entries k = none ∧
        (evictTest c k e).ring = c.ring.erase k) ∧
    (e.ptype ≠ .etTest → runHandTest (n + 1) c = .ok (advanceTest c)) := by
  have hstep : runHandTest (n + 1) c =
      (match c.handTest with
       | none => Res.ok c
       | some k0 =>
         match lookupKV c.entries k0 with
         | none => Res.ok (advanceTest c)
         | some e0 =>
           if e0.ptype = EType.etTest then Res.ok (advanceTest (evictTest c k0 e0))
           else Res.ok (advanceTest c)) := by
    rw [runHandTest_succ, if_neg hguard]
  rw [hht] at hstep
  have hstep2 : runHandTest (n + 1) c =
      (match lookupKV c.entries k with
       | none => Res.ok (advanceTest c)
       | some e0 =>
         if e0.ptype = EType.etTest then Res.ok (advanceTest (evictTest c k e0))
         else Res.ok (advanceTest c)) := hstep
  rw [hl] at hstep2
  have hstep3 : runHandTest (n + 1) c =
      (if e.ptype = EType.etTest then Res.ok (advanceTest (evictTest c k e))
       else Res.ok (advanceTest c)) := hstep2
  have hl1 : lookupKV (dropTestCT c e).entries k = some e := hl
  constructor
  · intro hty
    refine ⟨?_, ?_, ?_, ?_⟩
    · rw [hstep3, if_pos hty]
    · rw [evictTest_eq_metaDel, metaDel_eq hl1]
      rfl
    · rw [evictTest_eq_metaDel]
      exact lookup_metaDel_self hnd
    · rw [evictTest_eq_metaDel, metaDel_eq hl1]
      rfl
  · intro hty
    rw [hstep3, if_neg hty]

/-- C4 witness: at the reachable state st4 the test hand rests on the
resident cold entry k1 and the step only advances the hand. -/
theorem C4_test_hand_witness : runHandTest 1 st4 = .ok (advanceTest st4) :=
  (@C4_test_hand 0 st4 (kk 1)
    { size := 4, ptype := .etCold, referenced := false, val := some (vN 4) }
    (by decide) (by decide) (by decide) (by decide)).2 (by decide)

/-- C4 counterexample: st4 is reachable, its test hand points at the
resident cold entry k1, and the test-hand step leaves the entry in the
blocks map and the ring with coldTarget untouched, only advancing the
hand: the eviction is neither unconditional nor independent of the type
tag. -/
theorem C4_test_hand_cex :
    Reach st4 ∧ st4.handTest = some (kk 1) ∧
    lookupKV st4.entries (kk 1) =
      some { size := 4, ptype := .etCold, referenced := false, val := some (vN 4) } ∧
    runHandTest 1 st4 = .ok (advanceTest st4) ∧
    lookupKV (advanceTest st4).entries (kk 1) =
      some { size := 4, ptype := .etCold, referenced := false, val := some (vN 4) } ∧
    (advanceTest st4).coldTarget = st4.coldTarget ∧
    (advanceTest st4).ring = st4.ring := by
  refine ⟨?_, by decide, by decide, by decide, by decide, by decide, by decide⟩
  refine Reach.set st3 st4 30 (kk 3) (vN 0) (some (vN 0)) ?_ (by decide)
  refine Reach.set st2 st3 30 (kk 2) (vN 7) (some (vN 7)) ?_ (by decide)
  refine Reach.get st1 (kk 1) ?_
  exact Reach.set st0 st1 30 (kk 1) (vN 4) (some (vN 4)) (Reach.init 10) (by decide)

/-- C5 (amended): an oversized Set on an under-budget shard with the key
absent is a complete no-op apart from the returned handle: the shard comes
back unchanged (maps, rings, hands, every counter) and the handle wraps the
caller's value.  Issued on an over-budget shard, the sweep that runs before
the size check does change counters: see the counterexample. -/
theorem C5_oversized_declined {n : Nat} {c : Shard} {k : CKey} {v : Value}
    (hi : INV c) (habs : lookupKV c.entries k = none)
    (hbudget : c.sizeHot + c.sizeCold < targetSize c)
    (hbig : targetSize c < (v.buf.length : Int)) :
    Set (n + 1) c k v = .ok (c, some v) := by
  simp only [Set, habs]
  rw [metaAdd_eq k _ (evict_noop hbudget)]
  have hbig2 : targetSize c <
      ({ size := (v.buf.length : Int), ptype := EType.etCold, referenced := false,
         val := some v } : Entry).size := hbig
  rw [if_pos hbig2]
  change (if checkConsistency c = true then Res.ok (c, some v) else Res.panicked) =
    Res.ok (c, some v)
  rw [if_pos (checkConsistency_of_INV hi)]

/-- C5 witness: an 11-byte Set on the under-budget reachable state st4
(4 resident bytes, target 10) is declined without any state change. -/
theorem C5_oversized_declined_witness :
    Set 4 st4 (kk 9) (vN 11) = .ok (st4, some (vN 11)) := by
  have hr : Reach st4 := by
    refine Reach.set st3 st4 30 (kk 3) (vN 0) (some (vN 0)) ?_ (by decide)
    refine Reach.set st2 st3 30 (kk 2) (vN 7) (some (vN 7)) ?_ (by decide)
    refine Reach.get st1 (kk 1) ?_
    exact Reach.set st0 st1 30 (kk 1) (vN 4) (some (vN 4)) (Reach.init 10) (by decide)
  exact @C5_oversized_declined 3 st4 (kk 9) (vN 11) (Reach_INV hr) (by decide)
    (by decide) (by decide)

/-- C5 counterexample: on the reachable over-budget state st3 an oversized
Set (11 bytes, target 10) is declined with a valid handle and the key stays
absent, but the shard is not left unchanged: the embedded eviction sweep
runs first and shrinks the cold counters (sizeCold 11 to 4, countCold 2
to 1). -/
theorem C5_oversized_declined_cex :
    Reach st3 ∧ lookupKV st3.entries (kk 9) = none ∧
    targetSize st3 < ((vN 11).buf.length : Int) ∧
    Set 30 st3 (kk 9) (vN 11) = .ok (c5s, some (vN 11)) ∧
    lookupKV c5s.entries (kk 9) = none ∧
    c5s.sizeCold ≠ st3.sizeCold ∧ c5s.countCold ≠ st3.countCold := by
  refine ⟨?_, by decide, by decide, by decide, by decide, by decide, by decide⟩
  refine Reach.set st2 st3 30 (kk 2) (vN 7) (some (vN 7)) ?_ (by decide)
  refine Reach.get st1 (kk 1) ?_
  exact Reach.set st0 st1 30 (kk 1) (vN 4) (some (vN 4)) (Reach.init 10) (by decide)
/-- C3 (amended): a completed Set hitting a test ghost removes the ghost
from the test category and re-inserts the key as an unreferenced hot entry
of the new size holding the new value, but it raises coldTarget by the NEW
value's size, clamped at targetSize — not by the ghost's former size as
claimed (see the counterexample).  Stated on an under-budget shard whose
new value fits, so the embedded eviction sweep is a no-op. -/
theorem C3_set_test_ghost {n : Nat} {c c' : Shard} {k : CKey} {e : Entry} {v : Value}
    {hd : Option Value}
    (hs : Set (n + 1) c k v = .ok (c', hd)) (hi : INV c)
    (hl : lookupKV c.entries k = some e) (hghost : e.val = none)
    (hbudget : c.sizeHot + c.sizeCold < targetSize c)
    (hfit : (v.buf.length : Int) ≤ targetSize c) :
    hd = some v ∧
    lookupKV c'.entries k =
      some { size := (v.buf.length : Int), ptype := .etHot, referenced := false,
             val := some v } ∧
    c'.coldTarget = min (c.coldTarget + (v.buf.length : Int)) (targetSize c) ∧
    c'.countTest = c.countTest - 1 ∧ c'.sizeTest = c.sizeTest - e.size ∧
    c'.countHot = c.countHot + 1 ∧ c'.sizeHot = c.sizeHot + (v.buf.length : Int) ∧
    c'.countCold = c.countCold ∧ c'.sizeCold = c.sizeCold := by
  have hty : e.ptype = .etTest := (hi.ghost _ (lookupKV_mem hl)).mp hghost
  have hl1 : lookupKV (dropTest c e).entries k = some e := hl
  have hDsh : ((metaDel (dropTest c e) k).1).sizeHot = c.sizeHot := by
    rw [metaDel_eq hl1]
    rfl
  have hDsc : ((metaDel (dropTest c e) k).1).sizeCold = c.sizeCold := by
    rw [metaDel_eq hl1]
    rfl
  have hDct : ((metaDel (dropTest c e) k).1).coldTarget = c.coldTarget := by
    rw [metaDel_eq hl1]
    rfl
  have hDms : ((metaDel (dropTest c e) k).1).maxSize = c.maxSize := by
    rw [metaDel_eq hl1]
    rfl
  have hDrs : ((metaDel (dropTest c e) k).1).reservedSize = c.reservedSize := by
    rw [metaDel_eq hl1]
    rfl
  have hDst : ((metaDel (dropTest c e) k).1).sizeTest = c.sizeTest - e.size := by
    rw [metaDel_eq hl1]
    rfl
  have hDcte : ((metaDel (dropTest c e) k).1).countTest = c.countTest - 1 := by
    rw [metaDel_eq hl1]
    rfl
  have hDcho : ((metaDel (dropTest c e) k).1).countHot = c.countHot := by
    rw [metaDel_eq hl1]
    rfl
  have hDcco : ((metaDel (dropTest c e) k).1).countCold = c.countCold := by
    rw [metaDel_eq hl1]
    rfl
  have hDtar : targetSize ((metaDel (dropTest c e) k).1) = targetSize c := by
    unfold targetSize
    rw [hDms, hDrs]
  have hi2 : INV ((metaDel (dropTest c e) k).1) := by
    have hh : (metaDel (dropTest c e) k).1 = (metaEvict c k).1 := by
      simp only [metaEvict, hl, hty, dropTest]
    rw [hh]
    exact INV_metaEvict k hi
  have habs2 : lookupKV ((metaDel (dropTest c e) k).1).entries k = none :=
    lookup_metaDel_self hi.keysNodup
  have hsumB : ∀ ct : Int,
      ({ (metaDel (dropTest c e) k).1 with coldTarget := ct } : Shard).sizeHot +
      ({ (metaDel (dropTest c e) k).1 with coldTarget := ct } : Shard).sizeCold <
      targetSize ({ (metaDel (dropTest c e) k).1 with coldTarget := ct } : Shard) := by
    intro ct
    show ((metaDel (dropTest c e) k).1).sizeHot + ((metaDel (dropTest c e) k).1).sizeCold <
      targetSize ((metaDel (dropTest c e) k).1)
    rw [hDsh, hDsc, hDtar]
    exact hbudget
  simp only [Set, hl] at hs
  rw [if_neg (fun hC => hC hghost)] at hs
  rw [show ({ c with sizeTest := c.sizeTest - e.size, countTest := c.countTest - 1 } : Shard)
      = dropTest c e from rfl] at hs
  rw [hDtar, hDct] at hs
  by_cases hclt : targetSize c < c.coldTarget + (v.buf.length : Int)
  · rw [if_pos hclt] at hs
    split at hs
    · rename_i c1 heq
      simp only [metaAdd] at heq
      split at heq
      · rename_i cE hev
        have hce : cE = _ := evict_noop_eq hev (hsumB (targetSize c))
        subst hce
        split at heq
        · rename_i hcond
          have hcond2 : targetSize ((metaDel (dropTest c e) k).1) < (v.buf.length : Int) :=
            hcond
          rw [hDtar] at hcond2
          exact absurd hcond2 (not_lt.mpr hfit)
        · injection heq with h1
          injection h1 with hA hB
          subst hA
          split at hs
          · rename_i hcc
            injection hs with h2
            injection h2 with hc hh
            subst hc
            subst hh
            refine ⟨rfl, ?_, ?_, ?_, ?_, ?_, ?_, ?_, ?_⟩
            · exact lookupKV_putKV_self
            · show targetSize c = min (c.coldTarget + (v.buf.length : Int)) (targetSize c)
              omega
            · exact hDcte
            · exact hDst
            · show ((metaDel (dropTest c e) k).1).countHot + 1 = c.countHot + 1
              rw [hDcho]
            · show ((metaDel (dropTest c e) k).1).sizeHot + (v.buf.length : Int) =
                c.sizeHot + (v.buf.length : Int)
              rw [hDsh]
            · exact hDcco
            · exact hDsc
          · simp at hs
      · simp at heq
      · simp at heq
    · rename_i c1 heq
      simp only [metaAdd] at heq
      split at heq
      · rename_i cE hev
        have hce : cE = _ := evict_noop_eq hev (hsumB (targetSize c))
        subst hce
        split at heq
        · rename_i hcond
          have hcond2 : targetSize ((metaDel (dropTest c e) k).1) < (v.buf.length : Int) :=
            hcond
          rw [hDtar] at hcond2
          exact absurd hcond2 (not_lt.mpr hfit)
        · simp at heq
      · simp at heq
      · simp at heq
    · simp at hs
    · simp at hs
  · rw [if_neg hclt] at hs
    split at hs
    · rename_i c1 heq
      simp only [metaAdd] at heq
      split at heq
      · rename_i cE hev
        have hce : cE = _ :=
          evict_noop_eq hev (hsumB (c.coldTarget + (v.buf.length : Int)))
        subst hce
        split at heq
        · rename_i hcond
          have hcond2 : targetSize ((metaDel (dropTest c e) k).1) < (v.buf.length : Int) :=
            hcond
          rw [hDtar] at hcond2
          exact absurd hcond2 (not_lt.mpr hfit)
        · injection heq with h1
          injection h1 with hA hB
          subst hA
          split at hs
          · rename_i hcc
            injection hs with h2
            injection h2 with hc hh
            subst hc
            subst hh
            refine ⟨rfl, ?_, ?_, ?_, ?_, ?_, ?_, ?_, ?_⟩
            · exact lookupKV_putKV_self
            · show c.coldTarget + (v.buf.length : Int) =
                min (c.coldTarget + (v.buf.length : Int)) (targetSize c)
              omega
            · exact hDcte
            · exact hDst
            · show ((metaDel (dropTest c e) k).1).countHot + 1 = c.countHot + 1
              rw [hDcho]
            · show ((metaDel (dropTest c e) k).1).sizeHot + (v.buf.length : Int) =
                c.sizeHot + (v.buf.length : Int)
              rw [hDsh]
            · exact hDcco
            · exact hDsc
          · simp at hs
      · simp at heq
      · simp at heq
    · rename_i c1 heq
      simp only [metaAdd] at heq
      split at heq
      · rename_i cE hev
        have hce : cE = _ :=
          evict_noop_eq hev (hsumB (c.coldTarget + (v.buf.length : Int)))
        subst hce
        split at heq
        · rename_i hcond
          have hcond2 : targetSize ((metaDel (dropTest c e) k).1) < (v.buf.length : Int) :=
            hcond
          rw [hDtar] at hcond2
          exact absurd hcond2 (not_lt.mpr hfit)
        · simp at heq
      · simp at heq
      · simp at heq
    · simp at hs
    · simp at hs
/-- C3 witness: the amended theorem applied to the reachable ghost state
st6 and the 2-byte re-Set of the ghost k1. -/
theorem C3_set_test_ghost_witness :
    st7c3.coldTarget = min (st6.coldTarget + ((vN 2).buf.length : Int)) (targetSize st6) ∧
    lookupKV st7c3.entries (kk 1) =
      some { size := ((vN 2).buf.length : Int), ptype := .etHot, referenced := false,
             val := some (vN 2) } ∧
    st7c3.countHot = st6.countHot + 1 := by
  have hr : Reach st6 := by
    refine Reach.set st5 st6 30 (kk 5) (vN 1) (some (vN 1)) ?_ (by decide)
    refine Reach.set st4 st5 30 (kk 4) (vN 7) (some (vN 7)) ?_ (by decide)
    refine Reach.set st3 st4 30 (kk 3) (vN 0) (some (vN 0)) ?_ (by decide)
    refine Reach.set st2 st3 30 (kk 2) (vN 7) (some (vN 7)) ?_ (by decide)
    refine Reach.get st1 (kk 1) ?_
    exact Reach.set st0 st1 30 (kk 1) (vN 4) (some (vN 4)) (Reach.init 10) (by decide)
  have h := @C3_set_test_ghost 29 st6 st7c3 (kk 1)
    { size := 4, ptype := .etTest, referenced := false, val := none } (vN 2)
    (some (vN 2)) (by decide) (Reach_INV hr) (by decide) (by decide) (by decide)
    (by decide)
  exact ⟨h.2.2.1, h.2.1, h.2.2.2.2.2.1⟩

/-- C3 counterexample: st6 is reachable and holds the test ghost k1 of
former size 4, with coldTarget 3 and target size 10; Setting k1 with a
2-byte value leaves coldTarget at 5 = 3 + 2 (increment by the new size),
not at 7 = 3 + 4 (increment by the ghost's former size, as claimed). -/
theorem C3_set_test_ghost_cex :
    Reach st6 ∧
    lookupKV st6.entries (kk 1) =
      some { size := 4, ptype := .etTest, referenced := false, val := none } ∧
    st6.coldTarget = 3 ∧ targetSize st6 = 10 ∧
    Set 30 st6 (kk 1) (vN 2) = .ok (st7c3, some (vN 2)) ∧
    st7c3.coldTarget = 5 ∧
    min (st6.coldTarget + 4) (targetSize st6) = 7 := by
  refine ⟨?_, by decide, by decide, by decide, by decide, by decide, by decide⟩
  refine Reach.set st5 st6 30 (kk 5) (vN 1) (some (vN 1)) ?_ (by decide)
  refine Reach.set st4 st5 30 (kk 4) (vN 7) (some (vN 7)) ?_ (by decide)
  refine Reach.set st3 st4 30 (kk 3) (vN 0) (some (vN 0)) ?_ (by decide)
  refine Reach.set st2 st3 30 (kk 2) (vN 7) (some (vN 7)) ?_ (by decide)
  refine Reach.get st1 (kk 1) ?_
  exact Reach.set st0 st1 30 (kk 1) (vN 4) (some (vN 4)) (Reach.init 10) (by decide)
/-! ### File-ring lemmas for EvictFile -/

/-- rotAux returns a permutation of its input. -/
theorem rotAux_perm {α : Type} [DecidableEq α] :
    ∀ (n : Nat) (l : List α) (k : α), (rotAux n l k).Perm l := by
  intro n
  induction n with
  | zero =>
    intro l k
    exact List.Perm.refl l
  | succ m ih =>
    intro l k
    cases l with
    | nil => exact List.Perm.refl _
    | cons x t =>
      simp only [rotAux]
      by_cases hx : x = k
      · rw [if_pos hx]
      · rw [if_neg hx]
        exact (ih (t ++ [x]) k).trans (List.perm_append_singleton x t)

theorem rotateTo_perm {α : Type} [DecidableEq α] (l : List α) (k : α) :
    (rotateTo l k).Perm l :=
  rotAux_perm l.length l k

/-- Under key-distinctness, membership determines the lookup. -/
theorem lookupKV_mem_nodup {α β : Type} [DecidableEq α] {l : List (α × β)}
    (hnd : (l.map Prod.fst).Nodup) {p : α × β} (hp : p ∈ l) :
    lookupKV l p.1 = some p.2 := by
  induction l with
  | nil => cases hp
  | cons q t ih =>
    have hnd2 : (t.map Prod.fst).Nodup := (List.nodup_cons.mp hnd).2
    have hq : q.1 ∉ t.map Prod.fst := (List.nodup_cons.mp hnd).1
    rcases List.mem_cons.mp hp with h | h
    · subst h
      simp [lookupKV]
    · have hne : q.1 ≠ p.1 := by
        intro he
        exact hq (he ▸ List.mem_map_of_mem Prod.fst h)
      obtain ⟨a, c⟩ := q
      simp only [lookupKV, if_neg hne]
      exact ih hnd2 h

/-- putKV on a present key keeps the key list. -/
theorem map_fst_putKV_mem {α β : Type} [DecidableEq α] {l : List (α × β)} {k : α} {b : β}
    (h : k ∈ l.map Prod.fst) : (putKV l k b).map Prod.fst = l.map Prod.fst := by
  induction l with
  | nil => simp at h
  | cons q t ih =>
    obtain ⟨a, c⟩ := q
    by_cases hak : a = k
    · subst hak
      simp [putKV]
    · simp only [putKV, if_neg hak, List.map_cons]
      have h2 : k ∈ t.map Prod.fst := by
        simp only [List.map_cons, List.mem_cons] at h
        rcases h with h | h
        · exact absurd h.symm hak
        · exact h
      rw [ih h2]

/-- Under key-distinctness, what remains after eraseKV has a different key. -/
theorem mem_eraseKV_fst_ne {α β : Type} [DecidableEq α] {l : List (α × β)} {k : α}
    (hnd : (l.map Prod.fst).Nodup) {p : α × β} (hp : p ∈ eraseKV l k) : p.1 ≠ k := by
  intro he
  have hnd2 : ((eraseKV l k).map Prod.fst).Nodup := by
    rw [map_fst_eraseKV]
    exact hnd.erase k
  have hlk := lookupKV_mem_nodup hnd2 hp
  rw [he] at hlk
  rw [lookupKV_eraseKV_self hnd] at hlk
  cases hlk

/-- Under key-distinctness, a member of putKV is the new pair or an old pair
with a different key. -/
theorem mem_putKV_cases {α β : Type} [DecidableEq α] {l : List (α × β)} {k : α} {v : β}
    (hnd : ((putKV l k v).map Prod.fst).Nodup) {p : α × β} (hp : p ∈ putKV l k v) :
    p = (k, v) ∨ (p ∈ l ∧ p.1 ≠ k) := by
  by_cases hpk : p.1 = k
  · left
    have h1 := lookupKV_mem_nodup hnd hp
    rw [hpk, lookupKV_putKV_self] at h1
    injection h1 with h2
    obtain ⟨p1, p2⟩ := p
    simp only at hpk h2
    rw [hpk, ← h2]
  · right
    rcases mem_putKV hp with h | h
    · exact ⟨h, hpk⟩
    · rw [h] at hpk
      simp at hpk

/-- What shard.metaDel does to the blocks map, the shard ring and the file
rings, removing an entry found in the blocks map. -/
theorem metaDel_file_facts {c : Shard} {b : CKey} {e : Entry} (hw : FileWF c)
    (hnd : (c.entries.map Prod.fst).Nodup)
    (hlb : lookupKV c.entries b = some e) :
    FileWF (metaDel c b).1 ∧
    (∀ g, g ≠ CKey.file b → lookupKV (metaDel c b).1.files g = lookupKV c.files g) ∧
    (∀ k0, k0 ≠ b → lookupKV (metaDel c b).1.entries k0 = lookupKV c.entries k0) ∧
    lookupKV (metaDel c b).1.entries b = none ∧
    (∀ k0, k0 ≠ b → (k0 ∈ (metaDel c b).1.ring ↔ k0 ∈ c.ring)) ∧
    (ringNext (fileRing c (CKey.file b)) b = b →
      lookupKV (metaDel c b).1.files (CKey.file b) = none) ∧
    (ringNext (fileRing c (CKey.file b)) b ≠ b →
      lookupKV (metaDel c b).1.files (CKey.file b) =
        some (rotateTo ((fileRing c (CKey.file b)).erase b)
          (ringNext (fileRing c (CKey.file b)) b))) := by
  obtain ⟨hw1, hw2, hw3⟩ := hw
  have hbmem : b ∈ fileRing c (CKey.file b) := hw3 (b, e) (lookupKV_mem hlb)
  cases hfl : lookupKV c.files (CKey.file b) with
  | none =>
    exfalso
    unfold fileRing at hbmem
    rw [hfl] at hbmem
    simp at hbmem
  | some fl0 =>
    have hflmem : (CKey.file b, fl0) ∈ c.files := lookupKV_mem hfl
    obtain ⟨hfl_ne, hfl_nd, hfl_all⟩ := hw1 _ hflmem
    have hbfl : b ∈ fl0 := by
      unfold fileRing at hbmem
      rw [hfl] at hbmem
      exact hbmem
    have hfr : fileRing c (CKey.file b) = fl0 := by
      unfold fileRing
      rw [hfl]
      rfl
    have hkeyfile : CKey.file b ∈ c.files.map Prod.fst :=
      List.mem_map_of_mem Prod.fst hflmem
    have hEnt : (metaDel c b).1.entries = eraseKV c.entries b := by
      rw [metaDel_eq hlb]
    have hRing : (metaDel c b).1.ring = c.ring.erase b := by
      rw [metaDel_eq hlb]
    have hFiles : (metaDel c b).1.files =
        (if ringNext fl0 b = b then eraseKV c.files (CKey.file b)
         else putKV c.files (CKey.file b)
           (rotateTo (fl0.erase b) (ringNext fl0 b))) := by
      rw [metaDel_eq hlb, hfl]
      rfl
    have hentsub : ∀ {q : CKey × Entry}, q ∈ eraseKV c.entries b →
        q ∈ c.entries ∧ q.1 ≠ b := by
      intro q hq
      exact ⟨mem_eraseKV hq, mem_eraseKV_fst_ne hnd hq⟩
    by_cases hsing : ringNext fl0 b = b
    · have hfl0b : fl0 = [b] := (ringNext_eq_self_iff hfl_nd hbfl).mp hsing
      have hFS : (metaDel c b).1.files = eraseKV c.files (CKey.file b) := by
        rw [hFiles, if_pos hsing]
      refine ⟨⟨?_, ?_, ?_⟩, ?_, ?_, ?_, ?_, ?_, ?_⟩
      · intro p hp
        rw [hFS] at hp
        obtain ⟨h1, h2, h3⟩ := hw1 p (mem_eraseKV hp)
        have hpne : p.1 ≠ CKey.file b := mem_eraseKV_fst_ne hw2 hp
        refine ⟨h1, h2, ?_⟩
        intro k0 hk0
        obtain ⟨hkf, hkm⟩ := h3 k0 hk0
        have hk0b : k0 ≠ b := by
          intro he
          exact hpne (he ▸ hkf).symm
        refine ⟨hkf, ?_⟩
        rw [hEnt, map_fst_eraseKV]
        exact (List.mem_erase_of_ne hk0b).mpr hkm
      · rw [hFS, map_fst_eraseKV]
        exact hw2.erase _
      · intro q hq
        rw [hEnt] at hq
        obtain ⟨hqo, hq1b⟩ := hentsub hq
        have hold := hw3 q hqo
        by_cases hqf : CKey.file q.1 = CKey.file b
        · exfalso
          rw [hqf, hfr, hfl0b] at hold
          simp at hold
          exact hq1b hold
        · show q.1 ∈ (lookupKV (metaDel c b).1.files (CKey.file q.1)).getD []
          rw [hFS, lookupKV_eraseKV_ne hqf]
          exact hold
      · intro g hg
        rw [hFS, lookupKV_eraseKV_ne hg]
      · intro k0 hk0
        rw [hEnt, lookupKV_eraseKV_ne hk0]
      · rw [hEnt]
        exact lookupKV_eraseKV_self hnd
      · intro k0 hk0
        rw [hRing]
        exact List.mem_erase_of_ne hk0
      · intro _
        rw [hFS]
        exact lookupKV_eraseKV_self hw2
      · intro hcon
        rw [hfr] at hcon
        exact absurd hsing hcon
    · have hFS : (metaDel c b).1.files =
          putKV c.files (CKey.file b) (rotateTo (fl0.erase b) (ringNext fl0 b)) := by
        rw [hFiles, if_neg hsing]
      have hnx_mem : ringNext fl0 b ∈ fl0 := ringNext_mem hbfl
      have hnx_er : ringNext fl0 b ∈ fl0.erase b :=
        (List.mem_erase_of_ne hsing).mpr hnx_mem
      have hperm : (rotateTo (fl0.erase b) (ringNext fl0 b)).Perm (fl0.erase b) :=
        rotateTo_perm _ _
      have hner : rotateTo (fl0.erase b) (ringNext fl0 b) ≠ [] := by
        intro hemp
        have hmem := hperm.symm.subset hnx_er
        rw [hemp] at hmem
        cases hmem
      have hndP : ((putKV c.files (CKey.file b)
          (rotateTo (fl0.erase b) (ringNext fl0 b))).map Prod.fst).Nodup := by
        rw [map_fst_putKV_mem hkeyfile]
        exact hw2
      refine ⟨⟨?_, ?_, ?_⟩, ?_, ?_, ?_, ?_, ?_, ?_⟩
      · intro p hp
        rw [hFS] at hp
        rcases mem_putKV_cases hndP hp with hpe | ⟨hpo, hpne⟩
        · subst hpe
          refine ⟨hner, hperm.symm.nodup (hfl_nd.erase _), ?_⟩
          intro k0 hk0
          have hk0er : k0 ∈ fl0.erase b := hperm.subset hk0
          have hk0fl : k0 ∈ fl0 := List.mem_of_mem_erase hk0er
          have hk0b : k0 ≠ b := by
            intro he
            rw [he] at hk0er
            exact (List.Nodup.not_mem_erase hfl_nd) hk0er
          obtain ⟨hkf, hkm⟩ := hfl_all k0 hk0fl
          refine ⟨hkf, ?_⟩
          rw [hEnt, map_fst_eraseKV]
          exact (List.mem_erase_of_ne hk0b).mpr hkm
        · obtain ⟨h1, h2, h3⟩ := hw1 p hpo
          refine ⟨h1, h2, ?_⟩
          intro k0 hk0
          obtain ⟨hkf, hkm⟩ := h3 k0 hk0
          have hk0b : k0 ≠ b := by
            intro he
            exact hpne (he ▸ hkf).symm
          refine ⟨hkf, ?_⟩
          rw [hEnt, map_fst_eraseKV]
          exact (List.mem_erase_of_ne hk0b).mpr hkm
      · rw [hFS, map_fst_putKV_mem hkeyfile]
        exact hw2
      · intro q hq
        rw [hEnt] at hq
        obtain ⟨hqo, hq1b⟩ := hentsub hq
        have hold := hw3 q hqo
        by_cases hqf : CKey.file q.1 = CKey.file b
        · show q.1 ∈ (lookupKV (metaDel c b).1.files (CKey.file q.1)).getD []
          rw [hFS, hqf, lookupKV_putKV_self]
          show q.1 ∈ rotateTo (fl0.erase b) (ringNext fl0 b)
          have hqfl : q.1 ∈ fl0 := by
            rw [hqf, hfr] at hold
            exact hold
          exact hperm.symm.subset ((List.mem_erase_of_ne hq1b).mpr hqfl)
        · show q.1 ∈ (lookupKV (metaDel c b).1.files (CKey.file q.1)).getD []
          rw [hFS, lookupKV_putKV_ne hqf]
          exact hold
      · intro g hg
        rw [hFS, lookupKV_putKV_ne hg]
      · intro k0 hk0
        rw [hEnt, lookupKV_eraseKV_ne hk0]
      · rw [hEnt]
        exact lookupKV_eraseKV_self hnd
      · intro k0 hk0
        rw [hRing]
        exact List.mem_erase_of_ne hk0
      · intro hcon
        rw [hfr] at hcon
        exact absurd hcon hsing
      · intro _
        rw [hFS, hfr, lookupKV_putKV_self]
/-- metaEvict acts on the maps and rings exactly as metaDel (the counter
changes touch neither the blocks map nor the rings). -/
theorem metaEvict_file_facts {c : Shard} {b : CKey} {e : Entry} (hi : INV c) (hw : FileWF c)
    (hlb : lookupKV c.entries b = some e) :
    FileWF (metaEvict c b).1 ∧
    (∀ g, g ≠ CKey.file b → lookupKV (metaEvict c b).1.files g = lookupKV c.files g) ∧
    (∀ k0, k0 ≠ b → lookupKV (metaEvict c b).1.entries k0 = lookupKV c.entries k0) ∧
    lookupKV (metaEvict c b).1.entries b = none ∧
    (∀ k0, k0 ≠ b → (k0 ∈ (metaEvict c b).1.ring ↔ k0 ∈ c.ring)) ∧
    (ringNext (fileRing c (CKey.file b)) b = b →
      lookupKV (metaEvict c b).1.files (CKey.file b) = none) ∧
    (ringNext (fileRing c (CKey.file b)) b ≠ b →
      lookupKV (metaEvict c b).1.files (CKey.file b) =
        some (rotateTo ((fileRing c (CKey.file b)).erase b)
          (ringNext (fileRing c (CKey.file b)) b))) := by
  cases hty : e.ptype with
  | etHot =>
    have hred : (metaEvict c b).1 = (metaDel (dropHot c e) b).1 := by
      simp only [metaEvict, dropHot, hlb, hty]
    have hw2 : FileWF (dropHot c e) := hw
    have hnd2 : ((dropHot c e).entries.map Prod.fst).Nodup := hi.keysNodup
    have hlb2 : lookupKV (dropHot c e).entries b = some e := hlb
    have h := metaDel_file_facts hw2 hnd2 hlb2
    rw [hred]
    exact h
  | etCold =>
    have hred : (metaEvict c b).1 = (metaDel (dropCold c e) b).1 := by
      simp only [metaEvict, dropCold, hlb, hty]
    have hw2 : FileWF (dropCold c e) := hw
    have hnd2 : ((dropCold c e).entries.map Prod.fst).Nodup := hi.keysNodup
    have hlb2 : lookupKV (dropCold c e).entries b = some e := hlb
    have h := metaDel_file_facts hw2 hnd2 hlb2
    rw [hred]
    exact h
  | etTest =>
    have hred : (metaEvict c b).1 = (metaDel (dropTest c e) b).1 := by
      simp only [metaEvict, dropTest, hlb, hty]
    have hw2 : FileWF (dropTest c e) := hw
    have hnd2 : ((dropTest c e).entries.map Prod.fst).Nodup := hi.keysNodup
    have hlb2 : lookupKV (dropTest c e).entries b = some e := hlb
    have h := metaDel_file_facts hw2 hnd2 hlb2
    rw [hred]
    exact h

/-- The inner batch loop of evictFileRun removes only entries of the target
file; when it reports the file finished, none of its entries remain. -/
theorem evictFileStep_file_facts (fkey : CKey) :
    ∀ (batch : Nat) (c : Shard) (b : CKey) (acc : List (Option Value))
      (r : Shard × Bool × List (Option Value)),
      evictFileStep batch c fkey b acc = .ok r → INV c → FileWF c →
      b ∈ fileRing c fkey →
      INV r.1 ∧ FileWF r.1 ∧
      (∀ k0, CKey.file k0 ≠ fkey → lookupKV r.1.entries k0 = lookupKV c.entries k0) ∧
      (∀ g, g ≠ fkey → lookupKV r.1.files g = lookupKV c.files g) ∧
      (∀ k0, CKey.file k0 ≠ fkey → (k0 ∈ r.1.ring ↔ k0 ∈ c.ring)) ∧
      (r.2.1 = false → ∀ k0, CKey.file k0 = fkey → lookupKV r.1.entries k0 = none) := by
  intro batch
  induction batch with
  | zero =>
    intro c b acc r hs hi hw hmem
    simp only [evictFileStep] at hs
    injection hs with h1
    rw [← h1]
    refine ⟨hi, hw, fun _ _ => rfl, fun _ _ => rfl, fun _ _ => Iff.rfl, ?_⟩
    intro hfalse
    simp at hfalse
  | succ m ih =>
    intro c b acc r hs hi hw hmem
    cases hfl : lookupKV c.files fkey with
    | none =>
      exfalso
      unfold fileRing at hmem
      rw [hfl] at hmem
      simp at hmem
    | some fl0 =>
      have hflmem := lookupKV_mem hfl
      obtain ⟨hfl_ne, hfl_nd0, hfl_all0⟩ := hw.1 _ hflmem
      have hfl_nd : fl0.Nodup := hfl_nd0
      have hfl_all : ∀ k0 ∈ fl0, CKey.file k0 = fkey ∧ k0 ∈ c.entries.map Prod.fst :=
        hfl_all0
      have hfr2 : fileRing c fkey = fl0 := by
        unfold fileRing
        rw [hfl]
        rfl
      have hbfl : b ∈ fl0 := by
        rw [hfr2] at hmem
        exact hmem
      obtain ⟨hbf, hbent⟩ := hfl_all b hbfl
      cases hlbO : lookupKV c.entries b with
      | none =>
        exfalso
        rw [lookupKV_none_iff] at hlbO
        exact hlbO hbent
      | some eb =>
        obtain ⟨hFW, hFg, hEk, hEb, hRk, hSing, hNS⟩ := metaEvict_file_facts hi hw hlbO
        rw [hbf] at hFg hSing hNS
        have hiE : INV (metaEvict c b).1 := INV_metaEvict b hi
        simp only [evictFileStep] at hs
        rw [hfl] at hs
        simp only [Option.getD_some] at hs
        split at hs
        · rename_i hbn
          have hbn2 : ringNext fl0 b = b := hbn.symm
          have hfl0b : fl0 = [b] := (ringNext_eq_self_iff hfl_nd hbfl).mp hbn2
          split at hs
          · rename_i hcc
            injection hs with h1
            rw [← h1]
            refine ⟨hiE, hFW, ?_, hFg, ?_, ?_⟩
            · intro k0 hk0f
              have hk0b : k0 ≠ b := by
                intro he
                exact hk0f (by rw [he]; exact hbf)
              exact hEk k0 hk0b
            · intro k0 hk0f
              have hk0b : k0 ≠ b := by
                intro he
                exact hk0f (by rw [he]; exact hbf)
              exact hRk k0 hk0b
            · intro _ k0 hk0f
              by_cases hk0b : k0 = b
              · rw [hk0b]
                exact hEb
              · rw [hEk k0 hk0b]
                cases hq : lookupKV c.entries k0 with
                | none => rfl
                | some e0 =>
                  exfalso
                  have hm := hw.2.2 (k0, e0) (lookupKV_mem hq)
                  rw [show CKey.file (k0, e0).1 = fkey from hk0f] at hm
                  rw [hfr2, hfl0b] at hm
                  simp at hm
                  exact hk0b hm
          · simp at hs
        · rename_i hbn
          have hnx : ringNext fl0 b ≠ b := fun he => hbn he.symm
          have hlook := hNS (by rw [hfr2]; exact hnx)
          have hmem2 : ringNext fl0 b ∈ fileRing (metaEvict c b).1 fkey := by
            unfold fileRing
            rw [hlook]
            simp only [Option.getD_some]
            rw [hfr2]
            exact (rotateTo_perm _ _).symm.subset
              ((List.mem_erase_of_ne hnx).mpr (ringNext_mem hbfl))
          obtain ⟨A1, A2, A3, A4, A5, A6⟩ :=
            ih (metaEvict c b).1 (ringNext fl0 b) (acc ++ [(metaEvict c b).2]) r hs
              hiE hFW hmem2
          refine ⟨A1, A2, ?_, ?_, ?_, A6⟩
          · intro k0 hk0f
            have hk0b : k0 ≠ b := by
              intro he
              exact hk0f (by rw [he]; exact hbf)
            exact (A3 k0 hk0f).trans (hEk k0 hk0b)
          · intro g hg
            exact (A4 g hg).trans (hFg g hg)
          · intro k0 hk0f
            have hk0b : k0 ≠ b := by
              intro he
              exact hk0f (by rw [he]; exact hbf)
            exact (A5 k0 hk0f).trans (hRk k0 hk0b)

/-- One batch of evictFileRun. -/
theorem evictFileRun_file_facts {c : Shard} {fkey : CKey}
    {r : Shard × Bool × List (Option Value)}
    (hs : evictFileRun c fkey = .ok r) (hi : INV c) (hw : FileWF c) :
    INV r.1 ∧ FileWF r.1 ∧
    (∀ k0, CKey.file k0 ≠ fkey → lookupKV r.1.entries k0 = lookupKV c.entries k0) ∧
    (∀ g, g ≠ fkey → lookupKV r.1.files g = lookupKV c.files g) ∧
    (∀ k0, CKey.file k0 ≠ fkey → (k0 ∈ r.1.ring ↔ k0 ∈ c.ring)) ∧
    (r.2.1 = false → ∀ k0, CKey.file k0 = fkey → lookupKV r.1.entries k0 = none) := by
  simp only [evictFileRun] at hs
  split at hs
  · rename_i hfl
    injection hs with h1
    rw [← h1]
    refine ⟨hi, hw, fun _ _ => rfl, fun _ _ => rfl, fun _ _ => Iff.rfl, ?_⟩
    intro _ k0 hk0f
    cases hq : lookupKV c.entries k0 with
    | none => rfl
    | some e0 =>
      exfalso
      have hm := hw.2.2 (k0, e0) (lookupKV_mem hq)
      rw [show CKey.file (k0, e0).1 = fkey from hk0f] at hm
      unfold fileRing at hm
      rw [hfl] at hm
      simp at hm
  · rename_i blocks hfl
    split at hs
    · exfalso
      have hflmem := lookupKV_mem hfl
      exact (hw.1 _ hflmem).1 rfl
    · rename_i b rest
      have hbm : b ∈ fileRing c fkey := by
        unfold fileRing
        rw [hfl]
        simp only [Option.getD_some]
        exact List.mem_cons_self b rest
      exact evictFileStep_file_facts fkey 5 c b [] r hs hi hw hbm

/-- The retry loop of EvictFile. -/
theorem evictFileLoop_file_facts (fkey : CKey) :
    ∀ (n : Nat) (c : Shard) (acc : List (Option Value)) (r : Shard × List (Option Value)),
      evictFileLoop n c fkey acc = .ok r → INV c → FileWF c →
      INV r.1 ∧ FileWF r.1 ∧
      (∀ k0, CKey.file k0 ≠ fkey → lookupKV r.1.entries k0 = lookupKV c.entries k0) ∧
      (∀ g, g ≠ fkey → lookupKV r.1.files g = lookupKV c.files g) ∧
      (∀ k0, CKey.file k0 ≠ fkey → (k0 ∈ r.1.ring ↔ k0 ∈ c.ring)) ∧
      (∀ k0, CKey.file k0 = fkey → lookupKV r.1.entries k0 = none) := by
  intro n
  induction n with
  | zero =>
    intro c acc r hs hi hw
    simp only [evictFileLoop] at hs
    exact Res.noConfusion hs
  | succ m ih =>
    intro c acc r hs hi hw
    simp only [evictFileLoop] at hs
    split at hs
    · rename_i c1 vs hrun
      obtain ⟨B1, B2, B3, B4, B5, B6⟩ := evictFileRun_file_facts hrun hi hw
      obtain ⟨A1, A2, A3, A4, A5, A6⟩ := ih c1 (acc ++ vs) r hs B1 B2
      exact ⟨A1, A2, fun k0 h => (A3 k0 h).trans (B3 k0 h),
        fun g h => (A4 g h).trans (B4 g h),
        fun k0 h => (A5 k0 h).trans (B5 k0 h), A6⟩
    · rename_i c1 vs hrun
      injection hs with h1
      rw [← h1]
      obtain ⟨B1, B2, B3, B4, B5, B6⟩ := evictFileRun_file_facts hrun hi hw
      exact ⟨B1, B2, B3, B4, B5, B6 rfl⟩
    · simp at hs
    · simp at hs

/-- C8: with well-formed file rings, EvictFile removes exactly the entries
whose key's file component is the given file: afterwards no entry of that
file remains, while every entry of any other file is looked up unchanged
(same type, size, reference bit and value), keeps its shard-ring
membership, and every other file's ring is untouched. -/
theorem C8_evict_file {n : Nat} {c c' : Shard} {fkey : CKey} {vs : List (Option Value)}
    (hs : EvictFile n c fkey = .ok (c', vs)) (hi : INV c) (hw : FileWF c) :
    (∀ k0, CKey.file k0 = fkey → lookupKV c'.entries k0 = none) ∧
    (∀ k0, CKey.file k0 ≠ fkey → lookupKV c'.entries k0 = lookupKV c.entries k0) ∧
    (∀ k0, CKey.file k0 ≠ fkey → (k0 ∈ c'.ring ↔ k0 ∈ c.ring)) ∧
    (∀ g, g ≠ fkey → lookupKV c'.files g = lookupKV c.files g) := by
  have h := evictFileLoop_file_facts fkey n c [] (c', vs) hs hi hw
  exact ⟨h.2.2.2.2.2, h.2.2.1, h.2.2.2.2.1, h.2.2.2.1⟩

/-- C8 witness: a shard holding one entry of each of two files; evicting
the first file empties it and leaves the second file's entry and ring
untouched. -/
theorem C8_evict_file_witness :
    lookupKV c8r.entries (kk 1) = none ∧
    lookupKV c8r.entries (kf2 1) = lookupKV c8b.entries (kf2 1) ∧
    lookupKV c8r.files (CKey.file (kf2 1)) = lookupKV c8b.files (CKey.file (kf2 1)) := by
  have hr : Reach c8b := by
    refine Reach.set c8a c8b 9 (kf2 1) (vN 4) (some (vN 4)) ?_ (by decide)
    exact Reach.set (initShard 100) c8a 9 (kk 1) (vN 3) (some (vN 3))
      (Reach.init 100) (by decide)
  have h := @C8_evict_file 3 c8b c8r (CKey.file (kk 1)) [some (vN 3)] (by decide)
    (Reach_INV hr) ⟨by decide, by decide, by decide⟩
  exact ⟨h.1 (kk 1) (by decide), h.2.1 (kf2 1) (by decide),
    h.2.2.2 (CKey.file (kf2 1)) (by decide)⟩
end Clockpro







